import Mathlib

/-!
# Verification of the WebcrawlerFull crawl engine

Shallow embedding of the crawler worker and server (Python) into Lean 4:

* `normalize_url` and its helpers model `worker/src/tasks.py:normalize_url`
  together with the CPython 3.11 `urllib.parse.urlsplit` / `urlunsplit`
  functions it calls.
* The pattern extractors, link discoverer, sequential expander, the per-domain
  crawl pipeline and the storage layer are modelled further below.

Strings are modelled as `List Char`; `String` wrappers are provided where the
original functions take strings.  Python `str.lower` is modelled ASCII-only
(the repository only handles ASCII URLs).
-/

namespace Webcrawler

/-- ASCII lower-casing of one character, models Python `str.lower` on the
ASCII range (the only range exercised by the crawler). -/
def lowerChar (c : Char) : Char :=
  match c with
  | 'A' => 'a' | 'B' => 'b' | 'C' => 'c' | 'D' => 'd' | 'E' => 'e'
  | 'F' => 'f' | 'G' => 'g' | 'H' => 'h' | 'I' => 'i' | 'J' => 'j'
  | 'K' => 'k' | 'L' => 'l' | 'M' => 'm' | 'N' => 'n' | 'O' => 'o'
  | 'P' => 'p' | 'Q' => 'q' | 'R' => 'r' | 'S' => 's' | 'T' => 't'
  | 'U' => 'u' | 'V' => 'v' | 'W' => 'w' | 'X' => 'x' | 'Y' => 'y'
  | 'Z' => 'z'
  | c => c

/-- Abbreviation turning a string literal into its character list. -/
def cs (s : String) : List Char := s.data

/-- Python `pat in hay` on strings: substring containment. -/
def hasSubstr : List Char → List Char → Bool
  | [], pat => pat.isEmpty
  | hay@(_ :: t), pat => pat.isPrefixOf hay || hasSubstr t pat

/-- Split at the first occurrence of `c`; second component is `none` when `c`
does not occur.  Models `s.split(c, 1)` guarded by `c in s`. -/
def breakAt (c : Char) : List Char → List Char × Option (List Char)
  | [] => ([], none)
  | a :: t =>
    if a = c then ([], some t)
    else
      let r := breakAt c t
      (a :: r.1, r.2)

/-- Python `query.split('&')`. -/
def splitAmp : List Char → List (List Char)
  | [] => [[]]
  | c :: t =>
    if c = '&' then [] :: splitAmp t
    else
      match splitAmp t with
      | [] => [[c]]
      | h :: r => (c :: h) :: r

/-- Python `'&'.join(params)`. -/
def joinAmp : List (List Char) → List Char
  | [] => []
  | [p] => p
  | p :: r => p ++ '&' :: joinAmp r

/-- Python `path.rstrip('/')`. -/
def rstripSlash (l : List Char) : List Char :=
  (l.reverse.dropWhile (fun c => c = '/')).reverse

/-! ## Model of CPython 3.11 `urllib.parse.urlsplit` / `urlunsplit`

Faithful to the CPython source except that the `ValueError` branches for
malformed IPv6 brackets and non-NFKC netlocs are not modelled (on those inputs
`normalize_url` catches the exception and returns its argument unchanged, so
they are irrelevant to the properties proved here). -/

/-- The result of `urlsplit`. -/
structure SplitUrl where
  scheme : List Char
  netloc : List Char
  path : List Char
  query : List Char
  fragment : List Char
deriving Repr, DecidableEq

/-- `urllib.parse.scheme_chars`. -/
def schemeChar (c : Char) : Bool :=
  c.isAlpha || c.isDigit || c = '+' || c = '-' || c = '.'

/-- WHATWG C0-control-or-space, stripped from the left of the URL. -/
def strippableChar (c : Char) : Bool := c.toNat ≤ 32

/-- `_UNSAFE_URL_BYTES_TO_REMOVE`, removed everywhere in the URL. -/
def unsafeChar (c : Char) : Bool := c = '\t' || c = '\r' || c = '\n'

/-- The initial cleanup performed by `urlsplit`. -/
def cleanUrl (l : List Char) : List Char :=
  (l.dropWhile strippableChar).filter (fun c => !unsafeChar c)

/-- Scheme extraction step of `urlsplit`: a scheme is present when the first
`:` has a non-empty prefix of scheme characters starting with a letter; the
scheme is lower-cased. -/
def splitScheme (l : List Char) : List Char × List Char :=
  match breakAt ':' l with
  | (pre, some rest) =>
    if (match pre with | [] => false | c :: _ => c.isAlpha) && pre.all schemeChar
    then (pre.map lowerChar, rest)
    else ([], l)
  | (_, none) => ([], l)

/-- Characters terminating the netloc in `_splitnetloc`. -/
def netlocDelim (c : Char) : Bool := c = '/' || c = '?' || c = '#'

/-- Model of `urllib.parse.urlsplit`. -/
def urlsplitChars (u : List Char) : SplitUrl :=
  let l := cleanUrl u
  let sp := splitScheme l
  let nl :=
    match sp.2 with
    | '/' :: '/' :: t =>
      (t.takeWhile (fun c => !netlocDelim c), t.dropWhile (fun c => !netlocDelim c))
    | r => ([], r)
  let pf := breakAt '#' nl.2
  let pq := breakAt '?' pf.1
  ⟨sp.1, nl.1, pq.1, pq.2.getD [], pf.2.getD []⟩

/-- `urllib.parse.uses_netloc` (the schemes relevant to `urlunsplit`). -/
def usesNetlocSchemes : List (List Char) :=
  [cs "ftp", cs "http", cs "gopher", cs "nntp", cs "telnet", cs "imap",
   cs "wais", cs "file", cs "mms", cs "https", cs "shttp", cs "snews",
   cs "prospero", cs "rtsp", cs "rtsps", cs "rtspu", cs "rsync", cs "svn",
   cs "svn+ssh", cs "sftp", cs "nfs", cs "git", cs "git+ssh", cs "ws",
   cs "wss"]

/-- Model of `urllib.parse.urlunsplit` (CPython 3.11). -/
def urlunsplitChars (p : SplitUrl) : List Char :=
  let url := p.path
  let url :=
    if p.netloc ≠ [] ∨
       (p.scheme ≠ [] ∧ usesNetlocSchemes.contains p.scheme ∧ url.take 2 ≠ cs "//")
    then
      let url1 := if url ≠ [] ∧ url.take 1 ≠ cs "/" then '/' :: url else url
      cs "//" ++ p.netloc ++ url1
    else url
  let url := if p.scheme ≠ [] then p.scheme ++ ':' :: url else url
  let url := if p.query ≠ [] then url ++ '?' :: p.query else url
  let url := if p.fragment ≠ [] then url ++ '#' :: p.fragment else url
  url

/-! ## Model of `worker/src/tasks.py:normalize_url` -/

/-- The `excluded_params` list of `normalize_url`. -/
def excludedParams : List (List Char) :=
  [cs "utm_source", cs "utm_medium", cs "utm_campaign", cs "ref", cs "session",
   cs "tracking", cs "click", cs "affiliate", cs "source"]

/-- `param.split('=')[0]`. -/
def paramName (p : List Char) : List Char := p.takeWhile (fun c => c ≠ '=')

/-- The filter applied to each query parameter by `normalize_url`: the
parameter is kept when it is non-empty, has an `=` sign, and its lower-cased
name contains none of the excluded names as a substring. -/
def keepParam (p : List Char) : Bool :=
  !p.isEmpty && p.contains '=' &&
    !(excludedParams.any (fun e => hasSubstr ((paramName p).map lowerChar) e))

/-- The query rewriting of `normalize_url`. -/
def filterQueryChars (q : List Char) : List Char :=
  joinAmp ((splitAmp q).filter keepParam)

/-- Model of `normalize_url` on character lists: split, lower-case the netloc,
strip trailing `/` from the path, filter tracking parameters, drop the
fragment, reassemble. -/
def normChars (u : List Char) : List Char :=
  let p := urlsplitChars u
  urlunsplitChars ⟨p.scheme, p.netloc.map lowerChar, rstripSlash p.path,
                   filterQueryChars p.query, []⟩

/-- `worker/src/tasks.py:normalize_url`. -/
def normalize_url (u : String) : String := ⟨normChars u.data⟩

example : normalize_url "https://Shop.Test/products/X/?utm_source=fb&ref=abc#top"
    = "https://shop.test/products/X" := by decide

example : normalize_url "http://h/p?preference=1&resource=2&flag&x=1"
    = "http://h/p?x=1" := by decide

example : normalize_url "http:////X" = "http://X" := by decide

example : normalize_url "http://X" = "http://x" := by decide

example : normalize_url "http:abc" = "http:///abc" := by decide

example : normalize_url "" = "" := by decide

/-! ## A deterministic matcher engine for the regexes used by the crawler

Each regex literal of the Python source is embedded as an executable search
function `List Char → Bool` (`re.search(pattern, s) is not None`).  The
patterns used by the crawler are deterministic (greedy matching never needs
backtracking to decide satisfiability), except the two shapes
`/[class]+LIT\d+` which get a dedicated backtracking search
(`slashRunLitSearch`). -/

/-- A prefix matcher: consumes a prefix of the input, returns the remainder. -/
def Matcher := List Char → Option (List Char)

/-- Literal string. -/
def mLit (s : List Char) : Matcher := fun l =>
  if s.isPrefixOf l then some (l.drop s.length) else none

/-- `[class]+`: one or more characters of a class, greedy. -/
def mClassPlus (p : Char → Bool) : Matcher := fun l =>
  match l with
  | [] => none
  | c :: t => if p c then some (t.dropWhile p) else none

/-- `[class]`: exactly one character of a class. -/
def mClassOne (p : Char → Bool) : Matcher := fun l =>
  match l with
  | [] => none
  | c :: t => if p c then some t else none

/-- `[class]{n}`: exactly `n` characters of a class. -/
def mClassCount (n : Nat) (p : Char → Bool) : Matcher := fun l =>
  if (l.take n).length = n && (l.take n).all p then some (l.drop n) else none

/-- `[class]{n,}`: at least `n` characters of a class, greedy. -/
def mClassAtLeast (n : Nat) (p : Char → Bool) : Matcher := fun l =>
  let run := l.takeWhile p
  if n ≤ run.length then some (l.drop run.length) else none

/-- `c?`: an optional character, greedy. -/
def mOptChar (c : Char) : Matcher := fun l =>
  match l with
  | [] => some []
  | a :: t => if a = c then some t else some l

/-- `$`: end of input. -/
def mEnd : Matcher := fun l => if l.isEmpty then some [] else none

/-- Sequencing of matchers. -/
def mSeq : List Matcher → Matcher
  | [], l => some l
  | m :: r, l =>
    match m l with
    | some l2 => mSeq r l2
    | none => none

/-- Auxiliary fuelled loop for `mPlus`. -/
def mRepeatAux (m : Matcher) : Nat → List Char → List Char
  | 0, l => l
  | fuel + 1, l =>
    match m l with
    | some l2 => if l2.length < l.length then mRepeatAux m fuel l2 else l
    | none => l

/-- `(...)+`: one or more repetitions, greedy (every body used here consumes
at least one character). -/
def mPlus (m : Matcher) : Matcher := fun l =>
  match m l with
  | some l2 => if l2.length < l.length then some (mRepeatAux m l2.length l2) else some l2
  | none => none

/-- `re.search`: try the matcher at every position. -/
def mSearch (m : Matcher) : List Char → Bool
  | [] => (m []).isSome
  | l@(_ :: t) => (m l).isSome || mSearch m t

/-- Does `lit` followed by a digit start here? -/
def litDigitPrefix (lit : List Char) (l : List Char) : Bool :=
  lit.isPrefixOf l &&
    (match l.drop lit.length with | d :: _ => d.isDigit | [] => false)

/-- After one class character has been consumed: either `lit` + digit matches
here, or consume another class character (full backtracking for
`[class]+LIT\d+`). -/
def runThenLit (p : Char → Bool) (lit : List Char) : List Char → Bool
  | [] => false
  | c :: t => p c && (litDigitPrefix lit t || runThenLit p lit t)

/-- `re.search` for the shape `/[class]+LIT\d+` (the class contains the
characters of `LIT`, so this shape needs backtracking). -/
def slashRunLitSearch (p : Char → Bool) (lit : List Char) : List Char → Bool
  | [] => false
  | c :: t => (c = '/' && runThenLit p lit t) || slashRunLitSearch p lit t

/-- `[a-zA-Z0-9-_]`. -/
def wordDash (c : Char) : Bool := c.isAlpha || c.isDigit || c = '-' || c = '_'

/-- `[a-zA-Z0-9-]`. -/
def alnumDash (c : Char) : Bool := c.isAlpha || c.isDigit || c = '-'

/-- `[A-Z0-9]`. -/
def upperDigit (c : Char) : Bool := c.isUpper || c.isDigit

/-- `[^/]`. -/
def notSlash (c : Char) : Bool := c != '/'

/-- `[?&]`. -/
def qAmp (c : Char) : Bool := c = '?' || c = '&'

/-- `re.search` for a deterministic matcher sequence. -/
def reSearch (ms : List Matcher) : List Char → Bool := mSearch (mSeq ms)

/-! ### `PATTERNS` from `worker/src/utils/config.py` -/

/-- The 22 regexes of `PATTERNS`, in source order, as search functions. -/
def PATTERNS : List (List Char → Bool) :=
  [ -- r'/product[s]?/[a-zA-Z0-9-_]+'
    reSearch [mLit (cs "/product"), mOptChar 's', mLit (cs "/"), mClassPlus wordDash],
    -- r'/item[s]?/[a-zA-Z0-9-_]+'
    reSearch [mLit (cs "/item"), mOptChar 's', mLit (cs "/"), mClassPlus wordDash],
    -- r'/p/[a-zA-Z0-9-_]+'
    reSearch [mLit (cs "/p/"), mClassPlus wordDash],
    -- r'/products?(?:[-/][a-zA-Z0-9-_]+)+'
    reSearch [mLit (cs "/product"), mOptChar 's',
              mPlus (mSeq [mClassOne (fun c => c = '-' || c = '/'), mClassPlus wordDash])],
    -- r'/shop/[a-zA-Z0-9-_]+'
    reSearch [mLit (cs "/shop/"), mClassPlus wordDash],
    -- r'/store/[^/]+/product[s]?/[a-zA-Z0-9-_]+'
    reSearch [mLit (cs "/store/"), mClassPlus notSlash, mLit (cs "/product"),
              mOptChar 's', mLit (cs "/"), mClassPlus wordDash],
    -- r'/category/[^/]+/[a-zA-Z0-9-_]+'
    reSearch [mLit (cs "/category/"), mClassPlus notSlash, mLit (cs "/"), mClassPlus wordDash],
    -- r'/detail[s]?/[a-zA-Z0-9-_]+'
    reSearch [mLit (cs "/detail"), mOptChar 's', mLit (cs "/"), mClassPlus wordDash],
    -- r'/pd[x]?/[a-zA-Z0-9-_]+'
    reSearch [mLit (cs "/pd"), mOptChar 'x', mLit (cs "/"), mClassPlus wordDash],
    -- r'/buy/[a-zA-Z0-9-_]+'
    reSearch [mLit (cs "/buy/"), mClassPlus wordDash],
    -- r'/goods/[a-zA-Z0-9-_]+'
    reSearch [mLit (cs "/goods/"), mClassPlus wordDash],
    -- r'/item-[0-9]+\.html'
    reSearch [mLit (cs "/item-"), mClassPlus Char.isDigit, mLit (cs ".html")],
    -- r'/[a-zA-Z0-9-_]+-p-\d+'
    slashRunLitSearch wordDash (cs "-p-"),
    -- r'/collection[s]?/[a-zA-Z0-9-_]+'
    reSearch [mLit (cs "/collection"), mOptChar 's', mLit (cs "/"), mClassPlus wordDash],
    -- r'/category/[a-zA-Z0-9-_]+'
    reSearch [mLit (cs "/category/"), mClassPlus wordDash],
    -- r'/department/[a-zA-Z0-9-_]+'
    reSearch [mLit (cs "/department/"), mClassPlus wordDash],
    -- r'/dp/[A-Z0-9]+'
    reSearch [mLit (cs "/dp/"), mClassPlus upperDigit],
    -- r'/gp/product/[A-Z0-9]+'
    reSearch [mLit (cs "/gp/product/"), mClassPlus upperDigit],
    -- r'/[A-Z0-9]{10,}'
    reSearch [mLit (cs "/"), mClassAtLeast 10 upperDigit],
    -- r'product_id=\d+'
    reSearch [mLit (cs "product_id="), mClassPlus Char.isDigit],
    -- r'item_id=\d+'
    reSearch [mLit (cs "item_id="), mClassPlus Char.isDigit],
    -- r'pid=\d+'
    reSearch [mLit (cs "pid="), mClassPlus Char.isDigit] ]

/-- `DOMAIN_PATTERNS` from `worker/src/utils/config.py`, as an association
list in dict insertion order (the order the `ConfigParser` iterates). -/
def DOMAIN_PATTERNS : List (List Char × List (List Char → Bool)) :=
  [ (cs "default", PATTERNS),
    (cs "amazon",
      [reSearch [mLit (cs "/dp/"), mClassCount 10 upperDigit],
       reSearch [mLit (cs "/gp/product/"), mClassCount 10 upperDigit]]),
    (cs "shopify",
      [reSearch [mLit (cs "/products/"), mClassPlus alnumDash],
       reSearch [mLit (cs "/collections/"), mClassPlus notSlash,
                 mLit (cs "/products/"), mClassPlus alnumDash]]),
    (cs "woocommerce",
      [reSearch [mLit (cs "/product/"), mClassPlus alnumDash],
       reSearch [mLit (cs "/shop/"), mClassPlus alnumDash]]),
    (cs "magento",
      [reSearch [mLit (cs "/catalog/product/view/id/"), mClassPlus Char.isDigit],
       reSearch [mLit (cs "/"), mClassPlus alnumDash, mLit (cs ".html")]]),
    (cs "bigcommerce",
      [reSearch [mLit (cs "/products/"), mClassPlus alnumDash],
       slashRunLitSearch alnumDash (cs "-p")]) ]

/-- `PAGINATION_PATTERNS` from `worker/src/utils/config.py`. -/
def PAGINATION_PATTERNS : List (List Char → Bool) :=
  [ reSearch [mClassOne qAmp, mLit (cs "page="), mClassPlus Char.isDigit],
    reSearch [mClassOne qAmp, mLit (cs "p="), mClassPlus Char.isDigit],
    reSearch [mLit (cs "/page/"), mClassPlus Char.isDigit],
    reSearch [mLit (cs "/p/"), mClassPlus Char.isDigit, mEnd],
    reSearch [mLit (cs "-page-"), mClassPlus Char.isDigit],
    reSearch [mLit (cs "_p"), mClassPlus Char.isDigit],
    reSearch [mLit (cs "offset="), mClassPlus Char.isDigit],
    reSearch [mLit (cs "start="), mClassPlus Char.isDigit],
    reSearch [mLit (cs "from="), mClassPlus Char.isDigit] ]

/-- The category-priority regexes of `crawl_single_domain_async`
(`/category/`, `/collection`, `/products?/`, `/shop/`, `/department/`,
`/catalog/`, `/items?/`). -/
def category_patterns : List (List Char → Bool) :=
  [ reSearch [mLit (cs "/category/")],
    reSearch [mLit (cs "/collection")],
    reSearch [mLit (cs "/product"), mOptChar 's', mLit (cs "/")],
    reSearch [mLit (cs "/shop/")],
    reSearch [mLit (cs "/department/")],
    reSearch [mLit (cs "/catalog/")],
    reSearch [mLit (cs "/item"), mOptChar 's', mLit (cs "/")] ]

/-! ## Model of `urllib.parse.urljoin`

Faithful to CPython for references without `.`/`..` path segments and without
`;` parameters (the crawler and all inputs considered here use neither; the
dot-segment resolution step is therefore the identity). -/

/-- `urllib.parse.uses_relative`. -/
def usesRelativeSchemes : List (List Char) :=
  [[], cs "ftp", cs "http", cs "gopher", cs "nntp", cs "imap", cs "wais",
   cs "file", cs "https", cs "shttp", cs "mms", cs "prospero", cs "rtsp",
   cs "rtsps", cs "rtspu", cs "sftp", cs "svn", cs "svn+ssh", cs "ws", cs "wss"]

/-- `urllib.parse.uses_netloc` as consulted by `urljoin` (includes the empty
scheme). -/
def usesNetlocJoin : List (List Char) := [] :: usesNetlocSchemes

/-- Model of `urllib.parse.urljoin` (no dot-segment resolution). -/
def urljoinChars (base rel : List Char) : List Char :=
  if base = [] then rel
  else if rel = [] then base
  else
    let b := urlsplitChars base
    let r := urlsplitChars rel
    let scheme := if r.scheme = [] then b.scheme else r.scheme
    if scheme ≠ b.scheme ∨ ¬ usesRelativeSchemes.contains scheme then rel
    else if usesNetlocJoin.contains scheme ∧ r.netloc ≠ [] then
      urlunsplitChars ⟨scheme, r.netloc, r.path, r.query, r.fragment⟩
    else
      let netloc := if usesNetlocJoin.contains scheme then b.netloc else r.netloc
      if r.path = [] then
        let query := if r.query = [] then b.query else r.query
        urlunsplitChars ⟨scheme, netloc, b.path, query, r.fragment⟩
      else if r.path.take 1 = cs "/" then
        urlunsplitChars ⟨scheme, netloc, r.path, r.query, r.fragment⟩
      else
        let bdir := (b.path.reverse.dropWhile (fun c => c ≠ '/')).reverse
        urlunsplitChars ⟨scheme, netloc, bdir ++ r.path, r.query, r.fragment⟩

example : urljoinChars (cs "EX.com") (cs "/p/99?utm_source=x#top")
    = cs "/p/99?utm_source=x#top" := by decide
example : urljoinChars (cs "EX.com") (cs "https://EX.com/p/7")
    = cs "https://EX.com/p/7" := by decide
example : urljoinChars (cs "https://a.com/product") (cs "/next")
    = cs "https://a.com/next" := by decide
example : urljoinChars (cs "https://a.com/x/y") (cs "z")
    = cs "https://a.com/x/z" := by decide
example : urljoinChars (cs "https://a.com/b") (cs "//c.com/d")
    = cs "https://c.com/d" := by decide
example : urljoinChars (cs "https://a.com/b") (cs "#f")
    = cs "https://a.com/b#f" := by decide

/-! ## HTML model and the pattern extractors

An HTML document is modelled by its list of `<a href=...>` anchors (the only
part of the document any of the crawler components reads): the `href`
attribute value and the visible text. -/

/-- One `<a href=...>` tag. -/
structure Anchor where
  href : String
  txt : String
deriving Repr, DecidableEq

/-- A parsed HTML document: its anchor tags, in document order. -/
abbrev Html := List Anchor

/-- Insertion into a Python `set`, determinized to insertion order. -/
def insertNew (l : List String) (x : String) : List String :=
  if l.contains x then l else l ++ [x]

/-- `set.update`, determinized to insertion order. -/
def insertAllNew (l : List String) (xs : List String) : List String :=
  xs.foldl insertNew l

/-- Lexicographic (code-point) order on character lists, Python `<=`. -/
def charListLe : List Char → List Char → Bool
  | [], _ => true
  | _ :: _, [] => false
  | a :: s, b :: t => if a = b then charListLe s t else decide (a < b)

/-- Insert into an ascending list. -/
def insertSorted (x : String) : List String → List String
  | [] => [x]
  | y :: t => if charListLe x.data y.data then x :: y :: t else y :: insertSorted x t

/-- Sort a list of strings ascending (Python `sorted`). -/
def sortStrings (l : List String) : List String :=
  l.foldr insertSorted []

/-- `worker/src/parsers/_pattern_parser.py:parse`: resolve every anchor href
against the base URL, keep those matched by some pattern, strip trailing `/`,
deduplicate, sort. -/
def patternParse (html : Html) (base_url : String) (patterns : List (List Char → Bool)) :
    List String :=
  if patterns.isEmpty then []
  else
    let links := html.foldl (fun acc a =>
      let full_url := urljoinChars base_url.data a.href.data
      if patterns.any (fun p => p full_url) then insertNew acc ⟨rstripSlash full_url⟩
      else acc) []
    sortStrings links

/-- `worker/src/parsers/simple_parser.py:SimpleParser.parse`. -/
def simpleParse (html : Html) (base_url : String) : List String :=
  patternParse html base_url PATTERNS

/-- Association-list lookup used for `DOMAIN_PATTERNS`. -/
def lookupPatterns (key : List Char) : List (List Char → Bool) :=
  match DOMAIN_PATTERNS.find? (fun kv => kv.1 == key) with
  | some kv => kv.2
  | none => []

/-- `worker/src/parsers/config_parser.py:ConfigParser.parse`: pick the first
`DOMAIN_PATTERNS` key matching the host of the base URL (dict insertion
order, `re.search` of the key in the netloc), defaulting to `"default"`. -/
def configParse (html : Html) (domain : String) : List String :=
  let netloc := (urlsplitChars domain.data).netloc
  let key :=
    match (DOMAIN_PATTERNS.map (fun kv => kv.1)).find? (fun k => hasSubstr netloc k) with
    | some k => k
    | none => cs "default"
  patternParse html domain (lookupPatterns key)

/-- Python `text.strip().lower()` (ASCII model). -/
def stripLower (l : List Char) : List Char :=
  (((l.dropWhile Char.isWhitespace).reverse.dropWhile Char.isWhitespace).reverse).map lowerChar

/-- The pagination text indicators of `find_urls`. -/
def paginationIndicators : List (List Char) :=
  [cs "next", cs "page", cs "»", cs ">", cs "load more", cs "show more"]

/-- `worker/src/tasks.py:find_urls`: classify every internal anchor as
pagination (by visible text or by href shape) or generic navigation; return
pagination links first, then the remaining internal links.  Python set
iteration is determinized to insertion order. -/
def find_urls (html : Html) (base_url : String) (domain_netloc : String) : List String :=
  let step := fun (acc : List String × List String) (a : Anchor) =>
    if a.href.isEmpty then acc
    else
      let full_url := urljoinChars base_url.data a.href.data
      let parsed_netloc := (urlsplitChars full_url).netloc
      if parsed_netloc = [] ∨ parsed_netloc = domain_netloc.data then
        let txt := stripLower a.txt.data
        let is_pagination :=
          paginationIndicators.any (fun ind => hasSubstr txt ind) ||
            PAGINATION_PATTERNS.any (fun p => p a.href.data)
        if is_pagination then (insertNew acc.1 ⟨full_url⟩, acc.2)
        else (acc.1, insertNew acc.2 ⟨full_url⟩)
      else acc
  let r := html.foldl step ([], [])
  r.1 ++ r.2.filter (fun u => !r.1.contains u)

/-! ## Model of `worker/src/tasks.py:generate_sequential_urls`

The five capture regexes `r'/(\d+)(?:/|$)'`, `r'p=(\d+)'`, `r'page=(\d+)'`,
`r'-p(\d+)'`, `r'_(\d+)\.html'` share the shape
`PRE (\d+) POST` with `POST` either empty, a literal, or `/`-or-end; they are
embedded by a dedicated capture engine. `random.sample` is modelled by a
`sampler` parameter supplied by the caller. -/

/-- The five numeric capture patterns, in source order. -/
inductive CapKind where
  | slashNum    -- r'/(\d+)(?:/|$)'
  | pEq         -- r'p=(\d+)'
  | pageEq      -- r'page=(\d+)'
  | dashP       -- r'-p(\d+)'
  | underHtml   -- r'_(\d+)\.html'
deriving Repr, DecidableEq

/-- The literal prefix of a capture pattern. -/
def capPre : CapKind → List Char
  | .slashNum => cs "/"
  | .pEq => cs "p="
  | .pageEq => cs "page="
  | .dashP => cs "-p"
  | .underHtml => cs "_"

/-- Digit-string to integer (`int(...)`). -/
def digitsVal (ds : List Char) : Nat :=
  ds.foldl (fun a c => a * 10 + (c.toNat - 48)) 0

/-- The digit run following the pattern prefix in `l`. -/
def capDigits (k : CapKind) (l : List Char) : List Char :=
  (l.drop (capPre k).length).takeWhile Char.isDigit

/-- What remains of `l` after the pattern prefix and the digit run. -/
def capRest (k : CapKind) (l : List Char) : List Char :=
  (l.drop (capPre k).length).drop (capDigits k l).length

/-- Try a capture pattern at the head of `l`.  Returns the captured integer,
the number of characters consumed by the whole match, and the text matched
after the digits (`m.group(0) = capPre ++ digits ++ post`). -/
def capMatchAt (k : CapKind) (l : List Char) : Option (Nat × Nat × List Char) :=
  if (capPre k).isPrefixOf l then
    if (capDigits k l).isEmpty then none
    else
      match k with
      | .slashNum =>
        match capRest k l with
        | '/' :: _ => some (digitsVal (capDigits k l),
            (capPre k).length + (capDigits k l).length + 1, ['/'])
        | [] => some (digitsVal (capDigits k l),
            (capPre k).length + (capDigits k l).length, [])
        | _ => none
      | .underHtml =>
        if (cs ".html").isPrefixOf (capRest k l) then
          some (digitsVal (capDigits k l),
            (capPre k).length + (capDigits k l).length + 5, cs ".html")
        else none
      | _ => some (digitsVal (capDigits k l),
          (capPre k).length + (capDigits k l).length, [])
  else none

/-- `re.search` for a capture pattern: the leftmost match's captured integer. -/
def capSearch (k : CapKind) : List Char → Option Nat
  | [] => none
  | l@(_ :: t) =>
    match capMatchAt k l with
    | some r => some r.1
    | none => capSearch k t

/-- Fuelled core of `capSubAll`. -/
def capSubAllAux (k : CapKind) (v : Nat) : Nat → List Char → List Char
  | 0, l => l
  | _ + 1, [] => []
  | fuel + 1, l@(c :: t) =>
    match capMatchAt k l with
    | some (_, consumed, post) =>
      capPre k ++ cs (toString v) ++ post ++ capSubAllAux k v fuel (l.drop consumed)
    | none => c :: capSubAllAux k v fuel t

/-- `re.sub(pattern, lambda m: m.group(0).replace(m.group(1), str(v)), url)`:
replace the captured digits of every match by `v`. -/
def capSubAll (k : CapKind) (url : List Char) (v : Nat) : List Char :=
  capSubAllAux k v url.length url

/-- The siblings for one loop index `i`: increment always, decrement only
when `num > i`. -/
def nearbySiblings (k : CapKind) (url : List Char) (num i : Nat) : List String :=
  [⟨capSubAll k url (num + i)⟩] ++
    (if i < num then [⟨capSubAll k url (num - i)⟩] else [])

/-- The sibling URLs generated for one match (`for i in range(1, 4)`). -/
def nearbyUrls (k : CapKind) (url : List Char) (num : Nat) : List String :=
  (List.range 3).foldl (fun acc j => acc ++ nearbySiblings k url num (j + 1)) []

/-- One pass of the inner `for url in sample_urls` loop for a fixed pattern:
whether the pattern matched anywhere, and the accumulated set. -/
def genForPattern (k : CapKind) (sample : List String) : Bool × List String :=
  sample.foldl (fun acc url =>
    match capSearch k url.data with
    | some num => (true, insertAllNew acc.2 (nearbyUrls k url.data num))
    | none => acc) (false, [])

/-- The outer `for pattern in number_patterns` loop with its
`if pattern_found: break`. -/
def genLoop : List CapKind → List String → List String
  | [], _ => []
  | k :: rest, sample =>
    if (genForPattern k sample).1 then (genForPattern k sample).2
    else genLoop rest sample

/-- The pattern list `number_patterns`, in source order. -/
def number_patterns : List CapKind :=
  [.slashNum, .pEq, .pageEq, .dashP, .underHtml]

/-- `worker/src/tasks.py:generate_sequential_urls`.  `sampler` models
`random.sample(product_urls_list, min(10, len))`; the accumulated Python set
is determinized to insertion order. -/
def generate_sequential_urls (sampler : List String → List String)
    (product_urls : List String) (max_urls : Nat) : List String :=
  if product_urls.length < 3 then []
  else
    let sample_urls := sampler product_urls
    let seq := genLoop number_patterns sample_urls
    (seq.filter (fun u => !product_urls.contains u)).take max_urls

example :
    generate_sequential_urls id
      ["https://s.com/product/100", "https://s.com/product/101", "https://s.com/product/102"] 30
    = ["https://s.com/product/99", "https://s.com/product/98", "https://s.com/product/103",
       "https://s.com/product/97", "https://s.com/product/104", "https://s.com/product/105"] := by
  decide

example :
    simpleParse [⟨"/p/99?utm_source=x#top", ""⟩, ⟨"https://EX.com/p/7", ""⟩] "EX.com"
    = ["/p/99?utm_source=x#top", "https://EX.com/p/7"] := by decide

example :
    simpleParse [⟨"/p/99?utm_source=x#top", ""⟩, ⟨"/about", ""⟩] "https://EX.com"
    = ["https://EX.com/p/99?utm_source=x#top"] := by decide

/-! ## The per-domain crawl pipeline (`worker/src/tasks.py`)

`fetch_page_async` is not under `src/` (it is imported from
`utils.fetcher` but not defined there); per the spec (§4.1) it returns the
page HTML or nil and never raises.  It is modelled by an oracle
`String → Nat → Option Html` (URL and attempt number); `none` models both a
failed fetch and an empty body (the `if not html_content` test).  The
`ParserType` enum comes from the missing `constants.py`; the spec (§3, §4.2)
fixes the parser names. -/

/-- Modelled from the spec: the `ParserType` enum of the worker's missing
`constants.py`; parser names are `simple`, `config`, `ai` (§3 ParserStats). -/
inductive ParserType where
  | SIMPLE
  | CONFIG
  | AI
deriving Repr, DecidableEq

/-- The `.value` of the enum member (the parser-name string). -/
def ParserType.value : ParserType → String
  | .SIMPLE => "simple"
  | .CONFIG => "config"
  | .AI => "ai"

/-- `PARSERS_TO_USE` from `worker/src/utils/config.py`. -/
def PARSERS_TO_USE : List ParserType := [.SIMPLE, .CONFIG]

/-- The parser dictionary passed around by the engine: a parse function per
`ParserType`. -/
abbrev Parsers := ParserType → Html → String → List String

/-- The four parser-name strings of `parser_stats`. -/
def statNames : List String := ["simple", "config", "ai", "sequential"]

/-- Mutable per-pipeline statistics state: the `url_first_found_by` dict
(insertion-ordered, first write wins), the per-parser `total` counters and
`domains` contribution sets. -/
structure CrawlState where
  firstFound : List (String × String)
  totals : String → Nat
  contrib : String → List String

/-- The initial `CrawlState`. -/
def initState : CrawlState := ⟨[], fun _ => 0, fun _ => []⟩

/-- `if found_url not in url_first_found_by: url_first_found_by[found_url] = name`. -/
def ffInsert (ff : List (String × String)) (url name : String) : List (String × String) :=
  if ff.any (fun e => e.1 == url) then ff else ff ++ [(url, name)]

/-- Pointwise counter bump. -/
def bump (f : String → Nat) (k : String) (n : Nat) : String → Nat :=
  fun s => if s = k then f s + n else f s

/-- Pointwise set-add on the `domains` contribution map. -/
def addContrib (f : String → List String) (k v : String) : String → List String :=
  fun s => if s = k then insertNew (f s) v else f s

/-- Record one parser's non-empty result: statistics, first-finder map,
page-local product set. -/
def recordParserUrls (st : CrawlState) (name : String) (dn : String)
    (urls : List String) : CrawlState :=
  { st with
    totals := bump st.totals name urls.length
    contrib := addContrib st.contrib name dn
    firstFound := urls.foldl (fun ff u => ffInsert ff u name) st.firstFound }

/-- The `for parser_type in parsers_to_use` loop of `process_url`: run each
parser, record non-empty results, stop once ≥ 5 candidates are gathered. -/
def parserFold (parsers : Parsers) (html : Html) (url : String) (dn : String) :
    List ParserType → CrawlState → List String → CrawlState × List String
  | [], st, prod => (st, prod)
  | pt :: rest, st, prod =>
    let urls := parsers pt html url
    if urls.isEmpty then parserFold parsers html url dn rest st prod
    else
      let st := recordParserUrls st pt.value dn urls
      let prod := insertAllNew prod urls
      if 5 ≤ prod.length then (st, prod)
      else parserFold parsers html url dn rest st prod

/-- `any(keyword in url.lower() for keyword in ['product','category','collection'])`. -/
def importantUrl (url : String) : Bool :=
  [cs "product", cs "category", cs "collection"].any
    (fun kw => hasSubstr (url.data.map lowerChar) kw)

/-- The result of `process_url` for one URL, plus the fetch calls it made. -/
structure ProcessResult where
  state : CrawlState
  products : List String
  nextUrls : List String
  fetched : List String

/-- Parsing-and-link-discovery half of `process_url`, once HTML is in hand. -/
def processHtml (parsers : Parsers) (parsers_to_use : List ParserType) (dn : String)
    (st : CrawlState) (url : String) (html : Html)
    (current_depth max_depth : Int) (fetched : List String) : ProcessResult :=
  let r := parserFold parsers html url dn parsers_to_use st []
  let next := if current_depth < max_depth - 1 then find_urls html url dn else []
  ⟨r.1, r.2, next, fetched⟩

/-- `worker/src/tasks.py:process_url`: fetch (with one retry for important
URLs on an empty body), run the parser pipeline, discover next-depth links. -/
def process_url (fetchFn : String → Nat → Option Html) (parsers : Parsers)
    (parsers_to_use : List ParserType) (dn : String) (st : CrawlState)
    (url : String) (current_depth max_depth : Int) : ProcessResult :=
  match fetchFn url 0 with
  | some html => processHtml parsers parsers_to_use dn st url html current_depth max_depth [url]
  | none =>
    if importantUrl url then
      match fetchFn url 1 with
      | some html =>
        processHtml parsers parsers_to_use dn st url html current_depth max_depth [url, url]
      | none => ⟨st, [], [], [url, url]⟩
    else ⟨st, [], [], [url]⟩

/-- The whole mutable state of one `crawl_single_domain_async` run, plus the
event traces the theorems talk about: `processed` records every URL handed to
`process_url`, `fetchEvents` every `fetch_page_async` call, `saves` every
`storage.save` payload. -/
structure PipeState where
  st : CrawlState
  visited : List String
  domainUrls : List String
  processed : List String
  fetchEvents : List String
  saves : List (List String)

/-- The initial `PipeState`. -/
def initPipe : PipeState := ⟨initState, [], [], [], [], []⟩

/-- The per-result half of the batch loop: merge product URLs into the domain
set, run the sequential expander when ≥ 3 products, queue unseen next-depth
links. -/
def handleResult (sampler : List String → List String) (dn : String)
    (ps : PipeState) (nextAcc : List String) (r : ProcessResult) :
    PipeState × List String :=
  let ps :=
    if r.products.isEmpty then ps
    else
      let ps := { ps with domainUrls := insertAllNew ps.domainUrls r.products }
      if 3 ≤ r.products.length then
        let seq := generate_sequential_urls sampler r.products 30
        if seq.isEmpty then ps
        else
          { ps with
            st := { ps.st with
              totals := bump ps.st.totals "sequential" seq.length
              contrib := addContrib ps.st.contrib "sequential" dn
              firstFound := seq.foldl (fun ff u => ffInsert ff u "sequential") ps.st.firstFound }
            domainUrls := insertAllNew ps.domainUrls seq }
      else ps
  let nextAcc := r.nextUrls.foldl (fun acc u =>
    if !ps.visited.contains u && !acc.contains u then acc ++ [u] else acc) nextAcc
  (ps, nextAcc)

/-- One batch of ≤ 10 URLs: filter out visited URLs, mark the rest visited,
process them (`asyncio.gather` linearized in task order), then run the result
loop. -/
def processBatch (fetchFn : String → Nat → Option Html) (parsers : Parsers)
    (parsers_to_use : List ParserType) (sampler : List String → List String) (dn : String)
    (ps : PipeState) (nextAcc : List String) (batch : List String)
    (current_depth max_depth : Int) : PipeState × List String :=
  let batch1 := batch.filter (fun u => !ps.visited.contains u)
  let ps := { ps with visited := ps.visited ++ batch1, processed := ps.processed ++ batch1 }
  let fold := batch1.foldl
    (fun (acc : CrawlState × List ProcessResult × List String) u =>
      let r := process_url fetchFn parsers parsers_to_use dn acc.1 u current_depth max_depth
      (r.state, acc.2.1 ++ [r], acc.2.2 ++ r.fetched))
    (ps.st, [], [])
  let ps := { ps with st := fold.1, fetchEvents := ps.fetchEvents ++ fold.2.2 }
  fold.2.1.foldl (fun (acc : PipeState × List String) r => handleResult sampler dn acc.1 acc.2 r)
    (ps, nextAcc)

/-- The `for i in range(0, len(urls_to_visit), batch_size)` loop (fuelled by
the length of the remaining list). -/
def depthChunks (fetchFn : String → Nat → Option Html) (parsers : Parsers)
    (parsers_to_use : List ParserType) (sampler : List String → List String) (dn : String)
    (current_depth max_depth : Int) :
    Nat → PipeState → List String → List String → PipeState × List String
  | 0, ps, _, nextAcc => (ps, nextAcc)
  | _ + 1, ps, [], nextAcc => (ps, nextAcc)
  | fuel + 1, ps, remaining@(_ :: _), nextAcc =>
    let r := processBatch fetchFn parsers parsers_to_use sampler dn ps nextAcc
      (remaining.take 10) current_depth max_depth
    depthChunks fetchFn parsers parsers_to_use sampler dn current_depth max_depth
      fuel r.1 (remaining.drop 10) r.2

/-- The next-depth ranking of `crawl_single_domain_async` (lines 503–519):
split into category-matching and other URLs; reorder and truncate **only**
when more than 500 URLs were collected. -/
def prioritize_next_depth (next_depth_urls : List String) : List String :=
  let pr := next_depth_urls.foldl
    (fun (acc : List String × List String) url =>
      if category_patterns.any (fun p => p url.data) then (acc.1 ++ [url], acc.2)
      else (acc.1, acc.2 ++ [url]))
    ([], [])
  if 500 < next_depth_urls.length then (pr.1 ++ pr.2).take 500 else next_depth_urls

/-- The `while current_depth < max_depth and urls_to_visit` loop, fuelled by
`max_depth.toNat` (the loop increments `current_depth` every iteration). -/
def crawlDepths (fetchFn : String → Nat → Option Html) (parsers : Parsers)
    (parsers_to_use : List ParserType) (sampler : List String → List String) (dn : String)
    (max_depth : Int) :
    Nat → Int → PipeState → List String → PipeState
  | 0, _, ps, _ => ps
  | fuel + 1, current_depth, ps, urls_to_visit =>
    if current_depth < max_depth ∧ urls_to_visit ≠ [] then
      let r := depthChunks fetchFn parsers parsers_to_use sampler dn current_depth max_depth
        urls_to_visit.length ps urls_to_visit []
      let ps := r.1
      let next := prioritize_next_depth r.2
      let ps :=
        if ps.domainUrls.isEmpty then ps
        else { ps with saves := ps.saves ++ [ps.domainUrls] }
      crawlDepths fetchFn parsers parsers_to_use sampler dn max_depth fuel
        (current_depth + 1) ps next
    else ps

/-- `worker/src/tasks.py:crawl_single_domain_async`: run the per-domain BFS
pipeline and perform the final save. -/
def crawl_single_domain_async (fetchFn : String → Nat → Option Html) (parsers : Parsers)
    (parsers_to_use : List ParserType) (sampler : List String → List String)
    (domain : String) (max_depth : Int) : PipeState :=
  let dn : String := ⟨(urlsplitChars domain.data).netloc⟩
  let ps := crawlDepths fetchFn parsers parsers_to_use sampler dn max_depth
    max_depth.toNat 0 initPipe [domain]
  if ps.domainUrls.isEmpty then ps
  else { ps with saves := ps.saves ++ [ps.domainUrls] }

/-- The parser dictionary built by `crawl_single_domain_async` from
`get_parser`: the concrete pattern parsers plus the LLM-backed AI parser,
which is modelled as an oracle parameter (pure modulo the model, per spec
§4.2). -/
def defaultParsers (aiParse : Html → String → List String) : Parsers
  | .SIMPLE => simpleParse
  | .CONFIG => configParse
  | .AI => aiParse

/-- `parser_stats[name]["unique"]` as recomputed at the end of the pipeline
(lines 545–548): the number of URLs whose first finder is `name`. -/
def uniqueCount (ps : PipeState) (name : String) : Nat :=
  (ps.st.firstFound.filter (fun e => e.2 == name)).length

/-- The `urls_count` of the domain report: the size of the accumulated
product-URL set. -/
def urlsCount (ps : PipeState) : Nat := ps.domainUrls.length

/-! ## `crawl_task` and the HTTP layer (`server/src/main.py`) -/

/-- The outcome of `crawl_task` (structured error dict or completed report). -/
inductive TaskOutcome where
  | invalid (msg : String)
  | completed
deriving Repr, DecidableEq

/-- `worker/src/tasks.py:crawl_task`: input validation (`if not domains`,
`if not max_depth` — the latter is only true for `max_depth == 0`), then the
sequential per-domain loop.  Returns the outcome together with the combined
fetch-call trace and save payloads of all domain pipelines. -/
def crawl_task (fetchFn : String → Nat → Option Html) (parsers : Parsers)
    (parsers_to_use : List ParserType) (sampler : List String → List String)
    (domains : List String) (max_depth : Int) :
    TaskOutcome × List String × List (List String) :=
  if domains.isEmpty then (.invalid "No domains provided for crawling", [], [])
  else if max_depth = 0 then (.invalid "No max depth provided for crawling", [], [])
  else
    domains.foldl
      (fun (acc : TaskOutcome × List String × List (List String)) d =>
        let ps := crawl_single_domain_async fetchFn parsers parsers_to_use sampler d max_depth
        (acc.1, acc.2.1 ++ ps.fetchEvents, acc.2.2 ++ ps.saves))
      (.completed, [], [])

/-- An HTTP reply of the control API. -/
structure HttpReply where
  statusCode : Nat
  statusMsg : String
deriving Repr, DecidableEq

/-- `server/src/main.py:trigger_crawl` (`POST /crawl/`): no input validation;
dispatches the task and answers 200 `Crawling started`, or 500 when the
dispatch itself raises. -/
def trigger_crawl (dispatch_ok : Bool) (domains : List String) (max_depth : Int) : HttpReply :=
  if dispatch_ok then ⟨200, "Crawling started"⟩
  else ⟨500, "Failed to start crawl task"⟩

/-! ## Storage (`worker/src/db/storage.py`, `server/src/db/storage.py`) -/

/-- Modelled from the spec: `_simplify_domain` uses the third-party
`tldextract` package (not part of the repository) to extract the registrable
name and public suffix; per the spec (§4.5) the result is
`registrable_name + "_" + suffix` with dots replaced by underscores.  The
model restricts to single-label public suffixes (all domains considered here),
taking the last two labels of the host. -/
def splitOnChar (sep : Char) : List Char → List (List Char)
  | [] => [[]]
  | c :: t =>
    if c = sep then [] :: splitOnChar sep t
    else
      match splitOnChar sep t with
      | [] => [[c]]
      | h :: r => (c :: h) :: r

def simplifyDomain (domain : String) : String :=
  let p := urlsplitChars domain.data
  let host := if p.netloc ≠ [] then p.netloc else p.path.takeWhile (fun c => c ≠ '/')
  match (splitOnChar '.' host).reverse with
  | suffix :: dom :: _ => ⟨dom ++ '_' :: suffix⟩
  | [only] => ⟨only ++ ['_']⟩
  | [] => ⟨['_']⟩

example : simplifyDomain "https://a.com" = "a_com" := by decide
example : simplifyDomain "https://www.b.com/x" = "b_com" := by decide
example : simplifyDomain "b.com" = "b_com" := by decide

/-- The Redis fast store: key → set members (insertion-order determinized). -/
abbrev RedisState := String → List String

/-- `Storage._get_redis_key`. -/
def redisKey (domain taskId : String) : String :=
  "crawler_urls:" ++ taskId ++ ":" ++ simplifyDomain domain

/-- `Storage.store_temp`: `sadd` every URL under the key (TTL not modelled). -/
def store_temp (r : RedisState) (domain taskId : String) (urls : List String) : RedisState :=
  fun k => if k = redisKey domain taskId then insertAllNew (r k) urls else r k

/-- `Storage.get_temp`: `smembers`, decoded. -/
def get_temp (r : RedisState) (domain taskId : String) : List String :=
  r (redisKey domain taskId)

/-- One MongoDB document of the `crawler_urls` collection. -/
structure MongoDoc where
  docId : String
  domain : String
  urls : List String
  timestamp : Nat
deriving Repr, DecidableEq

/-- The `crawler_urls` collection.  MongoDB enforces uniqueness of `_id`. -/
abbrev MongoColl := List MongoDoc

/-- `collection.find_one({"_id": i, "domain": d})`. -/
def find_one_task_domain (c : MongoColl) (i d : String) : Option MongoDoc :=
  c.find? (fun x => x.docId == i && x.domain == d)

/-- `collection.insert_one`: inserting a duplicate `_id` raises
`DuplicateKeyError`; `store_mongo` catches every exception and logs it, so
the collection is left unchanged in that case. -/
def insert_one (c : MongoColl) (doc : MongoDoc) : MongoColl :=
  if c.any (fun x => x.docId == doc.docId) then c else c ++ [doc]

/-- `collection.update_one({"_id": i}, {"$set": {"urls": .., "timestamp": ..}})`:
update the first (unique) document with that `_id`. -/
def update_set_urls (c : MongoColl) (i : String) (urls : List String) (ts : Nat) : MongoColl :=
  match c with
  | [] => []
  | d :: t =>
    if d.docId == i then { d with urls := urls, timestamp := ts } :: t
    else d :: update_set_urls t i urls ts

/-- `worker/src/db/storage.py:Storage.store_mongo`: look up by
`(_id = taskId, domain = simplified)`; on a hit, union the URL sets and
refresh the timestamp; otherwise insert a new document whose `_id` is the
`taskId` alone. -/
def store_mongo (c : MongoColl) (domain taskId : String) (urls : List String)
    (now : Nat) : MongoColl :=
  match find_one_task_domain c taskId (simplifyDomain domain) with
  | some doc => update_set_urls c taskId (insertAllNew doc.urls urls) now
  | none => insert_one c ⟨taskId, simplifyDomain domain, urls, now⟩

/-- `Storage.get_from_mongo` (both projects): single-document lookup by the
compound filter, returning urls and timestamp. -/
def get_from_mongo (c : MongoColl) (domain task_id : String) :
    Option (List String × Nat) :=
  match find_one_task_domain c task_id (simplifyDomain domain) with
  | some d => some (d.urls, d.timestamp)
  | none => none

/-- `Storage.save`: write-through to both stores (file outputs disabled by
config). -/
def storageSave (r : RedisState) (c : MongoColl) (domain taskId : String)
    (urls : List String) (now : Nat) : RedisState × MongoColl :=
  (store_temp r domain taskId urls, store_mongo c domain taskId urls now)

/-- The response of `GET /urls/{task_id}/{domain}`: HTTP status plus the
`source` field when the request succeeds. -/
structure UrlsResponse where
  statusCode : Nat
  src : Option String
deriving Repr, DecidableEq

/-- `server/src/main.py:get_urls`: Redis first, MongoDB fallback.  The body
raises `HTTPException(404)` when both stores miss — but that raise happens
inside the `try`, and the `except Exception` clause catches it (FastAPI's
`HTTPException` subclasses `Exception`) and re-raises it as a 500. -/
def get_urls (r : RedisState) (c : MongoColl) (task_id domain : String) : UrlsResponse :=
  let inner : Except Nat UrlsResponse :=
    let redis_urls := get_temp r domain task_id
    if !redis_urls.isEmpty then .ok ⟨200, some "redis"⟩
    else
      match get_from_mongo c domain task_id with
      | some _ => .ok ⟨200, some "mongodb"⟩
      | none => .error 404
  match inner with
  | .ok resp => resp
  | .error _ => ⟨500, none⟩

/-! # Theorems -/

/-- C3: `GET /urls/{task_id}/{domain}` reads the fast store first and falls
back to the durable store — but when **neither** store has the entry, the
`HTTPException(404)` raised inside the `try` block is caught by the function's
own `except Exception` clause and re-raised as a 500, so the caller receives
HTTP 500, not 404, on a miss.  Evaluation of `get_urls`: an empty pair of
stores yields status 500; a fast-store hit yields 200 from `redis`; a
fast-store miss with a durable-store hit yields 200 from `mongodb`. -/
theorem get_urls_miss_returns_500 :
    get_urls (fun _ => []) [] "T1" "https://example.com" = ⟨500, none⟩ ∧
    get_urls (store_temp (fun _ => []) "https://example.com" "T1" ["https://example.com/p/1"])
      [] "T1" "https://example.com" = ⟨200, some "redis"⟩ ∧
    get_urls (fun _ => [])
      (store_mongo [] "https://example.com" "T1" ["https://example.com/p/1"] 0)
      "T1" "https://example.com" = ⟨200, some "mongodb"⟩ := by
  refine ⟨?_, ?_, ?_⟩ <;> decide

/-- C2: the durable-store write is **not** an upsert keyed by the pair
`(task_id, simplified_domain)`: the Mongo `_id` is the `task_id` alone.  When
one task saves two different domains, the second `insert_one` collides on
`_id` (`DuplicateKeyError`, caught and logged) and the second domain's URLs
are never stored: after saving domain `a.com` and then domain `b.com` under
task `T1`, the collection still holds only the `a.com` record and the lookup
for `(T1, b_com)` finds nothing. -/
theorem store_mongo_second_domain_lost :
    store_mongo (store_mongo [] "https://a.com" "T1" ["https://a.com/p/1"] 0)
        "https://b.com" "T1" ["https://b.com/p/2"] 1
      = store_mongo [] "https://a.com" "T1" ["https://a.com/p/1"] 0 ∧
    get_from_mongo
        (store_mongo (store_mongo [] "https://a.com" "T1" ["https://a.com/p/1"] 0)
          "https://b.com" "T1" ["https://b.com/p/2"] 1)
        "https://b.com" "T1" = none ∧
    get_from_mongo
        (store_mongo (store_mongo [] "https://a.com" "T1" ["https://a.com/p/1"] 0)
          "https://b.com" "T1" ["https://b.com/p/2"] 1)
        "https://a.com" "T1" = some (["https://a.com/p/1"], 0) := by
  refine ⟨?_, ?_, ?_⟩ <;> decide

/-- Folding the category split of the next-depth ranking is a partition into
the matching and non-matching sublists. -/
theorem foldl_partition_append {α : Type} (P : α → Bool) (l : List α) (a b : List α) :
    l.foldl (fun acc x => if P x then (acc.1 ++ [x], acc.2) else (acc.1, acc.2 ++ [x])) (a, b)
      = (a ++ l.filter P, b ++ l.filter (fun x => !P x)) := by
  induction l generalizing a b with
  | nil => simp
  | cons x t ih =>
    by_cases h : P x <;> simp [h, ih]

/-- Closed form of `prioritize_next_depth`: ranking and truncation happen
only above 500 URLs; otherwise the list is returned unchanged. -/
theorem prioritize_next_depth_eq (l : List String) :
    prioritize_next_depth l =
      if 500 < l.length then
        (l.filter (fun u => category_patterns.any (fun p => p u.data)) ++
          l.filter (fun u => !category_patterns.any (fun p => p u.data))).take 500
      else l := by
  unfold prioritize_next_depth
  rw [foldl_partition_append]
  simp

/-- C5 (amended): at a depth transition the frontier is reordered (category
URLs first, each group in original order) and truncated to 500 **only when
the discovered list exceeds 500 URLs**; with 500 or fewer URLs the frontier
is the discovered list in its original order, unranked. -/
theorem prioritize_next_depth_spec (l : List String) :
    prioritize_next_depth l =
      if 500 < l.length then
        (l.filter (fun u => category_patterns.any (fun p => p u.data)) ++
          l.filter (fun u => !category_patterns.any (fun p => p u.data))).take 500
      else l :=
  prioritize_next_depth_eq l

/-- C5 (counterexample): on a two-element frontier whose category URL comes
second, the code keeps the original order, while the claimed ranking would
put the category URL first. -/
theorem prioritize_small_list_unchanged :
    prioritize_next_depth ["https://a.com/about", "https://a.com/category/x"]
      = ["https://a.com/about", "https://a.com/category/x"] ∧
    (["https://a.com/about", "https://a.com/category/x"].filter
        (fun u => category_patterns.any (fun p => p u.data)) ++
      ["https://a.com/about", "https://a.com/category/x"].filter
        (fun u => !category_patterns.any (fun p => p u.data))).take 500
      = ["https://a.com/category/x", "https://a.com/about"] ∧
    (["https://a.com/about", "https://a.com/category/x"] : List String)
      ≠ ["https://a.com/category/x", "https://a.com/about"] := by
  refine ⟨?_, ?_, ?_⟩ <;> decide

/-- A pipeline run with non-positive depth does nothing at all. -/
theorem crawl_single_domain_nonpos (fetchFn : String → Nat → Option Html)
    (parsers : Parsers) (ptu : List ParserType) (sampler : List String → List String)
    (d : String) (max_depth : Int) (h : max_depth ≤ 0) :
    crawl_single_domain_async fetchFn parsers ptu sampler d max_depth = initPipe := by
  unfold crawl_single_domain_async
  rw [Int.toNat_of_nonpos h]
  rfl

/-- The per-domain fold of `crawl_task` appends no events when every pipeline
run is trivial. -/
theorem crawl_fold_no_events (fetchFn : String → Nat → Option Html)
    (parsers : Parsers) (ptu : List ParserType) (sampler : List String → List String)
    (max_depth : Int) (h : max_depth ≤ 0) (ds : List String)
    (acc : TaskOutcome × List String × List (List String)) :
    (ds.foldl
      (fun (acc : TaskOutcome × List String × List (List String)) d =>
        let ps := crawl_single_domain_async fetchFn parsers ptu sampler d max_depth
        (acc.1, acc.2.1 ++ ps.fetchEvents, acc.2.2 ++ ps.saves)) acc).2 = acc.2 := by
  induction ds generalizing acc with
  | nil => rfl
  | cons d t ih =>
    simp only [List.foldl_cons]
    rw [ih]
    rw [crawl_single_domain_nonpos fetchFn parsers ptu sampler d max_depth h]
    simp [initPipe]

/-- C4 (amended): the server performs no input validation — `POST /crawl`
answers 200 `Crawling started` even for an empty domain list or non-positive
depth (500 arises only from a dispatch failure) — but no crawl work happens:
for an empty `domains` list the worker task returns a structured error before
any pipeline runs, for `max_depth = 0` it returns a structured error, and for
negative `max_depth` every pipeline loop exits immediately; in all these
cases no URL is fetched and nothing is persisted. -/
theorem invalid_input_no_crawl_work (fetchFn : String → Nat → Option Html)
    (parsers : Parsers) (ptu : List ParserType) (sampler : List String → List String)
    (domains : List String) (max_depth : Int)
    (h : domains = [] ∨ max_depth < 1) :
    (crawl_task fetchFn parsers ptu sampler domains max_depth).2 = ([], []) ∧
    trigger_crawl true domains max_depth = ⟨200, "Crawling started"⟩ := by
  refine ⟨?_, rfl⟩
  rcases h with h | h
  · subst h
    rfl
  · unfold crawl_task
    by_cases hd : domains.isEmpty
    · simp [hd]
    · by_cases h0 : max_depth = 0
      · simp [hd, h0]
      · have hle : max_depth ≤ 0 := by omega
        simp only [hd, if_false, h0, Bool.false_eq_true]
        rw [crawl_fold_no_events fetchFn parsers ptu sampler max_depth hle]

/-- C4 (witness): concrete instances of `invalid_input_no_crawl_work` for an
empty domain list and for `max_depth = -2`. -/
theorem invalid_input_no_crawl_work_witness :
    ((([] : List String) = [] ∨ (3 : Int) < 1) ∧
      (crawl_task (fun _ _ => none) (fun _ _ _ => []) PARSERS_TO_USE id [] 3).2 = ([], [])) ∧
    (((["https://a.com"] : List String) = [] ∨ (-2 : Int) < 1) ∧
      (crawl_task (fun _ _ => none) (fun _ _ _ => []) PARSERS_TO_USE id
        ["https://a.com"] (-2)).2 = ([], [])) :=
  ⟨⟨Or.inl rfl,
    (invalid_input_no_crawl_work (fun _ _ => none) (fun _ _ _ => []) PARSERS_TO_USE id
      [] 3 (Or.inl rfl)).1⟩,
   ⟨Or.inr (by decide),
    (invalid_input_no_crawl_work (fun _ _ => none) (fun _ _ _ => []) PARSERS_TO_USE id
      ["https://a.com"] (-2) (Or.inr (by decide))).1⟩⟩

/-- C4 (counterexample): `POST /crawl` returns 200 `Crawling started`, not
HTTP 400, for an empty domain list and for `max_depth = -2`. -/
theorem trigger_crawl_accepts_invalid_input :
    trigger_crawl true [] 3 = ⟨200, "Crawling started"⟩ ∧
    trigger_crawl true ["https://a.com"] (-2) = ⟨200, "Crawling started"⟩ ∧
    (200 : Nat) ≠ 400 := by
  refine ⟨rfl, rfl, by decide⟩

/-- C7 (counterexample): when the fetch of an important URL (here one
containing `product`) returns an empty body, `process_url` retries: the
pipeline issues **two** fetches of the same URL within one run, refuting
"at most one fetch is issued per URL". -/
theorem url_fetched_twice_on_retry :
    (crawl_single_domain_async (fun _ _ => none) (fun _ _ _ => []) PARSERS_TO_USE id
        "https://a.com/product" 1).fetchEvents
      = ["https://a.com/product", "https://a.com/product"] := by
  decide

/-- C9 (counterexample): normalization is not idempotent.  For
`u = "http:////X"` the first pass yields `"http://X"` (the empty netloc with
a path starting `//` makes `urlunsplit` emit a string that re-parses with
netloc `X`), and the second pass then lower-cases that netloc, giving
`"http://x"` ≠ `"http://X"`. -/
theorem normalize_url_not_idempotent :
    normalize_url (normalize_url "http:////X") ≠ normalize_url "http:////X" ∧
    normalize_url "http:////X" = "http://X" ∧
    normalize_url (normalize_url "http:////X") = "http://x" := by
  refine ⟨?_, ?_, ?_⟩ <;> decide

/-- A fixture page for the normalization counterexample: one relative product
link carrying a tracking parameter and a fragment, one absolute product link
with an upper-case host. -/
def c1Page : Html := [⟨"/p/99?utm_source=x#top", ""⟩, ⟨"https://EX.com/p/7", ""⟩]

/-- A fetch oracle serving `c1Page` for the seed URL and nothing else. -/
def c1Fetch : String → Nat → Option Html :=
  fun u _ => if u = "EX.com" then some c1Page else none

/-- C1 (counterexample): a crawl of the seed `EX.com` persists the URLs
`/p/99?utm_source=x#top` (not absolute, carries the forbidden `utm_source`
parameter and a fragment) and `https://EX.com/p/7` (host not lower-cased):
the crawl path never applies `normalize_url`, so the persisted set violates
every part of the claimed invariant except the trailing-slash strip. -/
theorem persisted_urls_unnormalized_counterexample :
    (crawl_single_domain_async c1Fetch (defaultParsers (fun _ _ => []))
        PARSERS_TO_USE id "EX.com" 1).saves
      = [["/p/99?utm_source=x#top", "https://EX.com/p/7"],
         ["/p/99?utm_source=x#top", "https://EX.com/p/7"]] ∧
    hasSubstr (cs "/p/99?utm_source=x#top") (cs "utm_source") = true ∧
    hasSubstr (cs "/p/99?utm_source=x#top") (cs "#") = true ∧
    (urlsplitChars (cs "/p/99?utm_source=x#top")).scheme = [] ∧
    (urlsplitChars (cs "/p/99?utm_source=x#top")).netloc = [] ∧
    (urlsplitChars (cs "https://EX.com/p/7")).netloc = cs "EX.com" ∧
    (cs "EX.com").map lowerChar ≠ cs "EX.com" := by
  refine ⟨?_, ?_, ?_, ?_, ?_, ?_, ?_⟩ <;> decide

/-- C10: `normalize_url` keeps a query parameter iff the parameter is
non-empty, contains an `=` sign, and its lower-cased name (the part before
the first `=`) does not contain any of the nine excluded names as a
**substring** — so `preference` (contains `ref`) and `resource` (contains
`source`) are dropped, and every parameter without `=` is dropped.
Concretely, `?preference=1&resource=2&flag&x=1` filters to `?x=1`. -/
theorem query_param_filter_substring_spec :
    (∀ q p, p ∈ (splitAmp q).filter keepParam ↔
      (p ∈ splitAmp q ∧ p ≠ [] ∧ p.contains '=' = true ∧
        ∀ e ∈ excludedParams, hasSubstr ((paramName p).map lowerChar) e = false)) ∧
    normalize_url "http://h/p?preference=1&resource=2&flag&x=1" = "http://h/p?x=1" := by
  constructor
  · intro q p
    simp only [List.mem_filter, keepParam, Bool.and_eq_true, Bool.not_eq_true',
      List.any_eq_false, List.isEmpty_eq_false, Bool.not_eq_true, ne_eq, and_assoc]
  · decide

/-- C10 (witness): the parameter `x=1` of the query
`preference=1&resource=2&flag&x=1` survives the filter. -/
theorem query_param_filter_substring_spec_witness :
    (cs "x=1") ∈ (splitAmp (cs "preference=1&resource=2&flag&x=1")).filter keepParam :=
  (query_param_filter_substring_spec.1 (cs "preference=1&resource=2&flag&x=1")
    (cs "x=1")).mpr ⟨by decide, by decide, by decide, by decide⟩

/-- Membership through `insertNew`. -/
theorem mem_insertNew {l : List String} {x u : String} (h : u ∈ insertNew l x) :
    u ∈ l ∨ u = x := by
  unfold insertNew at h
  split at h
  · exact Or.inl h
  · rcases List.mem_append.mp h with h | h
    · exact Or.inl h
    · exact Or.inr (List.mem_singleton.mp h)

/-- Membership through `insertAllNew`. -/
theorem mem_insertAllNew {xs l : List String} {u : String} (h : u ∈ insertAllNew l xs) :
    u ∈ l ∨ u ∈ xs := by
  induction xs generalizing l with
  | nil => exact Or.inl h
  | cons x t ih =>
    rcases ih h with h | h
    · rcases mem_insertNew h with h | h
      · exact Or.inl h
      · exact Or.inr (by simp [h])
    · exact Or.inr (List.mem_cons_of_mem x h)

/-- A fold that only appends collects members from the steps. -/
theorem mem_foldl_append {g : Nat → List String} {l : List Nat} {init : List String}
    {u : String} (h : u ∈ l.foldl (fun acc j => acc ++ g j) init) :
    u ∈ init ∨ ∃ j ∈ l, u ∈ g j := by
  induction l generalizing init with
  | nil => exact Or.inl h
  | cons j t ih =>
    simp only [List.foldl_cons] at h
    rcases ih h with h | ⟨j', hj', hu⟩
    · rcases List.mem_append.mp h with h | h
      · exact Or.inl h
      · exact Or.inr ⟨j, List.mem_cons_self j t, h⟩
    · exact Or.inr ⟨j', List.mem_cons_of_mem j hj', hu⟩

/-- Every sibling generated by `nearbyUrls` is a substitution of a value
≥ 1 into the matched URL: increments are `num + i ≥ 1`, decrements are
guarded by `i < num` and therefore stay ≥ 1. -/
theorem mem_nearbyUrls {k : CapKind} {url : List Char} {num : Nat} {u : String}
    (h : u ∈ nearbyUrls k url num) :
    ∃ v, 1 ≤ v ∧ u = ⟨capSubAll k url v⟩ := by
  unfold nearbyUrls at h
  rcases mem_foldl_append h with h | ⟨j, _, hu⟩
  · simp at h
  · unfold nearbySiblings at hu
    rcases List.mem_append.mp hu with hu | hu
    · exact ⟨num + (j + 1), by omega, List.mem_singleton.mp hu⟩
    · split at hu
      · have hlt : j + 1 < num := by assumption
        exact ⟨num - (j + 1), by omega, List.mem_singleton.mp hu⟩
      · simp at hu

/-- Provenance through the inner sample loop of the expander. -/
theorem mem_genForPattern {k : CapKind} {sample : List String} {u : String}
    (h : u ∈ (genForPattern k sample).2) :
    ∃ s ∈ sample, ∃ n, capSearch k s.data = some n ∧ u ∈ nearbyUrls k s.data n := by
  suffices H : ∀ (acc : Bool × List String),
      u ∈ (sample.foldl (fun acc url =>
        match capSearch k url.data with
        | some num => (true, insertAllNew acc.2 (nearbyUrls k url.data num))
        | none => acc) acc).2 →
      u ∈ acc.2 ∨ ∃ s ∈ sample, ∃ n, capSearch k s.data = some n ∧ u ∈ nearbyUrls k s.data n by
    rcases H (false, []) h with h0 | h0
    · simp at h0
    · exact h0
  clear h
  induction sample with
  | nil => intro acc h; exact Or.inl h
  | cons s t ih =>
    intro acc h
    simp only [List.foldl_cons] at h
    rcases hs : capSearch k s.data with _ | n
    · rw [hs] at h
      rcases ih acc h with h | ⟨s', hs', hn⟩
      · exact Or.inl h
      · exact Or.inr ⟨s', List.mem_cons_of_mem s hs', hn⟩
    · rw [hs] at h
      rcases ih (true, insertAllNew acc.2 (nearbyUrls k s.data n)) h with h | ⟨s', hs', hn⟩
      · rcases mem_insertAllNew h with h | h
        · exact Or.inl h
        · exact Or.inr ⟨s, List.mem_cons_self s t, n, hs, h⟩
      · exact Or.inr ⟨s', List.mem_cons_of_mem s hs', hn⟩

/-- Provenance through the pattern loop of the expander. -/
theorem mem_genLoop {ks : List CapKind} {sample : List String} {u : String}
    (h : u ∈ genLoop ks sample) :
    ∃ k ∈ ks, ∃ s ∈ sample, ∃ n, capSearch k s.data = some n ∧
      u ∈ nearbyUrls k s.data n := by
  induction ks with
  | nil => simp [genLoop] at h
  | cons k rest ih =>
    unfold genLoop at h
    split at h
    · rcases mem_genForPattern h with ⟨s, hs, n, hn, hu⟩
      exact ⟨k, List.mem_cons_self k rest, s, hs, n, hn, hu⟩
    · rcases ih h with ⟨k', hk', rest'⟩
      exact ⟨k', List.mem_cons_of_mem k hk', rest'⟩

/-- C8: the Sequential Expander's contract.  For every sampler and input
list: fewer than 3 input URLs yield the empty list; no output URL is already
in the input; the output is capped at 30; and every output is synthesized by
substituting a value v ≥ 1 for the integer captured by the first matching
numeric pattern in a sampled URL (in particular no decrement goes below 1). -/
theorem generate_sequential_urls_contract (sampler : List String → List String)
    (product_urls : List String) :
    (product_urls.length < 3 → generate_sequential_urls sampler product_urls 30 = []) ∧
    (∀ u ∈ generate_sequential_urls sampler product_urls 30, u ∉ product_urls) ∧
    (generate_sequential_urls sampler product_urls 30).length ≤ 30 ∧
    (∀ u ∈ generate_sequential_urls sampler product_urls 30,
      ∃ k ∈ number_patterns, ∃ s ∈ sampler product_urls, ∃ n v,
        capSearch k s.data = some n ∧ 1 ≤ v ∧ u = ⟨capSubAll k s.data v⟩) := by
  unfold generate_sequential_urls
  by_cases h3 : product_urls.length < 3
  · simp [h3]
  · rw [if_neg h3]
    refine ⟨fun hcon => absurd hcon h3, ?_, ?_, ?_⟩
    · intro u hu
      have hf := (List.mem_filter.mp (List.mem_of_mem_take hu)).2
      simpa using hf
    · rw [List.length_take]
      exact min_le_left _ _
    · intro u hu
      have hu' := (List.mem_filter.mp (List.mem_of_mem_take hu)).1
      rcases mem_genLoop hu' with ⟨k, hk, s, hs, n, hn, hnear⟩
      rcases mem_nearbyUrls hnear with ⟨v, hv, rfl⟩
      exact ⟨k, hk, s, hs, n, v, hn, hv, rfl⟩

/-- C8 (witness): with two input URLs the expander yields nothing; with the
three `product/100..102` URLs no output collides with the input. -/
theorem generate_sequential_urls_contract_witness :
    generate_sequential_urls id ["a", "b"] 30 = [] ∧
    ∀ u ∈ generate_sequential_urls id
        ["https://s.com/product/100", "https://s.com/product/101",
         "https://s.com/product/102"] 30,
      u ∉ ["https://s.com/product/100", "https://s.com/product/101",
           "https://s.com/product/102"] :=
  ⟨(generate_sequential_urls_contract id ["a", "b"]).1 (by decide),
   (generate_sequential_urls_contract id
     ["https://s.com/product/100", "https://s.com/product/101",
      "https://s.com/product/102"]).2.1⟩

/-! ### C7: the visited-set discipline -/

/-- `handleResult` never touches the `processed` and `visited` fields. -/
theorem handleResult_fields (sampler : List String → List String) (dn : String)
    (ps : PipeState) (acc : List String) (r : ProcessResult) :
    (handleResult sampler dn ps acc r).1.processed = ps.processed ∧
    (handleResult sampler dn ps acc r).1.visited = ps.visited := by
  unfold handleResult
  by_cases hp : r.products.isEmpty <;>
    by_cases h3 : 3 ≤ r.products.length <;>
    by_cases hs : (generate_sequential_urls sampler r.products 30).isEmpty <;>
    simp [hp, h3, hs]

/-- The result loop never touches the `processed` and `visited` fields. -/
theorem handleFold_fields (sampler : List String → List String) (dn : String)
    (rs : List ProcessResult) (pr : PipeState × List String) :
    ((rs.foldl (fun acc r => handleResult sampler dn acc.1 acc.2 r) pr).1.processed
      = pr.1.processed) ∧
    ((rs.foldl (fun acc r => handleResult sampler dn acc.1 acc.2 r) pr).1.visited
      = pr.1.visited) := by
  induction rs generalizing pr with
  | nil => exact ⟨rfl, rfl⟩
  | cons r t ih =>
    simp only [List.foldl_cons]
    rcases ih (handleResult sampler dn pr.1 pr.2 r) with ⟨h1, h2⟩
    rcases handleResult_fields sampler dn pr.1 pr.2 r with ⟨g1, g2⟩
    exact ⟨h1.trans g1, h2.trans g2⟩

/-- One batch extends `processed` and `visited` by exactly the not-yet-visited
part of the batch. -/
theorem processBatch_fields (fetchFn : String → Nat → Option Html) (parsers : Parsers)
    (ptu : List ParserType) (sampler : List String → List String) (dn : String)
    (ps : PipeState) (acc : List String) (batch : List String) (cd md : Int) :
    (processBatch fetchFn parsers ptu sampler dn ps acc batch cd md).1.processed
      = ps.processed ++ batch.filter (fun u => !ps.visited.contains u) ∧
    (processBatch fetchFn parsers ptu sampler dn ps acc batch cd md).1.visited
      = ps.visited ++ batch.filter (fun u => !ps.visited.contains u) := by
  unfold processBatch
  rcases handleFold_fields sampler dn _
    ({ ps with
        visited := ps.visited ++ batch.filter (fun u => !ps.visited.contains u),
        processed := ps.processed ++ batch.filter (fun u => !ps.visited.contains u),
        st := _, fetchEvents := _ }, acc) with ⟨h1, h2⟩
  exact ⟨h1, h2⟩

/-- `List.contains` agrees with membership on strings. -/
theorem string_contains_iff (l : List String) (u : String) :
    l.contains u = true ↔ u ∈ l := by
  show l.elem u = true ↔ u ∈ l
  exact List.elem_iff

/-- The processing invariant: no URL processed twice, and everything
processed is marked visited. -/
def ProcInv (ps : PipeState) : Prop :=
  ps.processed.Nodup ∧ ∀ u ∈ ps.processed, u ∈ ps.visited

theorem processBatch_inv (fetchFn : String → Nat → Option Html) (parsers : Parsers)
    (ptu : List ParserType) (sampler : List String → List String) (dn : String)
    (ps : PipeState) (acc : List String) (batch : List String) (cd md : Int)
    (hinv : ProcInv ps) (hb : batch.Nodup) :
    ProcInv (processBatch fetchFn parsers ptu sampler dn ps acc batch cd md).1 := by
  rcases processBatch_fields fetchFn parsers ptu sampler dn ps acc batch cd md with ⟨h1, h2⟩
  constructor
  · rw [h1]
    refine (hinv.1.append (hb.filter _)) ?_
    intro u hu hub
    have hvis := hinv.2 u hu
    have hc := (List.mem_filter.mp hub).2
    rw [Bool.not_eq_true'] at hc
    rw [← string_contains_iff ps.visited u] at hvis
    rw [hc] at hvis
    exact Bool.false_ne_true hvis
  · rw [h1, h2]
    intro u hu
    rcases List.mem_append.mp hu with hu | hu
    · exact List.mem_append_left _ (hinv.2 u hu)
    · exact List.mem_append_right _ hu

theorem depthChunks_inv (fetchFn : String → Nat → Option Html) (parsers : Parsers)
    (ptu : List ParserType) (sampler : List String → List String) (dn : String)
    (cd md : Int) (fuel : Nat) :
    ∀ (ps : PipeState) (remaining acc : List String),
      ProcInv ps → remaining.Nodup →
      ProcInv (depthChunks fetchFn parsers ptu sampler dn cd md fuel ps remaining acc).1 := by
  induction fuel with
  | zero => intro ps remaining acc h _; exact h
  | succ fuel ih =>
    intro ps remaining acc h hrem
    match remaining with
    | [] => exact h
    | x :: rest =>
      apply ih
      · exact processBatch_inv fetchFn parsers ptu sampler dn ps acc _ cd md h
          (hrem.sublist (List.take_sublist 10 _))
      · exact hrem.sublist (List.drop_sublist 10 _)

/-- The guarded next-depth append preserves duplicate-freedom. -/
theorem foldl_guard_nodup (vis : List String) (l : List String) :
    ∀ acc : List String, acc.Nodup →
      (l.foldl (fun acc u =>
        if !vis.contains u && !acc.contains u then acc ++ [u] else acc) acc).Nodup := by
  induction l with
  | nil => intro acc h; exact h
  | cons u t ih =>
    intro acc h
    simp only [List.foldl_cons]
    split
    · next hg =>
      apply ih
      have hu : ¬ u ∈ acc := by
        rcases Bool.and_eq_true_iff.mp hg with ⟨_, h2⟩
        rw [Bool.not_eq_true'] at h2
        rw [← string_contains_iff acc u, h2]
        exact Bool.false_ne_true
      simpa [List.nodup_append] using ⟨h, hu⟩
    · exact ih acc h

theorem handleResult_nextAcc_nodup (sampler : List String → List String) (dn : String)
    (ps : PipeState) (acc : List String) (r : ProcessResult) (h : acc.Nodup) :
    (handleResult sampler dn ps acc r).2.Nodup := by
  unfold handleResult
  by_cases hp : r.products.isEmpty <;>
    by_cases h3 : 3 ≤ r.products.length <;>
    by_cases hs : (generate_sequential_urls sampler r.products 30).isEmpty <;>
    simp only [hp, h3, hs, if_true, if_false, Bool.false_eq_true, ite_true, ite_false] <;>
    exact foldl_guard_nodup _ _ _ h

theorem handleFold_nextAcc_nodup (sampler : List String → List String) (dn : String)
    (rs : List ProcessResult) :
    ∀ (pr : PipeState × List String), pr.2.Nodup →
      (rs.foldl (fun acc r => handleResult sampler dn acc.1 acc.2 r) pr).2.Nodup := by
  induction rs with
  | nil => intro pr h; exact h
  | cons r t ih =>
    intro pr h
    simp only [List.foldl_cons]
    exact ih _ (handleResult_nextAcc_nodup sampler dn pr.1 pr.2 r h)

theorem processBatch_nextAcc_nodup (fetchFn : String → Nat → Option Html)
    (parsers : Parsers) (ptu : List ParserType) (sampler : List String → List String)
    (dn : String) (ps : PipeState) (acc : List String) (batch : List String)
    (cd md : Int) (h : acc.Nodup) :
    (processBatch fetchFn parsers ptu sampler dn ps acc batch cd md).2.Nodup := by
  unfold processBatch
  exact handleFold_nextAcc_nodup sampler dn _ _ h

theorem depthChunks_nextAcc_nodup (fetchFn : String → Nat → Option Html)
    (parsers : Parsers) (ptu : List ParserType) (sampler : List String → List String)
    (dn : String) (cd md : Int) (fuel : Nat) :
    ∀ (ps : PipeState) (remaining acc : List String), acc.Nodup →
      (depthChunks fetchFn parsers ptu sampler dn cd md fuel ps remaining acc).2.Nodup := by
  induction fuel with
  | zero => intro ps remaining acc h; exact h
  | succ fuel ih =>
    intro ps remaining acc h
    match remaining with
    | [] => exact h
    | x :: rest =>
      exact ih _ _ _ (processBatch_nextAcc_nodup fetchFn parsers ptu sampler dn ps acc _ cd md h)

/-- `prioritize_next_depth` preserves duplicate-freedom. -/
theorem prioritize_nodup {l : List String} (h : l.Nodup) :
    (prioritize_next_depth l).Nodup := by
  rw [prioritize_next_depth_eq]
  split
  · refine ((h.filter _).append (h.filter _) ?_).sublist (List.take_sublist _ _)
    intro u hu1 hu2
    have h1 := (List.mem_filter.mp hu1).2
    have h2 := (List.mem_filter.mp hu2).2
    rw [h1] at h2
    simp at h2
  · exact h

theorem crawlDepths_inv (fetchFn : String → Nat → Option Html) (parsers : Parsers)
    (ptu : List ParserType) (sampler : List String → List String) (dn : String)
    (md : Int) (fuel : Nat) :
    ∀ (cd : Int) (ps : PipeState) (utv : List String),
      ProcInv ps → utv.Nodup →
      ProcInv (crawlDepths fetchFn parsers ptu sampler dn md fuel cd ps utv) := by
  induction fuel with
  | zero => intro cd ps utv h _; exact h
  | succ fuel ih =>
    intro cd ps utv h hutv
    unfold crawlDepths
    split
    · apply ih
      · constructor
        · split <;>
            exact (depthChunks_inv fetchFn parsers ptu sampler dn cd md _ ps utv [] h hutv).1
        · split <;>
            exact (depthChunks_inv fetchFn parsers ptu sampler dn cd md _ ps utv [] h hutv).2
      · exact prioritize_nodup
          (depthChunks_nextAcc_nodup fetchFn parsers ptu sampler dn cd md _ ps utv []
            List.nodup_nil)
    · exact h

/-- C7 (amended): within one DomainPipeline no URL is ever **processed**
twice: across all depths and batches, the sequence of URLs handed to the
fetch-and-parse stage contains no duplicate.  (A single processing may issue
up to two fetch attempts because of the empty-body retry.) -/
theorem no_url_processed_twice (fetchFn : String → Nat → Option Html) (parsers : Parsers)
    (ptu : List ParserType) (sampler : List String → List String)
    (domain : String) (max_depth : Int) :
    (crawl_single_domain_async fetchFn parsers ptu sampler domain max_depth).processed.Nodup := by
  unfold crawl_single_domain_async
  have base : ProcInv initPipe := ⟨List.nodup_nil, by intro u hu; simp [initPipe] at hu⟩
  have h := crawlDepths_inv fetchFn parsers ptu sampler
    ⟨(urlsplitChars domain.data).netloc⟩ max_depth max_depth.toNat 0 initPipe [domain]
    base (List.nodup_singleton domain)
  by_cases he : (crawlDepths fetchFn parsers ptu sampler
      ⟨(urlsplitChars domain.data).netloc⟩ max_depth max_depth.toNat 0 initPipe
      [domain]).domainUrls.isEmpty <;>
    simp only [he, if_true, if_false, Bool.false_eq_true, ite_true, ite_false] <;>
    exact h.1

/-! ### C6: parser attribution bookkeeping

The key invariant: at every batch boundary the key set of
`url_first_found_by` coincides with the accumulated product-URL set, all its
values are among the four parser names, and both carriers are duplicate-free.
The unique counters recomputed from the map at the end of the pipeline then
必 sum to the product-URL count. -/

/-- The keys of the first-finder map. -/
def ffKeys (ff : List (String × String)) : List String := ff.map Prod.fst

theorem insertNew_toFinset (l : List String) (x : String) :
    (insertNew l x).toFinset = insert x l.toFinset := by
  unfold insertNew
  split
  · next h =>
    have : x ∈ l := (string_contains_iff l x).mp h
    rw [List.toFinset_cons.symm]
    · simp [List.toFinset_cons, Finset.insert_eq_self.mpr (List.mem_toFinset.mpr this)]
  · simp [Finset.insert_eq, Finset.union_comm]

theorem insertNew_nodup {l : List String} (h : l.Nodup) (x : String) :
    (insertNew l x).Nodup := by
  unfold insertNew
  split
  · exact h
  · next hc =>
    have : x ∉ l := by
      intro hm
      rw [← string_contains_iff l x] at hm
      rw [hm] at hc
      exact hc rfl
    simpa [List.nodup_append] using ⟨h, this⟩

theorem insertAllNew_toFinset (xs : List String) :
    ∀ l : List String, (insertAllNew l xs).toFinset = l.toFinset ∪ xs.toFinset := by
  induction xs with
  | nil => intro l; simp [insertAllNew]
  | cons x t ih =>
    intro l
    show (insertAllNew (insertNew l x) t).toFinset = _
    rw [ih, insertNew_toFinset]
    simp [Finset.insert_union, Finset.union_insert]

theorem insertAllNew_nodup {l : List String} (h : l.Nodup) (xs : List String) :
    (insertAllNew l xs).Nodup := by
  induction xs generalizing l with
  | nil => exact h
  | cons x t ih => exact ih (insertNew_nodup h x)

theorem ffInsert_keys_toFinset (ff : List (String × String)) (u n : String) :
    (ffKeys (ffInsert ff u n)).toFinset = insert u (ffKeys ff).toFinset := by
  unfold ffInsert
  split
  · next h =>
    rcases List.any_eq_true.mp h with ⟨e, he, hbeq⟩
    have : u ∈ ffKeys ff := by
      have : e.1 = u := by simpa using hbeq
      exact this ▸ List.mem_map_of_mem Prod.fst he
    simp [Finset.insert_eq_self.mpr (List.mem_toFinset.mpr this)]
  · simp [ffKeys, Finset.insert_eq, Finset.union_comm]

theorem ffInsert_keys_nodup {ff : List (String × String)} (h : (ffKeys ff).Nodup)
    (u n : String) : (ffKeys (ffInsert ff u n)).Nodup := by
  unfold ffInsert
  split
  · exact h
  · next hc =>
    have hu : u ∉ ffKeys ff := by
      intro hm
      apply hc
      rcases List.mem_map.mp hm with ⟨e, he, hfst⟩
      exact List.any_eq_true.mpr ⟨e, he, by simp [hfst]⟩
    show (ffKeys (ff ++ [(u, n)])).Nodup
    unfold ffKeys
    rw [List.map_append]
    refine List.Nodup.append h (List.nodup_singleton u) ?_
    intro a ha hb
    have : a = u := by simpa using hb
    subst this
    exact hu ha

theorem ffInsert_values {ff : List (String × String)} {names : List String}
    (h : ∀ e ∈ ff, e.2 ∈ names) {u n : String} (hn : n ∈ names) :
    ∀ e ∈ ffInsert ff u n, e.2 ∈ names := by
  unfold ffInsert
  split
  · exact h
  · intro e he
    rcases List.mem_append.mp he with he | he
    · exact h e he
    · rw [List.mem_singleton.mp he]
      exact hn

/-- The three statements for a whole `foldl ffInsert` with one name. -/
theorem ffInsertFold_spec (n : String) (urls : List String) :
    ∀ ff : List (String × String),
      (ffKeys (urls.foldl (fun ff u => ffInsert ff u n) ff)).toFinset
        = (ffKeys ff).toFinset ∪ urls.toFinset ∧
      ((ffKeys ff).Nodup → (ffKeys (urls.foldl (fun ff u => ffInsert ff u n) ff)).Nodup) ∧
      (∀ names : List String, n ∈ names → (∀ e ∈ ff, e.2 ∈ names) →
        ∀ e ∈ urls.foldl (fun ff u => ffInsert ff u n) ff, e.2 ∈ names) := by
  induction urls with
  | nil => intro ff; refine ⟨by simp, fun h => h, fun names _ h => h⟩
  | cons u t ih =>
    intro ff
    simp only [List.foldl_cons]
    rcases ih (ffInsert ff u n) with ⟨h1, h2, h3⟩
    refine ⟨?_, ?_, ?_⟩
    · rw [h1, ffInsert_keys_toFinset]
      simp [Finset.insert_union, Finset.union_insert]
    · intro hnd
      exact h2 (ffInsert_keys_nodup hnd u n)
    · intro names hn hval
      exact h3 names hn (ffInsert_values hval hn)

theorem ParserType.value_mem_statNames (pt : ParserType) : pt.value ∈ statNames := by
  cases pt <;> decide

/-- The parser loop extends the first-finder keys and the page-product set by
the same URL set, preserving duplicate-freedom and the value range. -/
theorem parserFold_spec (parsers : Parsers) (html : Html) (url dn : String) :
    ∀ (pts : List ParserType) (st : CrawlState) (prod : List String),
      ∃ S : Finset String,
        (ffKeys (parserFold parsers html url dn pts st prod).1.firstFound).toFinset
          = (ffKeys st.firstFound).toFinset ∪ S ∧
        ((parserFold parsers html url dn pts st prod).2).toFinset = prod.toFinset ∪ S ∧
        ((ffKeys st.firstFound).Nodup →
          (ffKeys (parserFold parsers html url dn pts st prod).1.firstFound).Nodup) ∧
        ((∀ e ∈ st.firstFound, e.2 ∈ statNames) →
          ∀ e ∈ (parserFold parsers html url dn pts st prod).1.firstFound,
            e.2 ∈ statNames) := by
  intro pts
  induction pts with
  | nil =>
    intro st prod
    exact ⟨∅, by simp [parserFold], by simp [parserFold], fun h => h, fun h => h⟩
  | cons pt rest ih =>
    intro st prod
    have heq : parserFold parsers html url dn (pt :: rest) st prod
        = if (parsers pt html url).isEmpty then parserFold parsers html url dn rest st prod
          else
            if 5 ≤ (insertAllNew prod (parsers pt html url)).length
            then (recordParserUrls st pt.value dn (parsers pt html url),
                  insertAllNew prod (parsers pt html url))
            else parserFold parsers html url dn rest
              (recordParserUrls st pt.value dn (parsers pt html url))
              (insertAllNew prod (parsers pt html url)) := rfl
    by_cases hurls : (parsers pt html url).isEmpty
    · rw [heq, if_pos hurls]
      exact ih st prod
    · rw [heq, if_neg hurls]
      rcases ffInsertFold_spec pt.value (parsers pt html url) st.firstFound with ⟨f1, f2, f3⟩
      by_cases hstop : 5 ≤ (insertAllNew prod (parsers pt html url)).length
      · rw [if_pos hstop]
        refine ⟨(parsers pt html url).toFinset, ?_, ?_, ?_, ?_⟩
        · simpa [recordParserUrls] using f1
        · exact insertAllNew_toFinset _ prod
        · intro hnd
          simpa [recordParserUrls] using f2 hnd
        · intro hval
          exact f3 statNames (ParserType.value_mem_statNames pt) hval
      · rw [if_neg hstop]
        rcases ih (recordParserUrls st pt.value dn (parsers pt html url))
          (insertAllNew prod (parsers pt html url)) with ⟨S', g1, g2, g3, g4⟩
        refine ⟨(parsers pt html url).toFinset ∪ S', ?_, ?_, ?_, ?_⟩
        · have f1' : (ffKeys (recordParserUrls st pt.value dn
                (parsers pt html url)).firstFound).toFinset
              = (ffKeys st.firstFound).toFinset ∪ (parsers pt html url).toFinset := by
            simpa [recordParserUrls] using f1
          rw [g1, f1', Finset.union_assoc]
        · rw [g2, insertAllNew_toFinset, Finset.union_assoc]
        · intro hnd
          apply g3
          simpa [recordParserUrls] using f2 hnd
        · intro hval
          apply g4
          intro e he
          exact f3 statNames (ParserType.value_mem_statNames pt) hval e
            (by simpa [recordParserUrls] using he)

/-- `process_url` extends the first-finder keys by exactly its product set. -/
theorem process_url_spec (fetchFn : String → Nat → Option Html) (parsers : Parsers)
    (ptu : List ParserType) (dn : String) (st : CrawlState) (url : String) (cd md : Int) :
    (ffKeys (process_url fetchFn parsers ptu dn st url cd md).state.firstFound).toFinset
      = (ffKeys st.firstFound).toFinset
        ∪ ((process_url fetchFn parsers ptu dn st url cd md).products).toFinset ∧
    ((ffKeys st.firstFound).Nodup →
      (ffKeys (process_url fetchFn parsers ptu dn st url cd md).state.firstFound).Nodup) ∧
    ((∀ e ∈ st.firstFound, e.2 ∈ statNames) →
      ∀ e ∈ (process_url fetchFn parsers ptu dn st url cd md).state.firstFound,
        e.2 ∈ statNames) := by
  unfold process_url
  rcases fetchFn url 0 with _ | html
  · by_cases himp : importantUrl url
    · simp only [himp, if_true, ite_true]
      rcases fetchFn url 1 with _ | html
      · exact ⟨by simp, fun h => h, fun h => h⟩
      · show (ffKeys (processHtml parsers ptu dn st url html cd md [url, url]).state.firstFound).toFinset = _ ∧ _
        unfold processHtml
        rcases parserFold_spec parsers html url dn ptu st [] with ⟨S, h1, h2, h3, h4⟩
        refine ⟨?_, h3, h4⟩
        rw [h1, h2]
        simp
    · simp only [himp, if_false, Bool.false_eq_true, ite_false]
      exact ⟨by simp, fun h => h, fun h => h⟩
  · show (ffKeys (processHtml parsers ptu dn st url html cd md [url]).state.firstFound).toFinset = _ ∧ _
    unfold processHtml
    rcases parserFold_spec parsers html url dn ptu st [] with ⟨S, h1, h2, h3, h4⟩
    refine ⟨?_, h3, h4⟩
    rw [h1, h2]
    simp

/-- Union of the product sets of a list of results. -/
def prodsUnion (rs : List ProcessResult) : Finset String :=
  rs.foldr (fun r acc => r.products.toFinset ∪ acc) ∅

/-- `handleResult` adds the result's products to the domain set and one
further set (the sequential siblings) to both carriers. -/
theorem handleResult_spec (sampler : List String → List String) (dn : String)
    (ps : PipeState) (acc : List String) (r : ProcessResult) :
    ∃ S : Finset String,
      (ffKeys (handleResult sampler dn ps acc r).1.st.firstFound).toFinset
        = (ffKeys ps.st.firstFound).toFinset ∪ S ∧
      ((handleResult sampler dn ps acc r).1.domainUrls).toFinset
        = ps.domainUrls.toFinset ∪ r.products.toFinset ∪ S ∧
      ((ffKeys ps.st.firstFound).Nodup →
        (ffKeys (handleResult sampler dn ps acc r).1.st.firstFound).Nodup) ∧
      (ps.domainUrls.Nodup → (handleResult sampler dn ps acc r).1.domainUrls.Nodup) ∧
      ((∀ e ∈ ps.st.firstFound, e.2 ∈ statNames) →
        ∀ e ∈ (handleResult sampler dn ps acc r).1.st.firstFound, e.2 ∈ statNames) := by
  unfold handleResult
  by_cases hp : r.products.isEmpty
  · have hpe : r.products = [] := List.isEmpty_iff.mp hp
    refine ⟨∅, ?_, ?_, ?_, ?_, ?_⟩ <;> simp [hp, hpe]
  · by_cases h3 : 3 ≤ r.products.length
    · by_cases hs : (generate_sequential_urls sampler r.products 30).isEmpty
      · refine ⟨∅, ?_, ?_, ?_, ?_, ?_⟩ <;>
          simp only [hp, h3, hs, Bool.false_eq_true, if_true, if_false, ite_true, ite_false]
        · simp
        · rw [insertAllNew_toFinset]
          simp
        · exact fun h => h
        · exact fun h => insertAllNew_nodup h _
        · exact fun h => h
      · rcases ffInsertFold_spec "sequential" (generate_sequential_urls sampler r.products 30)
          ps.st.firstFound with ⟨f1, f2, f3⟩
        refine ⟨(generate_sequential_urls sampler r.products 30).toFinset, ?_, ?_, ?_, ?_, ?_⟩ <;>
          simp only [hp, h3, hs, Bool.false_eq_true, if_true, if_false, ite_true, ite_false]
        · exact f1
        · rw [insertAllNew_toFinset, insertAllNew_toFinset]
        · exact f2
        · exact fun h => insertAllNew_nodup (insertAllNew_nodup h _) _
        · intro hval
          exact f3 statNames (by decide) hval
    · have h3' : ¬ 3 ≤ r.products.length := h3
      refine ⟨∅, ?_, ?_, ?_, ?_, ?_⟩ <;>
        simp only [hp, h3', Bool.false_eq_true, if_true, if_false, ite_true, ite_false]
      · simp
      · rw [insertAllNew_toFinset]
        simp
      · exact fun h => h
      · exact fun h => insertAllNew_nodup h _
      · exact fun h => h

/-- The batch-processing fold produces a list of results whose product sets
jointly extend the first-finder keys. -/
theorem batchFold_spec (fetchFn : String → Nat → Option Html) (parsers : Parsers)
    (ptu : List ParserType) (dn : String) (cd md : Int) :
    ∀ (batch1 : List String) (st : CrawlState) (rs0 : List ProcessResult) (ev0 : List String),
      ∃ newRs : List ProcessResult,
        (batch1.foldl
          (fun (acc : CrawlState × List ProcessResult × List String) u =>
            let r := process_url fetchFn parsers ptu dn acc.1 u cd md
            (r.state, acc.2.1 ++ [r], acc.2.2 ++ r.fetched)) (st, rs0, ev0)).2.1
          = rs0 ++ newRs ∧
        (ffKeys (batch1.foldl
          (fun (acc : CrawlState × List ProcessResult × List String) u =>
            let r := process_url fetchFn parsers ptu dn acc.1 u cd md
            (r.state, acc.2.1 ++ [r], acc.2.2 ++ r.fetched)) (st, rs0, ev0)).1.firstFound).toFinset
          = (ffKeys st.firstFound).toFinset ∪ prodsUnion newRs ∧
        ((ffKeys st.firstFound).Nodup →
          (ffKeys (batch1.foldl
            (fun (acc : CrawlState × List ProcessResult × List String) u =>
              let r := process_url fetchFn parsers ptu dn acc.1 u cd md
              (r.state, acc.2.1 ++ [r], acc.2.2 ++ r.fetched))
            (st, rs0, ev0)).1.firstFound).Nodup) ∧
        ((∀ e ∈ st.firstFound, e.2 ∈ statNames) →
          ∀ e ∈ (batch1.foldl
            (fun (acc : CrawlState × List ProcessResult × List String) u =>
              let r := process_url fetchFn parsers ptu dn acc.1 u cd md
              (r.state, acc.2.1 ++ [r], acc.2.2 ++ r.fetched)) (st, rs0, ev0)).1.firstFound,
            e.2 ∈ statNames) := by
  intro batch1
  induction batch1 with
  | nil =>
    intro st rs0 ev0
    exact ⟨[], by simp, by simp [prodsUnion], fun h => h, fun h => h⟩
  | cons u t ih =>
    intro st rs0 ev0
    simp only [List.foldl_cons]
    rcases ih (process_url fetchFn parsers ptu dn st u cd md).state
      (rs0 ++ [process_url fetchFn parsers ptu dn st u cd md])
      (ev0 ++ (process_url fetchFn parsers ptu dn st u cd md).fetched) with ⟨newRs, g0, g1, g2, g3⟩
    rcases process_url_spec fetchFn parsers ptu dn st u cd md with ⟨p1, p2, p3⟩
    refine ⟨process_url fetchFn parsers ptu dn st u cd md :: newRs, ?_, ?_, ?_, ?_⟩
    · rw [g0, List.append_assoc]
      rfl
    · rw [g1, p1]
      show _ = _ ∪ prodsUnion (_ :: newRs)
      unfold prodsUnion
      rw [List.foldr_cons]
      rw [Finset.union_assoc]
    · intro hnd
      exact g2 (p2 hnd)
    · intro hval
      exact g3 (p3 hval)

/-- The result loop restores the keys-equals-domain invariant once every
pending product set has been merged. -/
theorem handleFold_spec (sampler : List String → List String) (dn : String) :
    ∀ (rs : List ProcessResult) (pr : PipeState × List String),
      (ffKeys pr.1.st.firstFound).Nodup → pr.1.domainUrls.Nodup →
      (∀ e ∈ pr.1.st.firstFound, e.2 ∈ statNames) →
      (ffKeys pr.1.st.firstFound).toFinset = pr.1.domainUrls.toFinset ∪ prodsUnion rs →
      (ffKeys (rs.foldl (fun acc r => handleResult sampler dn acc.1 acc.2 r)
          pr).1.st.firstFound).toFinset
        = ((rs.foldl (fun acc r => handleResult sampler dn acc.1 acc.2 r)
          pr).1.domainUrls).toFinset ∧
      (ffKeys (rs.foldl (fun acc r => handleResult sampler dn acc.1 acc.2 r)
          pr).1.st.firstFound).Nodup ∧
      ((rs.foldl (fun acc r => handleResult sampler dn acc.1 acc.2 r)
          pr).1.domainUrls).Nodup ∧
      (∀ e ∈ (rs.foldl (fun acc r => handleResult sampler dn acc.1 acc.2 r)
          pr).1.st.firstFound, e.2 ∈ statNames) := by
  intro rs
  induction rs with
  | nil =>
    intro pr hk hd hv heq
    refine ⟨?_, hk, hd, hv⟩
    simpa [prodsUnion] using heq
  | cons r t ih =>
    intro pr hk hd hv heq
    simp only [List.foldl_cons]
    rcases handleResult_spec sampler dn pr.1 pr.2 r with ⟨S, s1, s2, s3, s4, s5⟩
    apply ih
    · exact s3 hk
    · exact s4 hd
    · exact s5 hv
    · rw [s1, s2, heq]
      show _ ∪ prodsUnion (r :: t) ∪ S = _
      unfold prodsUnion
      rw [List.foldr_cons]
      ext a
      simp only [Finset.mem_union]
      tauto

/-- The statistics invariant holding at batch boundaries: first-finder keys
and product set coincide, carriers are duplicate-free, values range over the
four parser names. -/
def StatInv (ps : PipeState) : Prop :=
  (ffKeys ps.st.firstFound).Nodup ∧ ps.domainUrls.Nodup ∧
  (∀ e ∈ ps.st.firstFound, e.2 ∈ statNames) ∧
  (ffKeys ps.st.firstFound).toFinset = ps.domainUrls.toFinset

theorem processBatch_statInv (fetchFn : String → Nat → Option Html) (parsers : Parsers)
    (ptu : List ParserType) (sampler : List String → List String) (dn : String)
    (ps : PipeState) (acc : List String) (batch : List String) (cd md : Int)
    (h : StatInv ps) :
    StatInv (processBatch fetchFn parsers ptu sampler dn ps acc batch cd md).1 := by
  unfold processBatch
  rcases batchFold_spec fetchFn parsers ptu dn cd md
    (batch.filter (fun u => !ps.visited.contains u)) ps.st [] [] with ⟨newRs, g0, g1, g2, g3⟩
  have key := handleFold_spec sampler dn
    ((batch.filter (fun u => !ps.visited.contains u)).foldl
      (fun (acc : CrawlState × List ProcessResult × List String) u =>
        let r := process_url fetchFn parsers ptu dn acc.1 u cd md
        (r.state, acc.2.1 ++ [r], acc.2.2 ++ r.fetched)) (ps.st, [], [])).2.1
  refine ⟨?_, ?_, ?_, ?_⟩ <;>
  · rcases key ({ ps with
        visited := ps.visited ++ batch.filter (fun u => !ps.visited.contains u),
        processed := ps.processed ++ batch.filter (fun u => !ps.visited.contains u),
        st := ((batch.filter (fun u => !ps.visited.contains u)).foldl
          (fun (acc : CrawlState × List ProcessResult × List String) u =>
            let r := process_url fetchFn parsers ptu dn acc.1 u cd md
            (r.state, acc.2.1 ++ [r], acc.2.2 ++ r.fetched)) (ps.st, [], [])).1,
        fetchEvents := ps.fetchEvents ++ ((batch.filter (fun u => !ps.visited.contains u)).foldl
          (fun (acc : CrawlState × List ProcessResult × List String) u =>
            let r := process_url fetchFn parsers ptu dn acc.1 u cd md
            (r.state, acc.2.1 ++ [r], acc.2.2 ++ r.fetched)) (ps.st, [], [])).2.2 }, acc)
      (g2 h.1) h.2.1 (g3 h.2.2.1) (by rw [g1, h.2.2.2, g0]; rfl) with ⟨k1, k2, k3, k4⟩
    first
      | exact k2
      | exact k3
      | exact k4
      | exact k1

theorem depthChunks_statInv (fetchFn : String → Nat → Option Html) (parsers : Parsers)
    (ptu : List ParserType) (sampler : List String → List String) (dn : String)
    (cd md : Int) (fuel : Nat) :
    ∀ (ps : PipeState) (remaining acc : List String), StatInv ps →
      StatInv (depthChunks fetchFn parsers ptu sampler dn cd md fuel ps remaining acc).1 := by
  induction fuel with
  | zero => intro ps remaining acc h; exact h
  | succ fuel ih =>
    intro ps remaining acc h
    match remaining with
    | [] => exact h
    | x :: rest =>
      exact ih _ _ _ (processBatch_statInv fetchFn parsers ptu sampler dn ps acc _ cd md h)

theorem crawlDepths_statInv (fetchFn : String → Nat → Option Html) (parsers : Parsers)
    (ptu : List ParserType) (sampler : List String → List String) (dn : String)
    (md : Int) (fuel : Nat) :
    ∀ (cd : Int) (ps : PipeState) (utv : List String), StatInv ps →
      StatInv (crawlDepths fetchFn parsers ptu sampler dn md fuel cd ps utv) := by
  induction fuel with
  | zero => intro cd ps utv h; exact h
  | succ fuel ih =>
    intro cd ps utv h
    unfold crawlDepths
    split
    · apply ih
      have hd := depthChunks_statInv fetchFn parsers ptu sampler dn cd md utv.length ps utv [] h
      split
      · exact hd
      · exact hd
    · exact h

theorem crawl_single_domain_statInv (fetchFn : String → Nat → Option Html)
    (parsers : Parsers) (ptu : List ParserType) (sampler : List String → List String)
    (domain : String) (max_depth : Int) :
    StatInv (crawl_single_domain_async fetchFn parsers ptu sampler domain max_depth) := by
  unfold crawl_single_domain_async
  have base : StatInv initPipe :=
    ⟨List.nodup_nil, List.nodup_nil, by intro e he; simp [initPipe, initState] at he, rfl⟩
  have h := crawlDepths_statInv fetchFn parsers ptu sampler
    ⟨(urlsplitChars domain.data).netloc⟩ max_depth max_depth.toNat 0 initPipe [domain] base
  by_cases he : (crawlDepths fetchFn parsers ptu sampler
      ⟨(urlsplitChars domain.data).netloc⟩ max_depth max_depth.toNat 0 initPipe
      [domain]).domainUrls.isEmpty <;>
    simp only [he, if_true, if_false, Bool.false_eq_true, ite_true, ite_false] <;>
    exact h

theorem sum_map_add_split (f g : String → Nat) :
    ∀ names : List String,
      (names.map (fun n => f n + g n)).sum = (names.map f).sum + (names.map g).sum := by
  intro names
  induction names with
  | nil => simp
  | cons n t ih =>
    simp only [List.map_cons, List.sum_cons, ih]
    omega

theorem sum_indicator_one (v : String) :
    ∀ names : List String, names.Nodup → v ∈ names →
      (names.map (fun n => if v = n then 1 else 0)).sum = 1 := by
  intro names
  induction names with
  | nil => intro _ h; simp at h
  | cons n t ih =>
    intro hnd hv
    simp only [List.map_cons, List.sum_cons]
    by_cases h : v = n
    · subst h
      have hvt : v ∉ t := (List.nodup_cons.mp hnd).1
      have ht : (t.map (fun n => if v = n then 1 else 0)).sum = 0 := by
        apply List.sum_eq_zero
        intro x hx
        rcases List.mem_map.mp hx with ⟨m, hm, hxm⟩
        have : v ≠ m := fun hc => hvt (hc ▸ hm)
        simp [← hxm, this]
      simp [ht]
    · rcases List.mem_cons.mp hv with h' | h'
      · exact absurd h' h
      · simp [h, ih (List.nodup_cons.mp hnd).2 h']

/-- Counting a value-partitioned association list name-by-name recovers its
length. -/
theorem sum_filter_len (names : List String) (hnd : names.Nodup) :
    ∀ ff : List (String × String), (∀ e ∈ ff, e.2 ∈ names) →
      (names.map (fun n => (ff.filter (fun e => e.2 == n)).length)).sum = ff.length := by
  intro ff
  induction ff with
  | nil => simp
  | cons e t ih =>
    intro hval
    have hmap : names.map (fun n => ((e :: t).filter (fun x => x.2 == n)).length)
        = names.map (fun n =>
            (if e.2 = n then 1 else 0) + (t.filter (fun x => x.2 == n)).length) := by
      apply List.map_congr_left
      intro n _
      by_cases h : e.2 = n <;> simp [List.filter_cons, h] <;> omega
    rw [hmap, sum_map_add_split, sum_indicator_one e.2 names hnd (hval e (by simp)),
      ih (fun x hx => hval x (List.mem_cons_of_mem e hx))]
    simp only [List.length_cons]
    omega

/-- C6: for every completed DomainPipeline — over any fetch oracle, parser
functions, parser order and sampler — the `unique` counters recomputed from
`url_first_found_by` sum, over the four parser names, to the size of the
accumulated product-URL set. -/
theorem parser_unique_counts_sum (fetchFn : String → Nat → Option Html) (parsers : Parsers)
    (ptu : List ParserType) (sampler : List String → List String)
    (domain : String) (max_depth : Int) :
    (statNames.map (fun n =>
        uniqueCount (crawl_single_domain_async fetchFn parsers ptu sampler domain max_depth)
          n)).sum
      = urlsCount (crawl_single_domain_async fetchFn parsers ptu sampler domain max_depth) := by
  rcases crawl_single_domain_statInv fetchFn parsers ptu sampler domain max_depth with
    ⟨hknd, hdnd, hval, heq⟩
  have h1 : (statNames.map (fun n =>
      uniqueCount (crawl_single_domain_async fetchFn parsers ptu sampler domain max_depth)
        n)).sum
      = (crawl_single_domain_async fetchFn parsers ptu sampler domain
          max_depth).st.firstFound.length :=
    sum_filter_len statNames (by decide) _ hval
  rw [h1]
  have h2 : (crawl_single_domain_async fetchFn parsers ptu sampler domain
      max_depth).st.firstFound.length
      = (ffKeys (crawl_single_domain_async fetchFn parsers ptu sampler domain
          max_depth).st.firstFound).length := by
    unfold ffKeys
    rw [List.length_map]
  rw [h2]
  have h3 := List.toFinset_card_of_nodup hknd
  have h4 := List.toFinset_card_of_nodup hdnd
  unfold urlsCount
  rw [← h3, heq, h4]

/-! ### C1: the trailing-slash invariant of persisted URLs -/

theorem digitChar_mod10_ne_slash (n : Nat) : Nat.digitChar (n % 10) ≠ '/' := by
  have h : n % 10 < 10 := Nat.mod_lt _ (by omega)
  set m := n % 10 with hm
  interval_cases m <;> decide

theorem toDigitsCore_ne_slash :
    ∀ (fuel n : Nat) (acc : List Char), (∀ c ∈ acc, c ≠ '/') →
      ∀ c ∈ Nat.toDigitsCore 10 fuel n acc, c ≠ '/' := by
  intro fuel
  induction fuel with
  | zero => intro n acc h; exact h
  | succ fuel ih =>
    intro n acc h
    show ∀ c ∈ (if n / 10 = 0 then Nat.digitChar (n % 10) :: acc
        else Nat.toDigitsCore 10 fuel (n / 10) (Nat.digitChar (n % 10) :: acc)), c ≠ '/'
    split
    · intro c hc
      rcases List.mem_cons.mp hc with rfl | hc
      · exact digitChar_mod10_ne_slash _
      · exact h c hc
    · apply ih
      intro c hc
      rcases List.mem_cons.mp hc with rfl | hc
      · exact digitChar_mod10_ne_slash _
      · exact h c hc

theorem toDigitsCore_ne_nil :
    ∀ (fuel n : Nat) (acc : List Char), (fuel ≠ 0 ∨ acc ≠ []) →
      Nat.toDigitsCore 10 fuel n acc ≠ [] := by
  intro fuel
  induction fuel with
  | zero =>
    intro n acc h
    rcases h with h | h
    · exact absurd rfl h
    · exact h
  | succ fuel ih =>
    intro n acc _
    show (if n / 10 = 0 then Nat.digitChar (n % 10) :: acc
        else Nat.toDigitsCore 10 fuel (n / 10) (Nat.digitChar (n % 10) :: acc)) ≠ []
    split
    · exact List.cons_ne_nil _ _
    · exact ih _ _ (Or.inr (List.cons_ne_nil _ _))

theorem toString_nat_data (v : Nat) : (toString v).data = Nat.toDigits 10 v := rfl

theorem toString_nat_ne_slash (v : Nat) : ∀ c ∈ (toString v).data, c ≠ '/' := by
  rw [toString_nat_data]
  exact toDigitsCore_ne_slash (v + 1) v [] (by intro c hc; simp at hc)

theorem toString_nat_ne_nil (v : Nat) : (toString v).data ≠ [] := by
  rw [toString_nat_data]
  exact toDigitsCore_ne_nil (v + 1) v [] (Or.inl (by omega))

theorem getLast?_append_ne_nil {l₁ l₂ : List Char} (h : l₂ ≠ []) :
    (l₁ ++ l₂).getLast? = l₂.getLast? := by
  rw [List.getLast?_eq_head?_reverse, List.reverse_append,
    show l₂.getLast? = l₂.reverse.head? from List.getLast?_eq_head?_reverse]
  match l₂ with
  | [] => exact absurd rfl h
  | a :: t => simp

theorem getLast?_drop_eq {l : List Char} {n : Nat} (h : l.drop n ≠ []) :
    (l.drop n).getLast? = l.getLast? := by
  conv_rhs => rw [← List.take_append_drop n l]
  rw [getLast?_append_ne_nil h]

theorem head?_dropWhile_not (p : Char → Bool) :
    ∀ l : List Char, ∀ c, (l.dropWhile p).head? = some c → p c = false := by
  intro l
  induction l with
  | nil => intro c h; simp [List.dropWhile] at h
  | cons a t ih =>
    intro c h
    rw [List.dropWhile_cons] at h
    split at h
    · exact ih c h
    · next hpa =>
      have : a = c := by simpa using h
      subst this
      exact Bool.not_eq_true _ ▸ hpa

theorem rstripSlash_getLast (l : List Char) : (rstripSlash l).getLast? ≠ some '/' := by
  unfold rstripSlash
  rw [List.getLast?_reverse]
  intro hc
  have := head?_dropWhile_not (fun c => c = '/') l.reverse '/' hc
  simp at this

theorem capPre_ne_nil (k : CapKind) : capPre k ≠ [] := by cases k <;> decide

theorem capSubAllAux_nil (k : CapKind) (v : Nat) (fuel : Nat) :
    capSubAllAux k v fuel [] = [] := by
  cases fuel <;> rfl

theorem capSubAllAux_ne_nil (k : CapKind) (v : Nat) :
    ∀ (fuel : Nat) (l : List Char), l ≠ [] → capSubAllAux k v fuel l ≠ [] := by
  intro fuel
  cases fuel with
  | zero => intro l h; exact h
  | succ fuel =>
    intro l h
    match l with
    | c :: t =>
      unfold capSubAllAux
      split
      · intro hcon
        simp only [List.append_eq_nil] at hcon
        exact capPre_ne_nil k hcon.1.1.1
      · exact List.cons_ne_nil _ _

theorem capRest_eq_drop (k : CapKind) (l : List Char) :
    capRest k l = l.drop ((capPre k).length + (capDigits k l).length) := by
  unfold capRest
  rw [List.drop_drop]

theorem capMatchAt_inv (k : CapKind) (l : List Char) (num consumed : Nat) (post : List Char)
    (h : capMatchAt k l = some (num, consumed, post)) :
    (post = [] ∨ post = cs ".html") ∨
      (post = ['/'] ∧ (l.drop consumed = [] → l.getLast? = some '/')) := by
  unfold capMatchAt at h
  split at h
  · split at h
    · exact absurd h (by simp)
    · split at h
      · split at h
        · next tail heq =>
          simp only [Option.some.injEq, Prod.mk.injEq] at h
          obtain ⟨-, hcons, hpost⟩ := h
          refine Or.inr ⟨hpost.symm, ?_⟩
          intro hdrop
          rw [capRest_eq_drop] at heq
          have e2 : l.drop ((capPre CapKind.slashNum).length
              + (capDigits CapKind.slashNum l).length + 1) = tail := by
            rw [← List.drop_drop, heq]
            rfl
          rw [← hcons, e2] at hdrop
          subst hdrop
          have hne : l.drop ((capPre CapKind.slashNum).length
              + (capDigits CapKind.slashNum l).length) ≠ [] := by
            rw [heq]
            exact List.cons_ne_nil _ _
          rw [← getLast?_drop_eq hne, heq]
          rfl
        · simp only [Option.some.injEq, Prod.mk.injEq] at h
          exact Or.inl (Or.inl h.2.2.symm)
        · exact absurd h (by simp)
      · split at h
        · simp only [Option.some.injEq, Prod.mk.injEq] at h
          exact Or.inl (Or.inr h.2.2.symm)
        · exact absurd h (by simp)
      · simp only [Option.some.injEq, Prod.mk.injEq] at h
        exact Or.inl (Or.inl h.2.2.symm)
  · exact absurd h (by simp)

theorem mem_of_getLast?_eq (l : List Char) (a : Char) (h : l.getLast? = some a) : a ∈ l := by
  cases hr : l.reverse with
  | nil =>
    rw [List.getLast?_eq_head?_reverse, hr] at h
    exact absurd h (by simp)
  | cons b t =>
    rw [List.getLast?_eq_head?_reverse, hr] at h
    have hb : b = a := by simpa using h
    have hm : a ∈ l.reverse := by
      rw [hr, hb]
      exact List.mem_cons_self _ _
    simpa using hm

theorem capSubAllAux_getLast (k : CapKind) (v : Nat) :
    ∀ (fuel : Nat) (l : List Char), l.getLast? ≠ some '/' →
      (capSubAllAux k v fuel l).getLast? ≠ some '/' := by
  intro fuel
  induction fuel with
  | zero => intro l h; exact h
  | succ fuel ih =>
    intro l h
    match l with
    | [] => simp [capSubAllAux_nil]
    | c :: t =>
      rw [show capSubAllAux k v (fuel + 1) (c :: t)
          = match capMatchAt k (c :: t) with
            | some (_, consumed, post) =>
              capPre k ++ cs (toString v) ++ post
                ++ capSubAllAux k v fuel ((c :: t).drop consumed)
            | none => c :: capSubAllAux k v fuel t from rfl]
      split
      · next num consumed post hm =>
        by_cases hdrop : (c :: t).drop consumed = []
        · rcases capMatchAt_inv k (c :: t) num consumed post hm with hpost | ⟨hpost, himp⟩
          · rcases hpost with hpost | hpost
            · subst hpost
              rw [hdrop, capSubAllAux_nil]
              simp only [List.append_nil]
              rw [getLast?_append_ne_nil (show cs (toString v) ≠ [] from toString_nat_ne_nil v)]
              intro hc
              exact toString_nat_ne_slash v '/'
                (mem_of_getLast?_eq _ _ (by simpa using hc)) rfl
            · subst hpost
              rw [hdrop, capSubAllAux_nil]
              simp only [List.append_nil]
              rw [show ((capPre k ++ cs (toString v)) ++ cs ".html").getLast?
                  = (cs ".html").getLast? from getLast?_append_ne_nil (by decide)]
              decide
          · exact absurd (himp hdrop) h
        · have hne := capSubAllAux_ne_nil k v fuel _ hdrop
          rw [getLast?_append_ne_nil hne]
          exact ih _ (by rw [getLast?_drop_eq hdrop]; exact h)
      · by_cases ht : t = []
        · subst ht
          rw [capSubAllAux_nil]
          simpa using h
        · have hne := capSubAllAux_ne_nil k v fuel t ht
          rw [show (c :: capSubAllAux k v fuel t) = [c] ++ capSubAllAux k v fuel t from rfl]
          rw [getLast?_append_ne_nil hne]
          refine ih t ?_
          rw [show (c :: t) = [c] ++ t from rfl] at h
          rwa [getLast?_append_ne_nil ht] at h

theorem capSubAll_getLast (k : CapKind) (url : List Char) (v : Nat)
    (h : url.getLast? ≠ some '/') : (capSubAll k url v).getLast? ≠ some '/' :=
  capSubAllAux_getLast k v url.length url h

theorem mem_insertSorted {x u : String} :
    ∀ {l : List String}, u ∈ insertSorted x l → u = x ∨ u ∈ l := by
  intro l
  induction l with
  | nil =>
    intro h
    exact Or.inl (by simpa [insertSorted] using h)
  | cons y t ih =>
    intro h
    unfold insertSorted at h
    split at h
    · rcases List.mem_cons.mp h with h | h
      · exact Or.inl h
      · exact Or.inr h
    · rcases List.mem_cons.mp h with h | h
      · exact Or.inr (h ▸ List.mem_cons_self y t)
      · rcases ih h with h | h
        · exact Or.inl h
        · exact Or.inr (List.mem_cons_of_mem y h)

theorem mem_sortStrings {l : List String} {u : String} (h : u ∈ sortStrings l) : u ∈ l := by
  induction l with
  | nil => simpa [sortStrings] using h
  | cons x t ih =>
    rcases mem_insertSorted (x := x) h with h | h
    · exact h ▸ List.mem_cons_self x t
    · exact List.mem_cons_of_mem x (ih h)

theorem foldl_patternParse_noSlash (base : String) (pats : List (List Char → Bool)) :
    ∀ (html : Html) (acc : List String),
      (∀ u ∈ acc, u.data.getLast? ≠ some '/') →
      ∀ u ∈ html.foldl (fun acc a =>
          if pats.any (fun p => p (urljoinChars base.data a.href.data)) then
            insertNew acc ⟨rstripSlash (urljoinChars base.data a.href.data)⟩
          else acc) acc,
        u.data.getLast? ≠ some '/' := by
  intro html
  induction html with
  | nil => intro acc hacc u hu; exact hacc u hu
  | cons a t ih =>
    intro acc hacc u hu
    simp only [List.foldl_cons] at hu
    refine ih _ ?_ u hu
    intro w hw
    by_cases hc : pats.any (fun p => p (urljoinChars base.data a.href.data)) = true
    · rw [if_pos hc] at hw
      rcases mem_insertNew hw with hw | rfl
      · exact hacc w hw
      · exact rstripSlash_getLast _
    · rw [if_neg hc] at hw
      exact hacc w hw

theorem patternParse_noSlash (html : Html) (base : String) (pats : List (List Char → Bool)) :
    ∀ u ∈ patternParse html base pats, u.data.getLast? ≠ some '/' := by
  intro u hu
  unfold patternParse at hu
  split at hu
  · simp at hu
  · exact foldl_patternParse_noSlash base pats html [] (by simp) u (mem_sortStrings hu)

theorem simpleParse_noSlash (html : Html) (base : String) :
    ∀ u ∈ simpleParse html base, u.data.getLast? ≠ some '/' :=
  patternParse_noSlash html base PATTERNS

theorem configParse_noSlash (html : Html) (domain : String) :
    ∀ u ∈ configParse html domain, u.data.getLast? ≠ some '/' := by
  intro u hu
  unfold configParse at hu
  exact patternParse_noSlash html domain _ u hu

theorem defaultParsers_noSlash (aiParse : Html → String → List String) :
    ∀ pt ∈ PARSERS_TO_USE, ∀ (html : Html) (url : String),
      ∀ u ∈ defaultParsers aiParse pt html url, u.data.getLast? ≠ some '/' := by
  intro pt hpt html url u hu
  rcases List.mem_cons.mp hpt with rfl | hpt
  · exact simpleParse_noSlash html url u hu
  · rcases List.mem_cons.mp hpt with rfl | hpt
    · exact configParse_noSlash html url u hu
    · simp at hpt

theorem parserFold_noSlash (parsers : Parsers) (html : Html) (url dn : String) :
    ∀ (pts : List ParserType) (st : CrawlState) (prod : List String),
      (∀ pt ∈ pts, ∀ u ∈ parsers pt html url, u.data.getLast? ≠ some '/') →
      (∀ u ∈ prod, u.data.getLast? ≠ some '/') →
      ∀ u ∈ (parserFold parsers html url dn pts st prod).2, u.data.getLast? ≠ some '/' := by
  intro pts
  induction pts with
  | nil => intro st prod _ hprod u hu; exact hprod u hu
  | cons pt rest ih =>
    intro st prod hp hprod u hu
    have heq : parserFold parsers html url dn (pt :: rest) st prod =
        if (parsers pt html url).isEmpty then parserFold parsers html url dn rest st prod
        else
          if 5 ≤ (insertAllNew prod (parsers pt html url)).length then
            (recordParserUrls st pt.value dn (parsers pt html url),
              insertAllNew prod (parsers pt html url))
          else
            parserFold parsers html url dn rest
              (recordParserUrls st pt.value dn (parsers pt html url))
              (insertAllNew prod (parsers pt html url)) := rfl
    rw [heq] at hu
    have hrest : ∀ pt ∈ rest, ∀ u ∈ parsers pt html url, u.data.getLast? ≠ some '/' :=
      fun pt h => hp pt (List.mem_cons_of_mem _ h)
    have hprod' : ∀ u ∈ insertAllNew prod (parsers pt html url),
        u.data.getLast? ≠ some '/' := by
      intro w hw
      rcases mem_insertAllNew hw with hw | hw
      · exact hprod w hw
      · exact hp pt (List.mem_cons_self _ _) w hw
    by_cases he : (parsers pt html url).isEmpty = true
    · rw [if_pos he] at hu
      exact ih st prod hrest hprod u hu
    · rw [if_neg he] at hu
      by_cases h5 : 5 ≤ (insertAllNew prod (parsers pt html url)).length
      · rw [if_pos h5] at hu
        exact hprod' u hu
      · rw [if_neg h5] at hu
        exact ih _ _ hrest hprod' u hu

theorem process_url_products_noSlash (fetchFn : String → Nat → Option Html)
    (parsers : Parsers) (pts : List ParserType) (dn : String) (st : CrawlState)
    (url : String) (cd md : Int)
    (hp : ∀ pt ∈ pts, ∀ (html : Html) (u' : String),
      ∀ u ∈ parsers pt html u', u.data.getLast? ≠ some '/') :
    ∀ u ∈ (process_url fetchFn parsers pts dn st url cd md).products,
      u.data.getLast? ≠ some '/' := by
  intro u hu
  unfold process_url at hu
  split at hu
  · next html _ =>
    exact parserFold_noSlash parsers html url dn pts st []
      (fun pt h => hp pt h html url) (by simp) u hu
  · split at hu
    · split at hu
      · next html _ =>
        exact parserFold_noSlash parsers html url dn pts st []
          (fun pt h => hp pt h html url) (by simp) u hu
      · simp at hu
    · simp at hu

theorem generate_sequential_urls_noSlash (sampler : List String → List String)
    (prods : List String) (max_urls : Nat)
    (hs : ∀ s ∈ sampler prods, s ∈ prods)
    (hp : ∀ u ∈ prods, u.data.getLast? ≠ some '/') :
    ∀ u ∈ generate_sequential_urls sampler prods max_urls,
      u.data.getLast? ≠ some '/' := by
  intro u hu
  unfold generate_sequential_urls at hu
  split at hu
  · simp at hu
  · have hu' : u ∈ genLoop number_patterns (sampler prods) :=
      (List.mem_filter.mp (List.mem_of_mem_take hu)).1
    rcases mem_genLoop hu' with ⟨k, _, s, hsmem, n, _, hnear⟩
    rcases mem_nearbyUrls hnear with ⟨v, _, rfl⟩
    exact capSubAll_getLast k s.data v (hp s (hs s hsmem))

theorem handleResult_slashInv (sampler : List String → List String) (dn : String)
    (ps : PipeState) (nextAcc : List String) (r : ProcessResult)
    (hs : ∀ s ∈ sampler r.products, s ∈ r.products)
    (hr : ∀ u ∈ r.products, u.data.getLast? ≠ some '/')
    (hd : ∀ u ∈ ps.domainUrls, u.data.getLast? ≠ some '/') :
    (∀ u ∈ (handleResult sampler dn ps nextAcc r).1.domainUrls,
      u.data.getLast? ≠ some '/') ∧
    (handleResult sampler dn ps nextAcc r).1.saves = ps.saves := by
  have hseq := generate_sequential_urls_noSlash sampler r.products 30 hs hr
  have hd1 : ∀ u ∈ insertAllNew ps.domainUrls r.products,
      u.data.getLast? ≠ some '/' := by
    intro u hu
    rcases mem_insertAllNew hu with hu | hu
    · exact hd u hu
    · exact hr u hu
  have hd2 : ∀ u ∈ insertAllNew (insertAllNew ps.domainUrls r.products)
      (generate_sequential_urls sampler r.products 30),
      u.data.getLast? ≠ some '/' := by
    intro u hu
    rcases mem_insertAllNew hu with hu | hu
    · exact hd1 u hu
    · exact hseq u hu
  have heq : (handleResult sampler dn ps nextAcc r).1 =
      if r.products.isEmpty then ps
      else
        if 3 ≤ r.products.length then
          if (generate_sequential_urls sampler r.products 30).isEmpty then
            { ps with domainUrls := insertAllNew ps.domainUrls r.products }
          else
            { ps with
              st := { ps.st with
                totals := bump ps.st.totals "sequential"
                  (generate_sequential_urls sampler r.products 30).length
                contrib := addContrib ps.st.contrib "sequential" dn
                firstFound := (generate_sequential_urls sampler r.products 30).foldl
                  (fun ff u => ffInsert ff u "sequential") ps.st.firstFound }
              domainUrls := insertAllNew (insertAllNew ps.domainUrls r.products)
                (generate_sequential_urls sampler r.products 30) }
        else { ps with domainUrls := insertAllNew ps.domainUrls r.products } := rfl
  rw [heq]
  by_cases h1 : r.products.isEmpty = true
  · rw [if_pos h1]
    exact ⟨hd, rfl⟩
  · rw [if_neg h1]
    by_cases h3 : 3 ≤ r.products.length
    · rw [if_pos h3]
      by_cases h4 : (generate_sequential_urls sampler r.products 30).isEmpty = true
      · rw [if_pos h4]
        exact ⟨hd1, rfl⟩
      · rw [if_neg h4]
        exact ⟨hd2, rfl⟩
    · rw [if_neg h3]
      exact ⟨hd1, rfl⟩

/-- The body of the `asyncio.gather` fold of `processBatch`, named for the
invariant proofs. -/
def batchFoldFn (fetchFn : String → Nat → Option Html) (parsers : Parsers)
    (pts : List ParserType) (dn : String) (cd md : Int) :
    (CrawlState × List ProcessResult × List String) → String →
      (CrawlState × List ProcessResult × List String) :=
  fun acc u =>
    let r := process_url fetchFn parsers pts dn acc.1 u cd md
    (r.state, acc.2.1 ++ [r], acc.2.2 ++ r.fetched)

/-- The body of the result-handling fold of `processBatch`, named for the
invariant proofs. -/
def handleFoldFn (sampler : List String → List String) (dn : String) :
    (PipeState × List String) → ProcessResult → (PipeState × List String) :=
  fun acc r => handleResult sampler dn acc.1 acc.2 r

theorem batchFold_products_noSlash (fetchFn : String → Nat → Option Html)
    (parsers : Parsers) (pts : List ParserType) (dn : String) (cd md : Int)
    (hp : ∀ pt ∈ pts, ∀ (html : Html) (u' : String),
      ∀ u ∈ parsers pt html u', u.data.getLast? ≠ some '/') :
    ∀ (batch1 : List String) (init : CrawlState × List ProcessResult × List String),
      (∀ r ∈ init.2.1, ∀ u ∈ r.products, u.data.getLast? ≠ some '/') →
      ∀ r ∈ (batch1.foldl (batchFoldFn fetchFn parsers pts dn cd md) init).2.1,
        ∀ u ∈ r.products, u.data.getLast? ≠ some '/' := by
  intro batch1
  induction batch1 with
  | nil => intro init hinit r hr; exact hinit r hr
  | cons b t ih =>
    intro init hinit r hr
    simp only [List.foldl_cons] at hr
    refine ih _ ?_ r hr
    intro r' hr'
    have hr'' : r' ∈ init.2.1 ++ [process_url fetchFn parsers pts dn init.1 b cd md] := hr'
    rcases List.mem_append.mp hr'' with h | h
    · exact hinit r' h
    · have hx : r' = process_url fetchFn parsers pts dn init.1 b cd md := by simpa using h
      rw [hx]
      exact process_url_products_noSlash fetchFn parsers pts dn init.1 b cd md hp

theorem handleFold_slashInv (sampler : List String → List String) (dn : String)
    (hs : ∀ (l : List String), ∀ s ∈ sampler l, s ∈ l) :
    ∀ (rs : List ProcessResult) (acc : PipeState × List String),
      (∀ r ∈ rs, ∀ u ∈ r.products, u.data.getLast? ≠ some '/') →
      (∀ u ∈ acc.1.domainUrls, u.data.getLast? ≠ some '/') →
      (∀ u ∈ (rs.foldl (handleFoldFn sampler dn) acc).1.domainUrls,
        u.data.getLast? ≠ some '/') ∧
      (rs.foldl (handleFoldFn sampler dn) acc).1.saves = acc.1.saves := by
  intro rs
  induction rs with
  | nil => intro acc _ hd; exact ⟨hd, rfl⟩
  | cons r t ih =>
    intro acc hrs hd
    simp only [List.foldl_cons]
    have h1 := handleResult_slashInv sampler dn acc.1 acc.2 r
      (hs r.products) (hrs r (List.mem_cons_self r t)) hd
    have h2 := ih (handleFoldFn sampler dn acc r)
      (fun r' h => hrs r' (List.mem_cons_of_mem r h)) h1.1
    exact ⟨h2.1, h2.2.trans h1.2⟩

theorem processBatch_slashInv (fetchFn : String → Nat → Option Html)
    (parsers : Parsers) (pts : List ParserType) (sampler : List String → List String)
    (dn : String) (ps : PipeState) (nextAcc batch : List String) (cd md : Int)
    (hp : ∀ pt ∈ pts, ∀ (html : Html) (u' : String),
      ∀ u ∈ parsers pt html u', u.data.getLast? ≠ some '/')
    (hs : ∀ (l : List String), ∀ s ∈ sampler l, s ∈ l)
    (hd : ∀ u ∈ ps.domainUrls, u.data.getLast? ≠ some '/') :
    (∀ u ∈ (processBatch fetchFn parsers pts sampler dn ps nextAcc batch cd md).1.domainUrls,
      u.data.getLast? ≠ some '/') ∧
    (processBatch fetchFn parsers pts sampler dn ps nextAcc batch cd md).1.saves = ps.saves := by
  have hrs := batchFold_products_noSlash fetchFn parsers pts dn cd md hp
    (batch.filter (fun u => !ps.visited.contains u)) (ps.st, [], []) (by simp)
  have H := handleFold_slashInv sampler dn hs
    ((batch.filter (fun u => !ps.visited.contains u)).foldl
      (batchFoldFn fetchFn parsers pts dn cd md) (ps.st, [], [])).2.1
    ({ ps with
        visited := ps.visited ++ batch.filter (fun u => !ps.visited.contains u)
        processed := ps.processed ++ batch.filter (fun u => !ps.visited.contains u)
        st := ((batch.filter (fun u => !ps.visited.contains u)).foldl
          (batchFoldFn fetchFn parsers pts dn cd md) (ps.st, [], [])).1
        fetchEvents := ps.fetchEvents ++ ((batch.filter (fun u => !ps.visited.contains u)).foldl
          (batchFoldFn fetchFn parsers pts dn cd md) (ps.st, [], [])).2.2 }, nextAcc)
    hrs hd
  exact ⟨H.1, H.2⟩

theorem depthChunks_slashInv (fetchFn : String → Nat → Option Html)
    (parsers : Parsers) (pts : List ParserType) (sampler : List String → List String)
    (dn : String) (cd md : Int)
    (hp : ∀ pt ∈ pts, ∀ (html : Html) (u' : String),
      ∀ u ∈ parsers pt html u', u.data.getLast? ≠ some '/')
    (hs : ∀ (l : List String), ∀ s ∈ sampler l, s ∈ l) :
    ∀ (fuel : Nat) (ps : PipeState) (remaining nextAcc : List String),
      (∀ u ∈ ps.domainUrls, u.data.getLast? ≠ some '/') →
      (∀ u ∈ (depthChunks fetchFn parsers pts sampler dn cd md fuel ps remaining
          nextAcc).1.domainUrls, u.data.getLast? ≠ some '/') ∧
      (depthChunks fetchFn parsers pts sampler dn cd md fuel ps remaining
        nextAcc).1.saves = ps.saves := by
  intro fuel
  induction fuel with
  | zero => intro ps remaining nextAcc hd; exact ⟨hd, rfl⟩
  | succ fuel ih =>
    intro ps remaining nextAcc hd
    match remaining with
    | [] => exact ⟨hd, rfl⟩
    | x :: rest =>
      have hb := processBatch_slashInv fetchFn parsers pts sampler dn ps nextAcc
        ((x :: rest).take 10) cd md hp hs hd
      have h2 := ih (processBatch fetchFn parsers pts sampler dn ps nextAcc
          ((x :: rest).take 10) cd md).1 ((x :: rest).drop 10)
        (processBatch fetchFn parsers pts sampler dn ps nextAcc
          ((x :: rest).take 10) cd md).2 hb.1
      exact ⟨h2.1, h2.2.trans hb.2⟩

theorem crawlDepths_slashInv (fetchFn : String → Nat → Option Html)
    (parsers : Parsers) (pts : List ParserType) (sampler : List String → List String)
    (dn : String) (md : Int)
    (hp : ∀ pt ∈ pts, ∀ (html : Html) (u' : String),
      ∀ u ∈ parsers pt html u', u.data.getLast? ≠ some '/')
    (hs : ∀ (l : List String), ∀ s ∈ sampler l, s ∈ l) :
    ∀ (fuel : Nat) (cd : Int) (ps : PipeState) (utv : List String),
      (∀ u ∈ ps.domainUrls, u.data.getLast? ≠ some '/') →
      (∀ save ∈ ps.saves, ∀ u ∈ save, u.data.getLast? ≠ some '/') →
      (∀ u ∈ (crawlDepths fetchFn parsers pts sampler dn md fuel cd ps utv).domainUrls,
        u.data.getLast? ≠ some '/') ∧
      (∀ save ∈ (crawlDepths fetchFn parsers pts sampler dn md fuel cd ps utv).saves,
        ∀ u ∈ save, u.data.getLast? ≠ some '/') := by
  intro fuel
  induction fuel with
  | zero => intro cd ps utv hd hsv; exact ⟨hd, hsv⟩
  | succ fuel ih =>
    intro cd ps utv hd hsv
    have heq : crawlDepths fetchFn parsers pts sampler dn md (fuel + 1) cd ps utv =
        if cd < md ∧ utv ≠ [] then
          crawlDepths fetchFn parsers pts sampler dn md fuel (cd + 1)
            (if (depthChunks fetchFn parsers pts sampler dn cd md utv.length ps utv
                []).1.domainUrls.isEmpty then
              (depthChunks fetchFn parsers pts sampler dn cd md utv.length ps utv []).1
            else
              { (depthChunks fetchFn parsers pts sampler dn cd md utv.length ps utv []).1 with
                saves := (depthChunks fetchFn parsers pts sampler dn cd md utv.length ps utv
                    []).1.saves ++
                  [(depthChunks fetchFn parsers pts sampler dn cd md utv.length ps utv
                    []).1.domainUrls] })
            (prioritize_next_depth
              (depthChunks fetchFn parsers pts sampler dn cd md utv.length ps utv []).2)
        else ps := rfl
    rw [heq]
    by_cases hcond : cd < md ∧ utv ≠ []
    · rw [if_pos hcond]
      have hch := depthChunks_slashInv fetchFn parsers pts sampler dn cd md hp hs
        utv.length ps utv [] hd
      by_cases hie : (depthChunks fetchFn parsers pts sampler dn cd md utv.length ps utv
          []).1.domainUrls.isEmpty = true
      · rw [if_pos hie]
        refine ih (cd + 1) _ _ hch.1 ?_
        rw [hch.2]
        exact hsv
      · rw [if_neg hie]
        refine ih (cd + 1) _ _ hch.1 ?_
        intro save hsave
        have hsave' : save ∈ (depthChunks fetchFn parsers pts sampler dn cd md utv.length
            ps utv []).1.saves ++
            [(depthChunks fetchFn parsers pts sampler dn cd md utv.length ps utv
              []).1.domainUrls] := hsave
        rcases List.mem_append.mp hsave' with h | h
        · rw [hch.2] at h
          exact hsv save h
        · have hx : save = (depthChunks fetchFn parsers pts sampler dn cd md utv.length
              ps utv []).1.domainUrls := by simpa using h
          rw [hx]
          exact hch.1
    · rw [if_neg hcond]
      exact ⟨hd, hsv⟩

/-- C1 (amended): every URL in every `storage.save` payload of a crawl has no
trailing `/`: the pattern parsers emit `urljoin(...).rstrip('/')` results and
the sequential expander substitutes digits inside sampled product URLs, which
cannot re-create a trailing slash.  (The stronger normalization claims fail,
because `normalize_url` is never called on this path.) -/
theorem persisted_urls_no_trailing_slash (fetchFn : String → Nat → Option Html)
    (aiParse : Html → String → List String) (sampler : List String → List String)
    (domain : String) (max_depth : Int)
    (hs : ∀ (l : List String), ∀ s ∈ sampler l, s ∈ l) :
    ∀ save ∈ (crawl_single_domain_async fetchFn (defaultParsers aiParse) PARSERS_TO_USE
        sampler domain max_depth).saves,
      ∀ u ∈ save, u.data.getLast? ≠ some '/' := by
  intro save hsave
  have hcd := crawlDepths_slashInv fetchFn (defaultParsers aiParse) PARSERS_TO_USE sampler
    ⟨(urlsplitChars domain.data).netloc⟩ max_depth
    (fun pt hpt html u' => defaultParsers_noSlash aiParse pt hpt html u') hs
    max_depth.toNat 0 initPipe [domain] (by simp [initPipe]) (by simp [initPipe])
  have hsave' : save ∈
      (if (crawlDepths fetchFn (defaultParsers aiParse) PARSERS_TO_USE sampler
          ⟨(urlsplitChars domain.data).netloc⟩ max_depth max_depth.toNat 0 initPipe
          [domain]).domainUrls.isEmpty then
        crawlDepths fetchFn (defaultParsers aiParse) PARSERS_TO_USE sampler
          ⟨(urlsplitChars domain.data).netloc⟩ max_depth max_depth.toNat 0 initPipe [domain]
      else
        { crawlDepths fetchFn (defaultParsers aiParse) PARSERS_TO_USE sampler
            ⟨(urlsplitChars domain.data).netloc⟩ max_depth max_depth.toNat 0 initPipe
            [domain] with
          saves := (crawlDepths fetchFn (defaultParsers aiParse) PARSERS_TO_USE sampler
              ⟨(urlsplitChars domain.data).netloc⟩ max_depth max_depth.toNat 0 initPipe
              [domain]).saves ++
            [(crawlDepths fetchFn (defaultParsers aiParse) PARSERS_TO_USE sampler
              ⟨(urlsplitChars domain.data).netloc⟩ max_depth max_depth.toNat 0 initPipe
              [domain]).domainUrls] }).saves := hsave
  by_cases hie : (crawlDepths fetchFn (defaultParsers aiParse) PARSERS_TO_USE sampler
      ⟨(urlsplitChars domain.data).netloc⟩ max_depth max_depth.toNat 0 initPipe
      [domain]).domainUrls.isEmpty = true
  · rw [if_pos hie] at hsave'
    exact hcd.2 save hsave'
  · rw [if_neg hie] at hsave'
    have hsave'' : save ∈ (crawlDepths fetchFn (defaultParsers aiParse) PARSERS_TO_USE sampler
        ⟨(urlsplitChars domain.data).netloc⟩ max_depth max_depth.toNat 0 initPipe
        [domain]).saves ++
        [(crawlDepths fetchFn (defaultParsers aiParse) PARSERS_TO_USE sampler
          ⟨(urlsplitChars domain.data).netloc⟩ max_depth max_depth.toNat 0 initPipe
          [domain]).domainUrls] := hsave'
    rcases List.mem_append.mp hsave'' with h | h
    · exact hcd.2 save h
    · have hx : save = (crawlDepths fetchFn (defaultParsers aiParse) PARSERS_TO_USE sampler
          ⟨(urlsplitChars domain.data).netloc⟩ max_depth max_depth.toNat 0 initPipe
          [domain]).domainUrls := by simpa using h
      rw [hx]
      exact hcd.1

/-- C1 (amended, witness): the identity sampler satisfies the sampling
hypothesis, and the fixture crawl of seed `EX.com` therefore persists only
URLs without a trailing slash. -/
theorem persisted_urls_no_trailing_slash_witness :
    (∀ (l : List String), ∀ s ∈ (id : List String → List String) l, s ∈ l) ∧
    ∀ save ∈ (crawl_single_domain_async c1Fetch (defaultParsers (fun _ _ => []))
        PARSERS_TO_USE id "EX.com" 1).saves,
      ∀ u ∈ save, u.data.getLast? ≠ some '/' :=
  ⟨fun _ _ h => h,
    persisted_urls_no_trailing_slash c1Fetch (fun _ _ => []) id "EX.com" 1
      (fun _ _ h => h)⟩

/-! ## Toolkit for the normalization idempotence proof -/

theorem lowerChar_cases (c : Char) :
    lowerChar c = c ∨ (c ∈ cs "ABCDEFGHIJKLMNOPQRSTUVWXYZ" ∧
      lowerChar c ∈ cs "abcdefghijklmnopqrstuvwxyz") := by
  unfold lowerChar
  split
  case _ => exact Or.inr (by decide)
  case _ => exact Or.inr (by decide)
  case _ => exact Or.inr (by decide)
  case _ => exact Or.inr (by decide)
  case _ => exact Or.inr (by decide)
  case _ => exact Or.inr (by decide)
  case _ => exact Or.inr (by decide)
  case _ => exact Or.inr (by decide)
  case _ => exact Or.inr (by decide)
  case _ => exact Or.inr (by decide)
  case _ => exact Or.inr (by decide)
  case _ => exact Or.inr (by decide)
  case _ => exact Or.inr (by decide)
  case _ => exact Or.inr (by decide)
  case _ => exact Or.inr (by decide)
  case _ => exact Or.inr (by decide)
  case _ => exact Or.inr (by decide)
  case _ => exact Or.inr (by decide)
  case _ => exact Or.inr (by decide)
  case _ => exact Or.inr (by decide)
  case _ => exact Or.inr (by decide)
  case _ => exact Or.inr (by decide)
  case _ => exact Or.inr (by decide)
  case _ => exact Or.inr (by decide)
  case _ => exact Or.inr (by decide)
  case _ => exact Or.inr (by decide)
  case _ => exact Or.inl rfl

theorem lowerChar_lower_id : ∀ c ∈ cs "abcdefghijklmnopqrstuvwxyz", lowerChar c = c := by
  decide

theorem lowercase_classes : ∀ c ∈ cs "abcdefghijklmnopqrstuvwxyz",
    netlocDelim c = false ∧ schemeChar c = true ∧ c.isAlpha = true ∧
      unsafeChar c = false ∧ strippableChar c = false := by
  decide

theorem uppercase_classes : ∀ c ∈ cs "ABCDEFGHIJKLMNOPQRSTUVWXYZ",
    netlocDelim c = false ∧ schemeChar c = true ∧ c.isAlpha = true ∧
      unsafeChar c = false ∧ strippableChar c = false := by
  decide

theorem lowerChar_idem (c : Char) : lowerChar (lowerChar c) = lowerChar c := by
  rcases lowerChar_cases c with h | ⟨_, h⟩
  · rw [h]
    exact h
  · exact lowerChar_lower_id _ h

theorem lowerChar_netlocDelim (c : Char) : netlocDelim (lowerChar c) = netlocDelim c := by
  rcases lowerChar_cases c with h | ⟨hu, hl⟩
  · rw [h]
  · rw [(lowercase_classes _ hl).1, (uppercase_classes _ hu).1]

theorem lowerChar_schemeChar (c : Char) : schemeChar (lowerChar c) = schemeChar c := by
  rcases lowerChar_cases c with h | ⟨hu, hl⟩
  · rw [h]
  · rw [(lowercase_classes _ hl).2.1, (uppercase_classes _ hu).2.1]

theorem lowerChar_isAlpha (c : Char) : (lowerChar c).isAlpha = c.isAlpha := by
  rcases lowerChar_cases c with h | ⟨hu, hl⟩
  · rw [h]
  · rw [(lowercase_classes _ hl).2.2.1, (uppercase_classes _ hu).2.2.1]

theorem lowerChar_unsafeChar (c : Char) : unsafeChar (lowerChar c) = unsafeChar c := by
  rcases lowerChar_cases c with h | ⟨hu, hl⟩
  · rw [h]
  · rw [(lowercase_classes _ hl).2.2.2.1, (uppercase_classes _ hu).2.2.2.1]

theorem schemeChar_not_unsafeChar (c : Char) (h : schemeChar c = true) : unsafeChar c = false := by
  cases hx : unsafeChar c
  · rfl
  · exfalso
    have hor : (c = '\t' ∨ c = '\x0d') ∨ c = '\n' := by
      simpa [unsafeChar, Bool.or_eq_true] using hx
    rcases hor with (h1 | h1) | h1 <;> rw [h1] at h <;> exact absurd h (by decide)

theorem schemeChar_ne_colon (c : Char) (h : schemeChar c = true) : c ≠ ':' := by
  intro hc
  rw [hc] at h
  exact absurd h (by decide)

theorem all_schemeChar_not_mem_colon {l : List Char} (h : l.all schemeChar = true) :
    ':' ∉ l := by
  intro hm
  exact schemeChar_ne_colon ':' (List.all_eq_true.mp h ':' hm) rfl

theorem dropWhile_id_of_head {p : Char → Bool} :
    ∀ {l : List Char}, (∀ c, l.head? = some c → p c = false) → l.dropWhile p = l := by
  intro l h
  match l with
  | [] => rfl
  | c :: t =>
    rw [List.dropWhile_cons, if_neg]
    rw [h c rfl]
    simp

theorem rstripSlash_id_of_getLast {l : List Char} (h : l.getLast? ≠ some '/') :
    rstripSlash l = l := by
  unfold rstripSlash
  rw [dropWhile_id_of_head, List.reverse_reverse]
  intro c hc
  rw [← List.getLast?_eq_head?_reverse] at hc
  have : c ≠ '/' := fun hcc => h (hcc ▸ hc)
  simp [this]

theorem rstripSlash_idem (l : List Char) : rstripSlash (rstripSlash l) = rstripSlash l :=
  rstripSlash_id_of_getLast (rstripSlash_getLast l)

theorem rstripSlash_pref (l : List Char) : rstripSlash l <+: l := by
  unfold rstripSlash
  have h := List.dropWhile_suffix (l := l.reverse) (p := fun c => c = '/')
  rcases h with ⟨pre, hpre⟩
  refine ⟨pre.reverse, ?_⟩
  rw [← List.reverse_append, hpre, List.reverse_reverse]

theorem prefix_head? {l₁ l₂ : List Char} (h : l₁ <+: l₂) (hne : l₁ ≠ []) :
    l₂.head? = l₁.head? := by
  rcases h with ⟨t, rfl⟩
  match l₁, hne with
  | c :: r, _ => rfl

theorem prefix_take_eq {l₁ l₂ : List Char} (h : l₁ <+: l₂) {k : Nat}
    (hk : (l₁.take k).length = k) : l₂.take k = l₁.take k := by
  rcases h with ⟨t, rfl⟩
  have hle : k ≤ l₁.length := by
    rw [List.length_take] at hk
    omega
  rw [List.take_append_eq_append_take, Nat.sub_eq_zero_of_le hle]
  simp

theorem mem_of_pref {l₁ l₂ : List Char} (h : l₁ <+: l₂) {c : Char} (hc : c ∈ l₁) :
    c ∈ l₂ := by
  rcases h with ⟨t, rfl⟩
  exact List.mem_append.mpr (Or.inl hc)

theorem breakAt_cons (c a : Char) (t : List Char) :
    breakAt c (a :: t) =
      if a = c then ([], some t) else (a :: (breakAt c t).1, (breakAt c t).2) := rfl

theorem breakAt_not_mem {c : Char} : ∀ {l : List Char}, c ∉ l → breakAt c l = (l, none) := by
  intro l
  induction l with
  | nil => intro _; rfl
  | cons a t ih =>
    intro h
    have hac : ¬a = c := fun hac => h (by rw [← hac]; exact List.mem_cons_self a t)
    rw [breakAt_cons, if_neg hac, ih (fun hm => h (List.mem_cons_of_mem a hm))]

theorem breakAt_elem {c : Char} : ∀ {xs : List Char} (ys : List Char), c ∉ xs →
    breakAt c (xs ++ c :: ys) = (xs, some ys) := by
  intro xs
  induction xs with
  | nil =>
    intro ys _
    rw [List.nil_append, breakAt_cons, if_pos rfl]
  | cons a t ih =>
    intro ys h
    have hac : ¬a = c := fun hac => h (by rw [← hac]; exact List.mem_cons_self a t)
    rw [List.cons_append, breakAt_cons, if_neg hac,
      ih ys (fun hm => h (List.mem_cons_of_mem a hm))]

theorem breakAt_append_some {c : Char} : ∀ {xs : List Char} {p r : List Char}
    (ys : List Char), breakAt c xs = (p, some r) →
    breakAt c (xs ++ ys) = (p, some (r ++ ys)) := by
  intro xs
  induction xs with
  | nil => intro p r ys h; exact absurd h (by simp [breakAt])
  | cons a t ih =>
    intro p r ys h
    rw [breakAt_cons] at h
    rw [List.cons_append, breakAt_cons]
    by_cases hac : a = c
    · rw [if_pos hac] at h ⊢
      simp only [Prod.mk.injEq, Option.some.injEq] at h
      rw [← h.1, ← h.2]
    · rw [if_neg hac] at h ⊢
      simp only [Prod.mk.injEq] at h
      rcases hbt : breakAt c t with ⟨p2, o⟩
      rw [hbt] at h
      cases o with
      | none => exact absurd h.2 (by simp)
      | some r2 =>
        have h2 : r2 = r := by simpa using h.2
        rw [ih ys (by rw [hbt, h2]), ← h.1]

theorem breakAt_append_none {c : Char} {xs : List Char} (ys : List Char) (h : c ∉ xs) :
    breakAt c (xs ++ ys) = (xs ++ (breakAt c ys).1, (breakAt c ys).2) := by
  induction xs with
  | nil => simp
  | cons a t ih =>
    have hat : c ∉ t := fun hm => h (List.mem_cons_of_mem a hm)
    have hac : ¬a = c := fun hac => h (by rw [← hac]; exact List.mem_cons_self a t)
    rw [List.cons_append, breakAt_cons, if_neg hac, ih hat, List.cons_append]

theorem breakAt_fst_not_mem (c : Char) : ∀ (l : List Char), c ∉ (breakAt c l).1 := by
  intro l
  induction l with
  | nil => simp [breakAt]
  | cons a t ih =>
    rw [breakAt_cons]
    by_cases hac : a = c
    · rw [if_pos hac]
      simp
    · rw [if_neg hac]
      intro hm
      rcases List.mem_cons.mp hm with hm | hm
      · exact hac hm.symm
      · exact ih hm

theorem breakAt_snd_some (c : Char) : ∀ (l : List Char) (r : List Char),
    (breakAt c l).2 = some r → l = (breakAt c l).1 ++ c :: r := by
  intro l
  induction l with
  | nil => intro r h; simp [breakAt] at h
  | cons a t ih =>
    intro r h
    rw [breakAt_cons] at h ⊢
    by_cases hac : a = c
    · rw [if_pos hac] at h ⊢
      have : t = r := by simpa using h
      rw [hac, this]
      rfl
    · rw [if_neg hac] at h ⊢
      simp only at h ⊢
      rw [List.cons_append, ← ih r h]

theorem breakAt_snd_none (c : Char) : ∀ (l : List Char),
    (breakAt c l).2 = none → (breakAt c l).1 = l := by
  intro l
  induction l with
  | nil => intro _; rfl
  | cons a t ih =>
    intro h
    rw [breakAt_cons] at h ⊢
    by_cases hac : a = c
    · rw [if_pos hac] at h
      simp at h
    · rw [if_neg hac] at h ⊢
      simp only at h ⊢
      rw [ih h]

theorem breakAt_fst_pref (c : Char) (l : List Char) : (breakAt c l).1 <+: l := by
  rcases ho : (breakAt c l).2 with _ | r
  · rw [breakAt_snd_none c l ho]
  · exact ⟨c :: r, (breakAt_snd_some c l r ho).symm⟩

theorem takeWhile_append_all {p : Char → Bool} {xs : List Char} (ys : List Char)
    (h : xs.all p = true) : (xs ++ ys).takeWhile p = xs ++ ys.takeWhile p := by
  induction xs with
  | nil => simp
  | cons a t ih =>
    rw [List.all_cons, Bool.and_eq_true_iff] at h
    rw [List.cons_append, List.takeWhile_cons, if_pos h.1, ih h.2, List.cons_append]

theorem dropWhile_append_all {p : Char → Bool} {xs : List Char} (ys : List Char)
    (h : xs.all p = true) : (xs ++ ys).dropWhile p = ys.dropWhile p := by
  induction xs with
  | nil => simp
  | cons a t ih =>
    rw [List.all_cons, Bool.and_eq_true_iff] at h
    rw [List.cons_append, List.dropWhile_cons, if_pos h.1, ih h.2]

theorem takeWhile_cons_neg {p : Char → Bool} {c : Char} (t : List Char)
    (h : p c = false) : (c :: t).takeWhile p = [] := by
  rw [List.takeWhile_cons, if_neg]
  rw [h]
  simp

theorem dropWhile_cons_neg {p : Char → Bool} {c : Char} (t : List Char)
    (h : p c = false) : (c :: t).dropWhile p = c :: t := by
  rw [List.dropWhile_cons, if_neg]
  rw [h]
  simp

theorem splitAmp_cons (c : Char) (t : List Char) :
    splitAmp (c :: t) =
      if c = '&' then [] :: splitAmp t
      else match splitAmp t with
        | [] => [[c]]
        | h :: r => (c :: h) :: r := rfl

theorem splitAmp_ne_nil : ∀ (q : List Char), splitAmp q ≠ [] := by
  intro q
  induction q with
  | nil => simp [splitAmp]
  | cons c t ih =>
    rw [splitAmp_cons]
    by_cases hc : c = '&'
    · rw [if_pos hc]
      simp
    · rw [if_neg hc]
      rcases h : splitAmp t with _ | ⟨h1, r⟩
    
      · simp
      · simp

theorem splitAmp_no_amp : ∀ {p : List Char}, '&' ∉ p → splitAmp p = [p] := by
  intro p
  induction p with
  | nil => intro _; rfl
  | cons c t ih =>
    intro h
    have hc : ¬c = '&' := fun hc => h (by rw [← hc]; exact List.mem_cons_self c t)
    rw [splitAmp_cons, if_neg hc, ih (fun hm => h (List.mem_cons_of_mem c hm))]

theorem splitAmp_append_amp : ∀ {p : List Char} (r : List Char), '&' ∉ p →
    splitAmp (p ++ '&' :: r) = p :: splitAmp r := by
  intro p
  induction p with
  | nil =>
    intro r _
    rw [List.nil_append, splitAmp_cons, if_pos rfl]
  | cons c t ih =>
    intro r h
    have hc : ¬c = '&' := fun hc => h (by rw [← hc]; exact List.mem_cons_self c t)
    rw [List.cons_append, splitAmp_cons, if_neg hc,
      ih r (fun hm => h (List.mem_cons_of_mem c hm))]

theorem mem_splitAmp_sub : ∀ (q : List Char), ∀ p ∈ splitAmp q, ∀ c ∈ p, c ∈ q := by
  intro q
  induction q with
  | nil =>
    intro p hp c hc
    have : p = [] := by simpa [splitAmp] using hp
    subst this
    simp at hc
  | cons a t ih =>
    intro p hp c hc
    rw [splitAmp_cons] at hp
    by_cases ha : a = '&'
    · rw [if_pos ha] at hp
      rcases List.mem_cons.mp hp with hp | hp
      · subst hp
        simp at hc
      · exact List.mem_cons_of_mem a (ih p hp c hc)
    · rw [if_neg ha] at hp
      rcases hsp : splitAmp t with _ | ⟨h1, r⟩
      · rw [hsp] at hp
        have hpa : p = [a] := by simpa using hp
        subst hpa
        have : c = a := by simpa using hc
        rw [this]
        exact List.mem_cons_self a t
      · rw [hsp] at hp
        rcases List.mem_cons.mp hp with hp | hp
        · subst hp
          rcases List.mem_cons.mp hc with hc | hc
          · rw [hc]
            exact List.mem_cons_self a t
          · refine List.mem_cons_of_mem a (ih h1 ?_ c hc)
            rw [hsp]
            exact List.mem_cons_self h1 r
        · refine List.mem_cons_of_mem a (ih p ?_ c hc)
          rw [hsp]
          exact List.mem_cons_of_mem h1 hp

theorem splitAmp_parts_no_amp : ∀ (q : List Char), ∀ p ∈ splitAmp q, '&' ∉ p := by
  intro q
  induction q with
  | nil =>
    intro p hp
    have : p = [] := by simpa [splitAmp] using hp
    subst this
    simp
  | cons a t ih =>
    intro p hp
    rw [splitAmp_cons] at hp
    by_cases ha : a = '&'
    · rw [if_pos ha] at hp
      rcases List.mem_cons.mp hp with hp | hp
      · subst hp; simp
      · exact ih p hp
    · rw [if_neg ha] at hp
      rcases hsp : splitAmp t with _ | ⟨h1, r⟩
      · rw [hsp] at hp
        have hpa : p = [a] := by simpa using hp
        subst hpa
        intro hm
        have : '&' = a := by simpa using hm
        exact ha this.symm
      · rw [hsp] at hp
        rcases List.mem_cons.mp hp with hp | hp
        · subst hp
          intro hm
          rcases List.mem_cons.mp hm with hm | hm
          · exact ha hm.symm
          · refine ih h1 ?_ hm
            rw [hsp]
            exact List.mem_cons_self h1 r
        · refine ih p ?_
          rw [hsp]
          exact List.mem_cons_of_mem h1 hp

theorem joinAmp_cons₂ (p q : List Char) (r : List (List Char)) :
    joinAmp (p :: q :: r) = p ++ '&' :: joinAmp (q :: r) := rfl

theorem mem_joinAmp : ∀ (ps : List (List Char)), ∀ c ∈ joinAmp ps,
    c = '&' ∨ ∃ p ∈ ps, c ∈ p := by
  intro ps
  induction ps with
  | nil => intro c hc; simp [joinAmp] at hc
  | cons p rest ih =>
    intro c hc
    match rest with
    | [] =>
      refine Or.inr ⟨p, List.mem_cons_self p [], ?_⟩
      simpa [joinAmp] using hc
    | q :: r =>
      rw [joinAmp_cons₂] at hc
      rcases List.mem_append.mp hc with hc | hc
      · exact Or.inr ⟨p, List.mem_cons_self p _, hc⟩
      · rcases List.mem_cons.mp hc with hc | hc
        · exact Or.inl hc
        · rcases ih c hc with hc | ⟨p2, hp2, hcp⟩
          · exact Or.inl hc
          · exact Or.inr ⟨p2, List.mem_cons_of_mem p hp2, hcp⟩

theorem splitAmp_joinAmp : ∀ (ps : List (List Char)), ps ≠ [] →
    (∀ p ∈ ps, '&' ∉ p) → splitAmp (joinAmp ps) = ps := by
  intro ps
  induction ps with
  | nil => intro h; exact absurd rfl h
  | cons p rest ih =>
    intro _ hnoamp
    match rest with
    | [] => exact splitAmp_no_amp (hnoamp p (List.mem_cons_self p []))
    | q :: r =>
      rw [joinAmp_cons₂, splitAmp_append_amp _ (hnoamp p (List.mem_cons_self p _))]
      rw [ih (by simp) (fun p2 h2 => hnoamp p2 (List.mem_cons_of_mem p h2))]

theorem filterQuery_idem (q : List Char) :
    filterQueryChars (filterQueryChars q) = filterQueryChars q := by
  unfold filterQueryChars
  rcases hk : (splitAmp q).filter keepParam with _ | ⟨p1, r⟩
  · rw [show joinAmp [] = [] from rfl]
    rfl
  · have hkeep : ∀ p ∈ p1 :: r, keepParam p = true := by
      intro p hp
      rw [← hk] at hp
      exact (List.mem_filter.mp hp).2
    have hnoamp : ∀ p ∈ p1 :: r, '&' ∉ p := by
      intro p hp
      rw [← hk] at hp
      exact splitAmp_parts_no_amp q p (List.mem_filter.mp hp).1
    rw [splitAmp_joinAmp (p1 :: r) (by simp) hnoamp]
    rw [List.filter_eq_self.mpr hkeep]

theorem mem_filterQuery (q : List Char) : ∀ c ∈ filterQueryChars q, c ∈ q ∨ c = '&' := by
  intro c hc
  unfold filterQueryChars at hc
  rcases mem_joinAmp _ c hc with hc | ⟨p, hp, hcp⟩
  · exact Or.inr hc
  · exact Or.inl (mem_splitAmp_sub q p (List.mem_filter.mp hp).1 c hcp)

theorem unsafe_strippable (c : Char) (h : unsafeChar c = true) : strippableChar c = true := by
  have hor : (c = '\t' ∨ c = '\x0d') ∨ c = '\n' := by
    simpa [unsafeChar, Bool.or_eq_true] using h
  rcases hor with (h1 | h1) | h1 <;> rw [h1] <;> decide

theorem cleanUrl_id_of {v : List Char} (h1 : ∀ c ∈ v, unsafeChar c = false)
    (h2 : ∀ c, v.head? = some c → strippableChar c = false) : cleanUrl v = v := by
  unfold cleanUrl
  rw [dropWhile_id_of_head h2]
  rw [List.filter_eq_self.mpr]
  intro c hc
  rw [h1 c hc]
  rfl

theorem cleanUrl_not_unsafeChar (u : List Char) : ∀ c ∈ cleanUrl u, unsafeChar c = false := by
  intro c hc
  unfold cleanUrl at hc
  have := (List.mem_filter.mp hc).2
  simpa using this

theorem cleanUrl_head_not_strippable (u : List Char) :
    ∀ c, (cleanUrl u).head? = some c → strippableChar c = false := by
  intro c hc
  unfold cleanUrl at hc
  rcases hw : u.dropWhile strippableChar with _ | ⟨c0, t⟩
  · rw [hw] at hc
    simp at hc
  · have hc0 : strippableChar c0 = false := by
      have h5 := head?_dropWhile_not strippableChar u c0
      rw [hw] at h5
      exact h5 rfl
    have hc0u : unsafeChar c0 = false := by
      cases hs : unsafeChar c0
      · rfl
      · rw [unsafe_strippable c0 hs] at hc0
        exact absurd hc0 (by simp)
    rw [hw] at hc
    rw [List.filter_cons_of_pos (by rw [hc0u]; rfl)] at hc
    have hcc : c0 = c := by simpa using hc
    rw [← hcc, hc0]

/-- The scheme-prefix validity test of `splitScheme`, named. -/
def validPre (p : List Char) : Bool :=
  (match p with | [] => false | c :: _ => c.isAlpha) && p.all schemeChar

theorem splitScheme_eq (l : List Char) :
    splitScheme l =
      match breakAt ':' l with
      | (pre, some rest) => if validPre pre then (pre.map lowerChar, rest) else ([], l)
      | (_, none) => ([], l) := rfl

theorem splitScheme_some_valid {l p r : List Char} (hb : breakAt ':' l = (p, some r))
    (hv : validPre p = true) : splitScheme l = (p.map lowerChar, r) := by
  rw [splitScheme_eq, hb]
  simp only [hv, if_true]

theorem splitScheme_some_invalid {l p r : List Char} (hb : breakAt ':' l = (p, some r))
    (hv : validPre p = false) : splitScheme l = ([], l) := by
  rw [splitScheme_eq, hb]
  simp only [hv]
  rfl

theorem splitScheme_none {l : List Char} (hb : (breakAt ':' l).2 = none) :
    splitScheme l = ([], l) := by
  rw [splitScheme_eq]
  rcases hx : breakAt ':' l with ⟨p, o⟩
  rw [hx] at hb
  simp only at hb
  rw [hb]

theorem splitScheme_fst_empty_inv {l : List Char} (h : (splitScheme l).1 = [])
    {p r : List Char} (hb : breakAt ':' l = (p, some r)) : validPre p = false := by
  cases hv : validPre p
  · rfl
  · rw [splitScheme_some_valid hb hv] at h
    simp only at h
    have hp : p = [] := by simpa using h
    rw [hp] at hv
    exact absurd hv (by decide)

theorem splitScheme_head_not_alpha {l : List Char} {c : Char} (hh : l.head? = some c)
    (ha : c.isAlpha = false) : splitScheme l = ([], l) := by
  rcases ho : (breakAt ':' l).2 with _ | r
  · exact splitScheme_none ho
  · rcases hx : breakAt ':' l with ⟨p, o⟩
    rw [hx] at ho
    simp only at ho
    subst ho
    refine splitScheme_some_invalid hx ?_
    match hp : p with
    | [] => rfl
    | c0 :: t =>
      have hpre := breakAt_fst_pref ':' l
      rw [hx] at hpre
      simp only at hpre
      have hhead : l.head? = some c0 := by
        rw [prefix_head? hpre (by simp)]
        rfl
      have hcc : c0 = c := by
        rw [hhead] at hh
        simpa using hh
      show ((match c0 :: t with | [] => false | d :: _ => d.isAlpha)
          && (c0 :: t).all schemeChar) = false
      have hred : (match c0 :: t with | [] => false | d :: _ => d.isAlpha) = c0.isAlpha := rfl
      rw [hred, hcc, ha]
      rfl

theorem validPre_map_lower (p : List Char) : validPre (p.map lowerChar) = validPre p := by
  match p with
  | [] => rfl
  | c :: t =>
    show ((lowerChar c).isAlpha && ((c :: t).map lowerChar).all schemeChar)
        = (c.isAlpha && (c :: t).all schemeChar)
    rw [lowerChar_isAlpha c, List.all_map,
      show (schemeChar ∘ lowerChar) = schemeChar from funext fun d => lowerChar_schemeChar d]

theorem alpha_not_strippable (c : Char) (h : c.isAlpha = true) : strippableChar c = false := by
  unfold strippableChar
  simp only [Char.isAlpha, Char.isUpper, Char.isLower, Bool.or_eq_true, Bool.and_eq_true,
    decide_eq_true_eq] at h
  simp only [decide_eq_false_iff_not]
  rcases h with ⟨h1, _⟩ | ⟨h1, _⟩ <;>
  · have h1n : (65 : Nat) ≤ c.val.toNat ∨ (97 : Nat) ≤ c.val.toNat := by
      first
      | exact Or.inl h1
      | exact Or.inr h1
    intro hc
    unfold Char.toNat at hc
    omega

/-- The netloc-extraction step of `urlsplit`, named. -/
def netlocSplit (r : List Char) : List Char × List Char :=
  match r with
  | '/' :: '/' :: t =>
    (t.takeWhile (fun c => !netlocDelim c), t.dropWhile (fun c => !netlocDelim c))
  | r => ([], r)

theorem urlsplitChars_eq (u : List Char) :
    urlsplitChars u =
      ⟨(splitScheme (cleanUrl u)).1,
       (netlocSplit (splitScheme (cleanUrl u)).2).1,
       (breakAt '?' (breakAt '#' (netlocSplit (splitScheme (cleanUrl u)).2).2).1).1,
       (breakAt '?' (breakAt '#' (netlocSplit (splitScheme (cleanUrl u)).2).2).1).2.getD [],
       (breakAt '#' (netlocSplit (splitScheme (cleanUrl u)).2).2).2.getD []⟩ := rfl

theorem take2_eq_slashslash {l : List Char} (h : l.take 2 = cs "//") :
    ∃ t, l = '/' :: '/' :: t := by
  match l with
  | [] => exact absurd h (by decide)
  | [c] => exact absurd h (by simp [cs])
  | c1 :: c2 :: t =>
    have h2 : c1 = '/' ∧ c2 = '/' := by
      have := h
      simp [cs] at this
      exact this
    exact ⟨t, by rw [h2.1, h2.2]⟩

theorem take1_eq_cons {l : List Char} {c : Char} (h : l.take 1 = [c]) :
    ∃ t, l = c :: t := by
  match l with
  | [] => exact absurd h (by simp)
  | a :: t =>
    have : a = c := by simpa using h
    exact ⟨t, by rw [this]⟩

theorem netlocSplit_slashslash (t : List Char) :
    netlocSplit ('/' :: '/' :: t) =
      (t.takeWhile (fun c => !netlocDelim c), t.dropWhile (fun c => !netlocDelim c)) := rfl

theorem netlocSplit_default {l : List Char} (h : l.take 2 ≠ cs "//") :
    netlocSplit l = ([], l) := by
  unfold netlocSplit
  split
  · next t => exact absurd rfl h
  · rfl

theorem scheme_phase {s : List Char} (rest : List Char) (hv : validPre s = true)
    (hmap : s.map lowerChar = s) : splitScheme (s ++ ':' :: rest) = (s, rest) := by
  have hall : s.all schemeChar = true := (Bool.and_eq_true_iff.mp hv).2
  rw [splitScheme_some_valid (breakAt_elem rest (all_schemeChar_not_mem_colon hall)) hv, hmap]

theorem netloc_phase {n rest2 : List Char} (hn : n.all (fun c => !netlocDelim c) = true)
    (hr : rest2 = [] ∨ ∃ c t', rest2 = c :: t' ∧ netlocDelim c = true) :
    netlocSplit ('/' :: '/' :: (n ++ rest2)) = (n, rest2) := by
  rw [netlocSplit_slashslash, takeWhile_append_all _ hn, dropWhile_append_all _ hn]
  rcases hr with rfl | ⟨c, t', rfl, hc⟩
  · simp
  · rw [takeWhile_cons_neg _ (by rw [hc]; rfl), dropWhile_cons_neg _ (by rw [hc]; rfl)]
    simp

theorem frag_query_phase {pa2 q qp : List Char} (hqp : (qp = [] ∧ q = []) ∨ qp = '?' :: q)
    (hq : '#' ∉ q) (h1 : '#' ∉ pa2) (h2 : '?' ∉ pa2) :
    breakAt '#' (pa2 ++ qp) = (pa2 ++ qp, none) ∧
    breakAt '?' (pa2 ++ qp) = (pa2, if q = [] ∧ qp = [] then none else some q) := by
  constructor
  · refine breakAt_not_mem ?_
    intro hm
    rcases List.mem_append.mp hm with hm | hm
    · exact h1 hm
    · rcases hqp with ⟨rfl, _⟩ | rfl
      · simp at hm
      · rcases List.mem_cons.mp hm with hm | hm
        · exact absurd hm (by decide)
        · exact hq hm
  · rcases hqp with ⟨rfl, rfl⟩ | rfl
    · rw [List.append_nil, breakAt_not_mem h2, if_pos ⟨rfl, rfl⟩]
    · rw [breakAt_elem q h2, if_neg (fun hcon => by simp at hcon)]

theorem paqp_head_delim {pa2 q qp : List Char} (hqp : (qp = [] ∧ q = []) ∨ qp = '?' :: q)
    (hsh : pa2 = [] ∨ pa2.take 1 = cs "/") :
    pa2 ++ qp = [] ∨ ∃ c t', pa2 ++ qp = c :: t' ∧ netlocDelim c = true := by
  rcases hsh with rfl | hsh
  · rcases hqp with ⟨rfl, _⟩ | rfl
    · exact Or.inl rfl
    · exact Or.inr ⟨'?', q, rfl, by decide⟩
  · rcases take1_eq_cons hsh with ⟨t, rfl⟩
    exact Or.inr ⟨'/', t ++ qp, rfl, by decide⟩

theorem paqp_take2 {pa2 q qp : List Char} (hqp : (qp = [] ∧ q = []) ∨ qp = '?' :: q)
    (h : pa2.take 2 ≠ cs "//") : (pa2 ++ qp).take 2 ≠ cs "//" := by
  intro hcon
  rcases take2_eq_slashslash hcon with ⟨t, ht⟩
  match pa2, ht with
  | [], ht =>
    rcases hqp with ⟨rfl, _⟩ | rfl
    · simp at ht
    · rw [List.nil_append] at ht
      exact absurd (List.head_eq_of_cons_eq ht) (by decide)
  | [c], ht =>
    rw [List.cons_append, List.nil_append] at ht
    have hc : c = '/' := List.head_eq_of_cons_eq ht
    have hqp2 := List.tail_eq_of_cons_eq ht
    rcases hqp with ⟨rfl, _⟩ | rfl
    · simp at hqp2
    · exact absurd (List.head_eq_of_cons_eq hqp2) (by decide)
  | c1 :: c2 :: r, ht =>
    rw [List.cons_append, List.cons_append] at ht
    have h1 : c1 = '/' := List.head_eq_of_cons_eq ht
    have h2 : c2 = '/' := List.head_eq_of_cons_eq (List.tail_eq_of_cons_eq ht)
    exact h (by rw [h1, h2]; rfl)

theorem unsafe_append {xs ys : List Char} (hx : ∀ c ∈ xs, unsafeChar c = false)
    (hy : ∀ c ∈ ys, unsafeChar c = false) : ∀ c ∈ xs ++ ys, unsafeChar c = false := by
  intro c hc
  rcases List.mem_append.mp hc with hc | hc
  · exact hx c hc
  · exact hy c hc

theorem unsafe_cons {c0 : Char} {ys : List Char} (hc0 : unsafeChar c0 = false)
    (hy : ∀ c ∈ ys, unsafeChar c = false) : ∀ c ∈ c0 :: ys, unsafeChar c = false := by
  intro c hc
  rcases List.mem_cons.mp hc with rfl | hc
  · exact hc0
  · exact hy c hc

theorem unsafe_qp {q qp : List Char} (hqp : (qp = [] ∧ q = []) ∨ qp = '?' :: q)
    (hq : ∀ c ∈ q, unsafeChar c = false) : ∀ c ∈ qp, unsafeChar c = false := by
  rcases hqp with ⟨rfl, _⟩ | rfl
  · intro c hc; simp at hc
  · exact unsafe_cons (by decide) hq

theorem unsafe_scheme {s : List Char} (hv : validPre s = true) :
    ∀ c ∈ s, unsafeChar c = false := by
  intro c hc
  exact schemeChar_not_unsafeChar c (List.all_eq_true.mp (Bool.and_eq_true_iff.mp hv).2 c hc)

theorem validPre_false_of_mem {p : List Char} {c : Char} (hc : c ∈ p)
    (hns : schemeChar c = false) : validPre p = false := by
  unfold validPre
  have : p.all schemeChar = false := by
    rcases hall : p.all schemeChar with _ | _
    · rfl
    · rw [List.all_eq_true.mp hall c hc] at hns
      exact absurd hns (by simp)
  rw [this, Bool.and_false]

theorem takeWhile_all {p : Char → Bool} (l : List Char) : (l.takeWhile p).all p = true := by
  induction l with
  | nil => rfl
  | cons a t ih =>
    rw [List.takeWhile_cons]
    by_cases ha : p a = true
    · rw [if_pos (by rw [ha])]
      rw [List.all_cons, ha, ih]
      rfl
    · rw [if_neg (by rw [Bool.not_eq_true] at ha; rw [ha]; simp)]
      rfl

theorem splitScheme_fst_empty_snd {l : List Char} (h : (splitScheme l).1 = []) :
    splitScheme l = ([], l) := by
  rcases hb : breakAt ':' l with ⟨p, o⟩
  cases o with
  | none => exact splitScheme_none (by rw [hb])
  | some r => exact splitScheme_some_invalid hb (splitScheme_fst_empty_inv h hb)

theorem splitScheme_snd_mem (l : List Char) : ∀ c ∈ (splitScheme l).2, c ∈ l := by
  intro c hc
  rcases hb : breakAt ':' l with ⟨p, o⟩
  cases o with
  | none =>
    rw [splitScheme_none (by rw [hb])] at hc
    exact hc
  | some r =>
    cases hv : validPre p
    · rw [splitScheme_some_invalid hb hv] at hc
      exact hc
    · rw [splitScheme_some_valid hb hv] at hc
      simp only at hc
      rw [breakAt_snd_some ':' l r (by rw [hb])]
      rw [show (breakAt ':' l).1 = p from by rw [hb]]
      simp [hc]

theorem netlocSplit_fst_mem (r : List Char) : ∀ c ∈ (netlocSplit r).1, c ∈ r := by
  intro c hc
  unfold netlocSplit at hc
  split at hc
  · next t =>
    have := (List.takeWhile_sublist (fun c => !netlocDelim c)).subset hc
    exact List.mem_cons_of_mem _ (List.mem_cons_of_mem _ this)
  · simp at hc

theorem netlocSplit_snd_mem (r : List Char) : ∀ c ∈ (netlocSplit r).2, c ∈ r := by
  intro c hc
  unfold netlocSplit at hc
  split at hc
  · next t =>
    have := (List.dropWhile_sublist (fun c => !netlocDelim c)).subset hc
    exact List.mem_cons_of_mem _ (List.mem_cons_of_mem _ this)
  · exact hc

theorem breakAt_fst_mem (c : Char) (l : List Char) : ∀ d ∈ (breakAt c l).1, d ∈ l := by
  intro d hd
  exact mem_of_pref (breakAt_fst_pref c l) hd

theorem breakAt_snd_mem (c : Char) (l : List Char) :
    ∀ r, (breakAt c l).2 = some r → ∀ d ∈ r, d ∈ l := by
  intro r hr d hd
  rw [breakAt_snd_some c l r hr]
  simp [hd]

theorem urlsplit_scheme_valid (u : List Char) :
    (urlsplitChars u).scheme = [] ∨
      (validPre (urlsplitChars u).scheme = true ∧
        (urlsplitChars u).scheme.map lowerChar = (urlsplitChars u).scheme) := by
  show (splitScheme (cleanUrl u)).1 = [] ∨
    (validPre (splitScheme (cleanUrl u)).1 = true ∧
      (splitScheme (cleanUrl u)).1.map lowerChar = (splitScheme (cleanUrl u)).1)
  rcases hb : breakAt ':' (cleanUrl u) with ⟨p, o⟩
  cases o with
  | none =>
    rw [splitScheme_none (by rw [hb])]
    exact Or.inl rfl
  | some r =>
    cases hv : validPre p
    · rw [splitScheme_some_invalid hb hv]
      exact Or.inl rfl
    · rw [splitScheme_some_valid hb hv]
      refine Or.inr ⟨?_, ?_⟩
      · simp only
        rw [validPre_map_lower, hv]
      · simp only
        rw [List.map_map,
          show (lowerChar ∘ lowerChar) = lowerChar from funext fun c => lowerChar_idem c]

theorem urlsplit_netloc_all (u : List Char) :
    (urlsplitChars u).netloc.all (fun c => !netlocDelim c) = true := by
  show (netlocSplit (splitScheme (cleanUrl u)).2).1.all (fun c => !netlocDelim c) = true
  unfold netlocSplit
  split
  · exact takeWhile_all _
  · rfl

theorem urlsplit_path_no_q (u : List Char) : '?' ∉ (urlsplitChars u).path :=
  breakAt_fst_not_mem '?' _

theorem urlsplit_path_no_hash (u : List Char) : '#' ∉ (urlsplitChars u).path := by
  intro hm
  exact breakAt_fst_not_mem '#'
    (netlocSplit (splitScheme (cleanUrl u)).2).2
    (mem_of_pref (breakAt_fst_pref '?' _) hm)

theorem urlsplit_query_no_hash (u : List Char) : '#' ∉ (urlsplitChars u).query := by
  show '#' ∉ (breakAt '?' (breakAt '#' (netlocSplit (splitScheme (cleanUrl u)).2).2).1).2.getD []
  rcases ho : (breakAt '?' (breakAt '#' (netlocSplit (splitScheme (cleanUrl u)).2).2).1).2
    with _ | qq
  · simp
  · intro hm
    simp only [Option.getD_some] at hm
    refine breakAt_fst_not_mem '#' (netlocSplit (splitScheme (cleanUrl u)).2).2 ?_
    exact breakAt_snd_mem '?' _ qq ho '#' hm

theorem urlsplit_netloc_mem (u : List Char) :
    ∀ c ∈ (urlsplitChars u).netloc, c ∈ cleanUrl u := by
  intro c hc
  exact splitScheme_snd_mem _ c (netlocSplit_fst_mem _ c hc)

theorem urlsplit_path_mem (u : List Char) :
    ∀ c ∈ (urlsplitChars u).path, c ∈ cleanUrl u := by
  intro c hc
  exact splitScheme_snd_mem _ c (netlocSplit_snd_mem _ c
    (breakAt_fst_mem '#' _ c (breakAt_fst_mem '?' _ c hc)))

theorem urlsplit_query_mem (u : List Char) :
    ∀ c ∈ (urlsplitChars u).query, c ∈ cleanUrl u := by
  intro c hc
  show c ∈ cleanUrl u
  have hc2 : c ∈ (breakAt '?' (breakAt '#' (netlocSplit (splitScheme (cleanUrl u)).2).2).1).2.getD [] := hc
  rcases ho : (breakAt '?' (breakAt '#' (netlocSplit (splitScheme (cleanUrl u)).2).2).1).2
    with _ | qq
  · rw [ho] at hc2
    simp at hc2
  · rw [ho] at hc2
    simp only [Option.getD_some] at hc2
    exact splitScheme_snd_mem _ c (netlocSplit_snd_mem _ c
      (breakAt_fst_mem '#' _ c (breakAt_snd_mem '?' _ qq ho c hc2)))

theorem urlsplit_slashslash_path (u : List Char)
    (h2 : ∃ t, (splitScheme (cleanUrl u)).2 = '/' :: '/' :: t) :
    (urlsplitChars u).path = [] ∨ (urlsplitChars u).path.take 1 = cs "/" := by
  rcases h2 with ⟨t, ht⟩
  show (breakAt '?' (breakAt '#' (netlocSplit (splitScheme (cleanUrl u)).2).2).1).1 = [] ∨
    (breakAt '?' (breakAt '#' (netlocSplit (splitScheme (cleanUrl u)).2).2).1).1.take 1 = cs "/"
  rw [ht, netlocSplit_slashslash]
  simp only
  rcases hd : t.dropWhile (fun c => !netlocDelim c) with _ | ⟨c0, t2⟩
  · rw [show breakAt '#' [] = ([], none) from rfl]
    simp only
    rw [show breakAt '?' [] = ([], none) from rfl]
    exact Or.inl rfl
  · have hc0 : netlocDelim c0 = true := by
      have h5 := head?_dropWhile_not (fun c => !netlocDelim c) t c0
      rw [hd] at h5
      have h6 := h5 rfl
      simpa using h6
    have hor : (c0 = '/' ∨ c0 = '?') ∨ c0 = '#' := by
      simpa [netlocDelim, Bool.or_eq_true] using hc0
    rcases hor with (rfl | rfl) | rfl
    · rw [breakAt_cons, if_neg (by decide)]
      simp only
      rw [breakAt_cons, if_neg (by decide)]
      exact Or.inr rfl
    · rw [breakAt_cons, if_neg (by decide)]
      simp only
      rw [breakAt_cons, if_pos rfl]
      exact Or.inl rfl
    · rw [breakAt_cons, if_pos rfl]
      simp only
      rw [show breakAt '?' [] = ([], none) from rfl]
      exact Or.inl rfl

theorem urlsplit_netloc_ne_slashslash (u : List Char) (h : (urlsplitChars u).netloc ≠ []) :
    ∃ t, (splitScheme (cleanUrl u)).2 = '/' :: '/' :: t := by
  by_cases h2 : (splitScheme (cleanUrl u)).2.take 2 = cs "//"
  · exact take2_eq_slashslash h2
  · exfalso
    apply h
    show (netlocSplit (splitScheme (cleanUrl u)).2).1 = []
    rw [netlocSplit_default h2]

theorem urlsplit_path_prefix_of_default (u : List Char)
    (hs : (urlsplitChars u).scheme = [])
    (h2 : ¬(splitScheme (cleanUrl u)).2.take 2 = cs "//") :
    (urlsplitChars u).path <+: cleanUrl u := by
  have hsp : splitScheme (cleanUrl u) = ([], cleanUrl u) := splitScheme_fst_empty_snd hs
  show (breakAt '?' (breakAt '#' (netlocSplit (splitScheme (cleanUrl u)).2).2).1).1 <+:
    cleanUrl u
  rw [hsp] at h2 ⊢
  simp only at h2 ⊢
  rw [netlocSplit_default h2]
  exact (breakAt_fst_pref '?' _).trans (breakAt_fst_pref '#' _)

theorem urlsplit_caseA_head (u : List Char) (hs : (urlsplitChars u).scheme = [])
    (hn : (urlsplitChars u).netloc = []) :
    ∀ c, (urlsplitChars u).path.head? = some c → strippableChar c = false := by
  intro c hc
  by_cases h2 : (splitScheme (cleanUrl u)).2.take 2 = cs "//"
  · rcases urlsplit_slashslash_path u (take2_eq_slashslash h2) with h | h
    · rw [h] at hc
      simp at hc
    · rcases take1_eq_cons h with ⟨t, ht⟩
      rw [ht] at hc
      have hcc : '/' = c := by simpa using hc
      rw [← hcc]
      decide
  · have hpre := urlsplit_path_prefix_of_default u hs h2
    have hne : (urlsplitChars u).path ≠ [] := by
      intro hnil
      rw [hnil] at hc
      simp at hc
    rw [← prefix_head? hpre hne] at hc
    exact cleanUrl_head_not_strippable u c hc

theorem urlsplit_caseA_colon (u : List Char) (hs : (urlsplitChars u).scheme = [])
    (hn : (urlsplitChars u).netloc = []) :
    (urlsplitChars u).path = [] ∨ (urlsplitChars u).path.take 1 = cs "/" ∨
      (∀ p rest, breakAt ':' (urlsplitChars u).path = (p, some rest) → validPre p = false) := by
  by_cases h2 : (splitScheme (cleanUrl u)).2.take 2 = cs "//"
  · rcases urlsplit_slashslash_path u (take2_eq_slashslash h2) with h | h
    · exact Or.inl h
    · exact Or.inr (Or.inl h)
  · refine Or.inr (Or.inr ?_)
    intro p rest hb
    have hpre := urlsplit_path_prefix_of_default u hs h2
    rcases hpre with ⟨tail, htail⟩
    have hpeq : (urlsplitChars u).path = p ++ ':' :: rest :=
      breakAt_snd_some ':' _ rest (by rw [hb]) |>.trans (by rw [hb])
    have hcolon : ':' ∉ p := by
      have := breakAt_fst_not_mem ':' (urlsplitChars u).path
      rw [hb] at this
      exact this
    have hleq : cleanUrl u = p ++ ':' :: (rest ++ tail) := by
      rw [← htail, hpeq]
      simp
    have hbl : breakAt ':' (cleanUrl u) = (p, some (rest ++ tail)) := by
      rw [hleq]
      exact breakAt_elem _ hcolon
    exact splitScheme_fst_empty_inv hs hbl

theorem urlunsplit_nf (s n pa q : List Char) :
    urlunsplitChars ⟨s, n, pa, q, []⟩ =
      (if s ≠ [] then
        s ++ ':' ::
          (if n ≠ [] ∨ (s ≠ [] ∧ usesNetlocSchemes.contains s ∧ pa.take 2 ≠ cs "//")
           then cs "//" ++ n ++ (if pa ≠ [] ∧ pa.take 1 ≠ cs "/" then '/' :: pa else pa)
           else pa)
       else
        (if n ≠ [] ∨ (s ≠ [] ∧ usesNetlocSchemes.contains s ∧ pa.take 2 ≠ cs "//")
         then cs "//" ++ n ++ (if pa ≠ [] ∧ pa.take 1 ≠ cs "/" then '/' :: pa else pa)
         else pa)) ++
      (if q ≠ [] then '?' :: q else []) := by
  show (if q ≠ [] then
      (if s ≠ [] then
        s ++ ':' ::
          (if n ≠ [] ∨ (s ≠ [] ∧ usesNetlocSchemes.contains s ∧ pa.take 2 ≠ cs "//")
           then cs "//" ++ n ++ (if pa ≠ [] ∧ pa.take 1 ≠ cs "/" then '/' :: pa else pa)
           else pa)
       else
        (if n ≠ [] ∨ (s ≠ [] ∧ usesNetlocSchemes.contains s ∧ pa.take 2 ≠ cs "//")
         then cs "//" ++ n ++ (if pa ≠ [] ∧ pa.take 1 ≠ cs "/" then '/' :: pa else pa)
         else pa)) ++ '?' :: q
    else
      (if s ≠ [] then
        s ++ ':' ::
          (if n ≠ [] ∨ (s ≠ [] ∧ usesNetlocSchemes.contains s ∧ pa.take 2 ≠ cs "//")
           then cs "//" ++ n ++ (if pa ≠ [] ∧ pa.take 1 ≠ cs "/" then '/' :: pa else pa)
           else pa)
       else
        (if n ≠ [] ∨ (s ≠ [] ∧ usesNetlocSchemes.contains s ∧ pa.take 2 ≠ cs "//")
         then cs "//" ++ n ++ (if pa ≠ [] ∧ pa.take 1 ≠ cs "/" then '/' :: pa else pa)
         else pa))) = _
  by_cases hq : q ≠ []
  · rw [if_pos hq, if_pos hq]
  · rw [if_neg hq, if_neg hq, List.append_nil]

theorem urlsplitChars_components {v s1 sp2 n1 nl2 pf1 pa1 : List Char}
    {f1 q1 : Option (List Char)}
    (hclean : cleanUrl v = v)
    (hsp : splitScheme v = (s1, sp2))
    (hnl : netlocSplit sp2 = (n1, nl2))
    (hpf : breakAt '#' nl2 = (pf1, f1))
    (hpq : breakAt '?' pf1 = (pa1, q1)) :
    urlsplitChars v = ⟨s1, n1, pa1, q1.getD [], f1.getD []⟩ := by
  rw [urlsplitChars_eq, hclean, hsp]
  dsimp only
  rw [hnl]
  dsimp only
  rw [hpf]
  dsimp only
  rw [hpq]

theorem urlsplit_of_urlunsplit (s n pa q : List Char)
    (Hs : s = [] ∨ (validPre s = true ∧ s.map lowerChar = s))
    (Hn : n.all (fun c => !netlocDelim c) = true)
    (HnU : ∀ c ∈ n, unsafeChar c = false)
    (Hpa1 : '#' ∉ pa) (Hpa2 : '?' ∉ pa)
    (HpaU : ∀ c ∈ pa, unsafeChar c = false)
    (Hq1 : '#' ∉ q) (HqU : ∀ c ∈ q, unsafeChar c = false)
    (Hshape : n ≠ [] → pa = [] ∨ pa.take 1 = cs "/")
    (Htake2 : n = [] → pa.take 2 ≠ cs "//")
    (HpaA : s = [] → n = [] →
      pa = [] ∨ pa.take 1 = cs "/" ∨
        ∀ p rest, breakAt ':' pa = (p, some rest) → validPre p = false)
    (HheadA : s = [] → n = [] → ∀ c, pa.head? = some c → strippableChar c = false) :
    urlsplitChars (urlunsplitChars ⟨s, n, pa, q, []⟩) =
      ⟨s, n,
       if s ≠ [] ∧ usesNetlocSchemes.contains s = true ∧ n = [] ∧ pa ≠ [] ∧
           pa.take 1 ≠ cs "/"
         then '/' :: pa else pa,
       q, []⟩ := by
  have hnf := urlunsplit_nf s n pa q
  have hqp : ((if q ≠ [] then '?' :: q else []) = [] ∧ q = []) ∨
      (if q ≠ [] then '?' :: q else []) = '?' :: q := by
    by_cases hq : q = []
    · exact Or.inl ⟨by rw [if_neg (by simp [hq])], hq⟩
    · exact Or.inr (by rw [if_pos hq])
  generalize hgen : (if q ≠ [] then '?' :: q else []) = qp at hnf hqp
  rw [hnf]
  clear hnf hgen
  have hqpU : ∀ c ∈ qp, unsafeChar c = false := unsafe_qp hqp HqU
  have hfq := frag_query_phase hqp Hq1 Hpa1 Hpa2
  have hquery : ((if q = [] ∧ qp = [] then none else some q) : Option (List Char)).getD []
      = q := by
    rcases hqp with ⟨rfl, rfl⟩ | rfl
    · rw [if_pos ⟨rfl, rfl⟩]
      rfl
    · rw [if_neg (fun hcon => by simp at hcon)]
      rfl
  have hcs : cs "//" = '/' :: '/' :: [] := rfl
  by_cases hs0 : s = []
  · subst hs0
    rw [if_neg (show ¬(([] : List Char) ≠ []) by simp)]
    by_cases hn0 : n = []
    · -- Case A : no scheme, no netloc.
      subst hn0
      rw [if_neg (show ¬(([] : List Char) ≠ [] ∨ ([] : List Char) ≠ [] ∧
        usesNetlocSchemes.contains ([] : List Char) ∧ pa.take 2 ≠ cs "//") by simp)]
      have hss : splitScheme (pa ++ qp) = ([], pa ++ qp) := by
        rcases HpaA rfl rfl with hpa0 | hsl | hinv
        · subst hpa0
          rw [List.nil_append]
          rcases hqp with ⟨rfl, _⟩ | rfl
          · exact splitScheme_none rfl
          · exact splitScheme_head_not_alpha rfl (by decide)
        · rcases take1_eq_cons hsl with ⟨t, rfl⟩
          exact splitScheme_head_not_alpha rfl (by decide)
        · rcases hbp : breakAt ':' pa with ⟨p, o⟩
          cases o with
          | some r =>
            exact splitScheme_some_invalid (breakAt_append_some qp hbp) (hinv p r hbp)
          | none =>
            have hp : p = pa := by
              have h7 := breakAt_snd_none ':' pa (by rw [hbp])
              rw [hbp] at h7
              exact h7
            subst hp
            have hcolon : ':' ∉ p := by
              have h7 := breakAt_fst_not_mem ':' p
              rw [hbp] at h7
              exact h7
            rcases hqp with ⟨rfl, _⟩ | rfl
            · refine splitScheme_none ?_
              rw [breakAt_append_none [] hcolon]
              rfl
            · rcases hbq : breakAt ':' ('?' :: q) with ⟨p2, o2⟩
              cases o2 with
              | none =>
                refine splitScheme_none ?_
                rw [breakAt_append_none _ hcolon, hbq]
              | some r2 =>
                have hb2 : breakAt ':' (p ++ '?' :: q) = (p ++ p2, some r2) := by
                  rw [breakAt_append_none _ hcolon, hbq]
                have hp2 : '?' ∈ p2 := by
                  rw [breakAt_cons, if_neg (by decide)] at hbq
                  simp only [Prod.mk.injEq] at hbq
                  rw [← hbq.1]
                  exact List.mem_cons_self _ _
                exact splitScheme_some_invalid hb2
                  (validPre_false_of_mem (List.mem_append.mpr (Or.inr hp2)) (by decide))
      have hhead : ∀ c, (pa ++ qp).head? = some c → strippableChar c = false := by
        rcases pa with _ | ⟨a, t⟩
        · rw [List.nil_append]
          rcases hqp with ⟨rfl, _⟩ | rfl
          · intro c hc
            simp at hc
          · intro c hc
            have hqc : '?' = c := by simpa using hc
            rw [← hqc]
            decide
        · intro c hc
          have hac : a = c := by simpa using hc
          exact hac ▸ HheadA rfl rfl a rfl
      rw [urlsplitChars_components (cleanUrl_id_of (unsafe_append HpaU hqpU) hhead) hss
        (netlocSplit_default (paqp_take2 hqp (Htake2 rfl))) hfq.1 hfq.2]
      rw [hquery]
      rw [if_neg (show ¬(([] : List Char) ≠ [] ∧ usesNetlocSchemes.contains ([] : List Char)
        = true ∧ ([] : List Char) = [] ∧ pa ≠ [] ∧ pa.take 1 ≠ cs "/") by simp)]
      rfl
    · -- Case B : no scheme, netloc present.
      rw [if_pos (Or.inl hn0)]
      rw [if_neg (show ¬(pa ≠ [] ∧ pa.take 1 ≠ cs "/") by
        rcases Hshape hn0 with h | h
        · exact fun hcon => hcon.1 h
        · exact fun hcon => hcon.2 h)]
      have hvshape : (cs "//" ++ n ++ pa) ++ qp = '/' :: '/' :: (n ++ (pa ++ qp)) := by
        rw [hcs]
        simp only [List.cons_append, List.nil_append, List.append_assoc]
      rw [hvshape]
      have hhead : ∀ c, ('/' :: '/' :: (n ++ (pa ++ qp))).head? = some c →
          strippableChar c = false := by
        intro c hc
        have hcc : '/' = c := by simpa using hc
        rw [← hcc]
        decide
      have hU : ∀ c ∈ '/' :: '/' :: (n ++ (pa ++ qp)), unsafeChar c = false :=
        unsafe_cons (by decide) (unsafe_cons (by decide)
          (unsafe_append HnU (unsafe_append HpaU hqpU)))
      rw [urlsplitChars_components (cleanUrl_id_of hU hhead)
        (splitScheme_head_not_alpha rfl (by decide))
        (netloc_phase Hn (paqp_head_delim hqp (Hshape hn0))) hfq.1 hfq.2]
      rw [hquery]
      rw [if_neg (show ¬(([] : List Char) ≠ [] ∧ usesNetlocSchemes.contains ([] : List Char)
        = true ∧ n = [] ∧ pa ≠ [] ∧ pa.take 1 ≠ cs "/") by simp)]
      rfl
  · -- Scheme present.
    rcases Hs with hcon | ⟨hv, hmap⟩
    · exact absurd hcon hs0
    rw [if_pos hs0]
    rcases s with _ | ⟨a, t⟩
    · exact absurd rfl hs0
    have ha : a.isAlpha = true := (Bool.and_eq_true_iff.mp hv).1
    have hsU : ∀ c ∈ a :: t, unsafeChar c = false := unsafe_scheme hv
    have hheadS : ∀ (rest : List Char) (c : Char),
        ((a :: t) ++ ':' :: rest).head? = some c → strippableChar c = false := by
      intro rest c hc
      have hac : a = c := by simpa using hc
      exact hac ▸ alpha_not_strippable a ha
    by_cases hn0 : n = []
    · subst hn0
      by_cases huse : usesNetlocSchemes.contains (a :: t) = true
      · -- Case D1 : scheme in uses_netloc, empty netloc.
        rw [if_pos (Or.inr ⟨by simp, huse, Htake2 rfl⟩)]
        by_cases hshapeD : pa = [] ∨ pa.take 1 = cs "/"
        · -- D1a / D1b : the path already starts with a slash or is empty.
          rw [if_neg (show ¬(pa ≠ [] ∧ pa.take 1 ≠ cs "/") by
            rcases hshapeD with h | h
            · exact fun hcon => hcon.1 h
            · exact fun hcon => hcon.2 h)]
          have hvshape : ((a :: t) ++ ':' :: (cs "//" ++ [] ++ pa)) ++ qp
              = (a :: t) ++ ':' :: ('/' :: '/' :: ([] ++ (pa ++ qp))) := by
            rw [hcs]
            simp only [List.cons_append, List.nil_append, List.append_assoc]
          rw [hvshape]
          have hU : ∀ c ∈ (a :: t) ++ ':' :: ('/' :: '/' :: ([] ++ (pa ++ qp))),
              unsafeChar c = false :=
            unsafe_append hsU (unsafe_cons (by decide) (unsafe_cons (by decide)
              (unsafe_cons (by decide) (unsafe_append (by intro c hc; simp at hc)
                (unsafe_append HpaU hqpU)))))
          rw [urlsplitChars_components (cleanUrl_id_of hU (hheadS _))
            (scheme_phase _ hv hmap)
            (netloc_phase (by rfl) (paqp_head_delim hqp hshapeD)) hfq.1 hfq.2]
          rw [hquery]
          rw [if_neg (show ¬((a :: t) ≠ [] ∧ usesNetlocSchemes.contains (a :: t) = true ∧
              ([] : List Char) = [] ∧ pa ≠ [] ∧ pa.take 1 ≠ cs "/") by
            rcases hshapeD with h | h
            · exact fun hcon => hcon.2.2.2.1 h
            · exact fun hcon => hcon.2.2.2.2 h)]
          rfl
        · -- D1c : a slash is prepended to the path.
          push_neg at hshapeD
          rw [if_pos ⟨hshapeD.1, hshapeD.2⟩]
          have hvshape : ((a :: t) ++ ':' :: (cs "//" ++ [] ++ ('/' :: pa))) ++ qp
              = (a :: t) ++ ':' :: ('/' :: '/' :: ([] ++ (('/' :: pa) ++ qp))) := by
            rw [hcs]
            simp only [List.cons_append, List.nil_append, List.append_assoc]
          rw [hvshape]
          have hU : ∀ c ∈ (a :: t) ++ ':' :: ('/' :: '/' :: ([] ++ (('/' :: pa) ++ qp))),
              unsafeChar c = false :=
            unsafe_append hsU (unsafe_cons (by decide) (unsafe_cons (by decide)
              (unsafe_cons (by decide) (unsafe_append (by intro c hc; simp at hc)
                (unsafe_append (unsafe_cons (by decide) HpaU) hqpU)))))
          have hpa1c : '#' ∉ '/' :: pa := by
            intro hm
            rcases List.mem_cons.mp hm with hm | hm
            · exact absurd hm (by decide)
            · exact Hpa1 hm
          have hpa2c : '?' ∉ '/' :: pa := by
            intro hm
            rcases List.mem_cons.mp hm with hm | hm
            · exact absurd hm (by decide)
            · exact Hpa2 hm
          have hfqc := frag_query_phase hqp Hq1 hpa1c hpa2c
          rw [urlsplitChars_components (cleanUrl_id_of hU (hheadS _))
            (scheme_phase _ hv hmap)
            (netloc_phase (by rfl) (Or.inr ⟨'/', pa ++ qp, rfl, by decide⟩))
            hfqc.1 hfqc.2]
          rw [hquery]
          rw [if_pos ⟨by simp, huse, rfl, hshapeD.1, hshapeD.2⟩]
          rfl
      · -- Case D2 : scheme not in uses_netloc, empty netloc.
        rw [if_neg (show ¬(([] : List Char) ≠ [] ∨ (a :: t) ≠ [] ∧
            usesNetlocSchemes.contains (a :: t) ∧ pa.take 2 ≠ cs "//") by
          intro hcon
          rcases hcon with h | ⟨_, hcont, _⟩
          · exact h rfl
          · exact huse hcont)]
        have hvshape : ((a :: t) ++ ':' :: pa) ++ qp
            = (a :: t) ++ ':' :: (pa ++ qp) := by
          simp only [List.cons_append, List.append_assoc]
        rw [hvshape]
        have hU : ∀ c ∈ (a :: t) ++ ':' :: (pa ++ qp), unsafeChar c = false :=
          unsafe_append hsU (unsafe_cons (by decide) (unsafe_append HpaU hqpU))
        rw [urlsplitChars_components (cleanUrl_id_of hU (hheadS _))
          (scheme_phase _ hv hmap)
          (netlocSplit_default (paqp_take2 hqp (Htake2 rfl))) hfq.1 hfq.2]
        rw [hquery]
        rw [if_neg (show ¬((a :: t) ≠ [] ∧ usesNetlocSchemes.contains (a :: t) = true ∧
            ([] : List Char) = [] ∧ pa ≠ [] ∧ pa.take 1 ≠ cs "/") from
          fun hcon => huse hcon.2.1)]
        rfl
    · -- Case C : scheme and netloc present.
      rw [if_pos (Or.inl hn0)]
      rw [if_neg (show ¬(pa ≠ [] ∧ pa.take 1 ≠ cs "/") by
        rcases Hshape hn0 with h | h
        · exact fun hcon => hcon.1 h
        · exact fun hcon => hcon.2 h)]
      have hvshape : ((a :: t) ++ ':' :: (cs "//" ++ n ++ pa)) ++ qp
          = (a :: t) ++ ':' :: ('/' :: '/' :: (n ++ (pa ++ qp))) := by
        rw [hcs]
        simp only [List.cons_append, List.nil_append, List.append_assoc]
      rw [hvshape]
      have hU : ∀ c ∈ (a :: t) ++ ':' :: ('/' :: '/' :: (n ++ (pa ++ qp))),
          unsafeChar c = false :=
        unsafe_append hsU (unsafe_cons (by decide) (unsafe_cons (by decide)
          (unsafe_cons (by decide) (unsafe_append HnU (unsafe_append HpaU hqpU)))))
      rw [urlsplitChars_components (cleanUrl_id_of hU (hheadS _))
        (scheme_phase _ hv hmap)
        (netloc_phase Hn (paqp_head_delim hqp (Hshape hn0))) hfq.1 hfq.2]
      rw [hquery]
      rw [if_neg (show ¬((a :: t) ≠ [] ∧ usesNetlocSchemes.contains (a :: t) = true ∧
          n = [] ∧ pa ≠ [] ∧ pa.take 1 ≠ cs "/") from fun hcon => hn0 hcon.2.2.1)]
      rfl

theorem unsplit_slash_case (s pa2 q2 : List Char) (hs : s ≠ [])
    (hcont : usesNetlocSchemes.contains s = true) (h2 : pa2.take 2 ≠ cs "//")
    (hne : pa2 ≠ []) (ht1 : pa2.take 1 ≠ cs "/") :
    urlunsplitChars ⟨s, [], '/' :: pa2, q2, []⟩ = urlunsplitChars ⟨s, [], pa2, q2, []⟩ := by
  rw [urlunsplit_nf, urlunsplit_nf]
  have hc2 : ('/' :: pa2).take 2 ≠ cs "//" := by
    intro hcon
    refine ht1 ?_
    rw [show ('/' :: pa2).take 2 = '/' :: pa2.take 1 from rfl,
      show cs "//" = ['/', '/'] from rfl] at hcon
    rw [show cs "/" = ['/'] from rfl]
    simpa using hcon
  have hcond1 : ([] : List Char) ≠ [] ∨ (s ≠ [] ∧ usesNetlocSchemes.contains s ∧
      ('/' :: pa2).take 2 ≠ cs "//") := Or.inr ⟨hs, hcont, hc2⟩
  have hcond2 : ([] : List Char) ≠ [] ∨ (s ≠ [] ∧ usesNetlocSchemes.contains s ∧
      pa2.take 2 ≠ cs "//") := Or.inr ⟨hs, hcont, h2⟩
  have hcond3 : pa2 ≠ [] ∧ pa2.take 1 ≠ cs "/" := ⟨hne, ht1⟩
  rw [if_pos hcond1, if_pos hcond2]
  rw [if_neg (show ¬('/' :: pa2 ≠ [] ∧ ('/' :: pa2).take 1 ≠ cs "/") from
    fun hcon => hcon.2 rfl)]
  rw [if_pos hcond3]

theorem normChars_idem (u0 : List Char)
    (h : ¬((urlsplitChars u0).netloc = [] ∧ (urlsplitChars u0).path.take 2 = cs "//")) :
    normChars (normChars u0) = normChars u0 := by
  have hnc : ∀ w, normChars w = urlunsplitChars
      ⟨(urlsplitChars w).scheme, (urlsplitChars w).netloc.map lowerChar,
       rstripSlash (urlsplitChars w).path, filterQueryChars (urlsplitChars w).query, []⟩ :=
    fun w => rfl
  have hpre := rstripSlash_pref (urlsplitChars u0).path
  have hmapnil : ∀ {l : List Char}, l.map lowerChar = [] → l = [] := by
    intro l hl
    cases l
    · rfl
    · simp at hl
  have Hn2 : ((urlsplitChars u0).netloc.map lowerChar).all (fun c => !netlocDelim c)
      = true := by
    rw [List.all_map, show ((fun c => !netlocDelim c) ∘ lowerChar) = (fun c => !netlocDelim c)
      from funext fun c => by simp only [Function.comp_apply, lowerChar_netlocDelim]]
    exact urlsplit_netloc_all u0
  have HnU2 : ∀ c ∈ (urlsplitChars u0).netloc.map lowerChar, unsafeChar c = false := by
    intro c hc
    rcases List.mem_map.mp hc with ⟨d, hd, rfl⟩
    rw [lowerChar_unsafeChar]
    exact cleanUrl_not_unsafeChar u0 d (urlsplit_netloc_mem u0 d hd)
  have Hpa12 : '#' ∉ rstripSlash (urlsplitChars u0).path :=
    fun hm => urlsplit_path_no_hash u0 (mem_of_pref hpre hm)
  have Hpa22 : '?' ∉ rstripSlash (urlsplitChars u0).path :=
    fun hm => urlsplit_path_no_q u0 (mem_of_pref hpre hm)
  have HpaU2 : ∀ c ∈ rstripSlash (urlsplitChars u0).path, unsafeChar c = false :=
    fun c hc => cleanUrl_not_unsafeChar u0 c (urlsplit_path_mem u0 c (mem_of_pref hpre hc))
  have Hq12 : '#' ∉ filterQueryChars (urlsplitChars u0).query := by
    intro hm
    rcases mem_filterQuery _ '#' hm with hm | hm
    · exact urlsplit_query_no_hash u0 hm
    · exact absurd hm (by decide)
  have HqU2 : ∀ c ∈ filterQueryChars (urlsplitChars u0).query, unsafeChar c = false := by
    intro c hc
    rcases mem_filterQuery _ c hc with hm | rfl
    · exact cleanUrl_not_unsafeChar u0 c (urlsplit_query_mem u0 c hm)
    · decide
  have Hshape2 : (urlsplitChars u0).netloc.map lowerChar ≠ [] →
      rstripSlash (urlsplitChars u0).path = [] ∨
        (rstripSlash (urlsplitChars u0).path).take 1 = cs "/" := by
    intro hn
    have hnet : (urlsplitChars u0).netloc ≠ [] := fun hcon => hn (by rw [hcon]; rfl)
    rcases urlsplit_slashslash_path u0 (urlsplit_netloc_ne_slashslash u0 hnet) with hp | hp
    · left
      rw [hp]
      rfl
    · rcases hpa0 : rstripSlash (urlsplitChars u0).path with _ | ⟨b, tb⟩
      · exact Or.inl rfl
      · right
        have hlen : ((rstripSlash (urlsplitChars u0).path).take 1).length = 1 := by
          rw [hpa0]
          rfl
        have heq := prefix_take_eq hpre hlen
        rw [hpa0] at heq
        rw [heq] at hp
        exact hp
  have Htake22 : (urlsplitChars u0).netloc.map lowerChar = [] →
      (rstripSlash (urlsplitChars u0).path).take 2 ≠ cs "//" := by
    intro hn hcon
    have hnet : (urlsplitChars u0).netloc = [] := hmapnil hn
    have hlen : ((rstripSlash (urlsplitChars u0).path).take 2).length = 2 := by
      rw [hcon]
      rfl
    have heq := prefix_take_eq hpre hlen
    rw [hcon] at heq
    exact h ⟨hnet, heq⟩
  have HpaA2 : (urlsplitChars u0).scheme = [] →
      (urlsplitChars u0).netloc.map lowerChar = [] →
      rstripSlash (urlsplitChars u0).path = [] ∨
        (rstripSlash (urlsplitChars u0).path).take 1 = cs "/" ∨
        ∀ p rest, breakAt ':' (rstripSlash (urlsplitChars u0).path) = (p, some rest) →
          validPre p = false := by
    intro hsch hn
    have hnet : (urlsplitChars u0).netloc = [] := hmapnil hn
    rcases urlsplit_caseA_colon u0 hsch hnet with hp | hp | hinv
    · left
      rw [hp]
      rfl
    · rcases hpa0 : rstripSlash (urlsplitChars u0).path with _ | ⟨b, tb⟩
      · exact Or.inl rfl
      · right
        left
        have hlen : ((rstripSlash (urlsplitChars u0).path).take 1).length = 1 := by
          rw [hpa0]
          rfl
        have heq := prefix_take_eq hpre hlen
        rw [hpa0] at heq
        rw [heq] at hp
        exact hp
    · right
      right
      intro p rest hb
      have h9 := breakAt_snd_some ':' (rstripSlash (urlsplitChars u0).path) rest
        (by rw [hb])
      rw [hb] at h9
      have hcolp : ':' ∉ p := by
        have h10 := breakAt_fst_not_mem ':' (rstripSlash (urlsplitChars u0).path)
        rw [hb] at h10
        exact h10
      rcases hpre with ⟨tail, htail⟩
      have hbig : (urlsplitChars u0).path = p ++ ':' :: (rest ++ tail) := by
        rw [← htail, h9]
        simp
      exact hinv p (rest ++ tail) (by rw [hbig]; exact breakAt_elem _ hcolp)
  have HheadA2 : (urlsplitChars u0).scheme = [] →
      (urlsplitChars u0).netloc.map lowerChar = [] →
      ∀ c, (rstripSlash (urlsplitChars u0).path).head? = some c →
        strippableChar c = false := by
    intro hsch hn c hc
    have hnet : (urlsplitChars u0).netloc = [] := hmapnil hn
    have hne : rstripSlash (urlsplitChars u0).path ≠ [] := by
      intro hcon
      rw [hcon] at hc
      simp at hc
    rw [← prefix_head? hpre hne] at hc
    exact urlsplit_caseA_head u0 hsch hnet c hc
  have hsplit := urlsplit_of_urlunsplit (urlsplitChars u0).scheme
    ((urlsplitChars u0).netloc.map lowerChar) (rstripSlash (urlsplitChars u0).path)
    (filterQueryChars (urlsplitChars u0).query)
    (urlsplit_scheme_valid u0) Hn2 HnU2 Hpa12 Hpa22 HpaU2 Hq12 HqU2 Hshape2 Htake22
    HpaA2 HheadA2
  rw [hnc u0]
  rw [hnc]
  rw [hsplit]
  dsimp only
  have hnn : (((urlsplitChars u0).netloc.map lowerChar).map lowerChar)
      = (urlsplitChars u0).netloc.map lowerChar := by
    rw [List.map_map, show lowerChar ∘ lowerChar = lowerChar from
      funext fun c => lowerChar_idem c]
  rw [hnn, filterQuery_idem]
  by_cases hcond : (urlsplitChars u0).scheme ≠ [] ∧
      usesNetlocSchemes.contains (urlsplitChars u0).scheme = true ∧
      (urlsplitChars u0).netloc.map lowerChar = [] ∧
      rstripSlash (urlsplitChars u0).path ≠ [] ∧
      (rstripSlash (urlsplitChars u0).path).take 1 ≠ cs "/"
  · rw [if_pos hcond]
    have hrs : rstripSlash ('/' :: rstripSlash (urlsplitChars u0).path)
        = '/' :: rstripSlash (urlsplitChars u0).path := by
      refine rstripSlash_id_of_getLast ?_
      rw [show ('/' :: rstripSlash (urlsplitChars u0).path)
        = ['/'] ++ rstripSlash (urlsplitChars u0).path from rfl,
        getLast?_append_ne_nil hcond.2.2.2.1]
      exact rstripSlash_getLast _
    rw [hrs, hcond.2.2.1]
    exact unsplit_slash_case _ _ _ hcond.1 hcond.2.1 (Htake22 hcond.2.2.1)
      hcond.2.2.2.1 hcond.2.2.2.2
  · rw [if_neg hcond, rstripSlash_idem]

/-- C9 (amended): `normalize_url` is idempotent on every URL whose `urlsplit`
does not produce an empty netloc together with a path starting `//`: for such
URLs a second normalization pass returns the first pass's output unchanged.
(The excluded URLs, e.g. `http:////X`, collapse differently on each pass.) -/
theorem normalize_url_idempotent_on_good_urls (u : String)
    (h : ¬((urlsplitChars u.data).netloc = [] ∧
          (urlsplitChars u.data).path.take 2 = cs "//")) :
    normalize_url (normalize_url u) = normalize_url u :=
  congrArg String.mk (normChars_idem u.data h)

/-- C9 (amended, witness): the fixture URL has a nonempty netloc, so the
idempotence theorem applies to it. -/
theorem normalize_url_idempotent_on_good_urls_witness :
    ¬((urlsplitChars ("https://Shop.Test/products/X/?utm_source=fb" : String).data).netloc
        = [] ∧
      (urlsplitChars ("https://Shop.Test/products/X/?utm_source=fb" : String).data).path.take 2
        = cs "//") ∧
    normalize_url (normalize_url "https://Shop.Test/products/X/?utm_source=fb")
      = normalize_url "https://Shop.Test/products/X/?utm_source=fb" :=
  ⟨by decide, normalize_url_idempotent_on_good_urls _ (by decide)⟩

end Webcrawler
